import Mathlib

/-!
Shallow embedding of the bounded tree builder of this repository
(`src/tree_build.rs`), together with proofs of the specified properties.

Modelling conventions:
* Filesystem paths are lists of components (`Path := List String`); reading a
  directory, reading a link target and `lstat` metadata are supplied by an
  environment record `Env` (the builder only observes the filesystem through
  these calls).
* The external `GitIgnoreFilter` capability (out of scope per the spec) is
  represented by its extension chain: the list of directory paths it was
  `extended_to` through, starting from `applicable_to(root)` which is the
  empty chain.  Its `accepts` test is an oracle of the environment.
* The `TaskLifetime` cancellation token and the 400 ms clock are oracles of
  the environment indexed by the main-loop iteration count.
* Machine integers (`usize`, `u16`, `u32`) become `Nat`; `i32` scores and
  counters become `Int` (the code only compares and copies them, so no
  wrap-around is observable).
* Rust's `str::to_lowercase` and byte-lexicographic `String` ordering are
  modelled on the character list (`Char.toLower` pointwise, code-point
  lexicographic order).
-/

namespace TreeBuild

/-- `flat_tree::LineType` -/
inductive LineType where
  | dir : LineType
  | file : LineType
  | symLink (target : String) : LineType
deriving DecidableEq, Repr

/-- `tree_options::OptionBool` (only the variants used by the builder). -/
inductive OptionBool where
  | no : OptionBool
  | yes : OptionBool
  | auto : OptionBool
deriving DecidableEq, Repr

/-- A filesystem path, as its list of components. -/
abbrev Path := List String

/-- One `fs::DirEntry` as the builder observes it: its (possibly
non-decodable) name, its file type (possibly erroring), and the link target
returned by `read_link` when it is a symlink. -/
structure DirEntry where
  fname : String
  nameDecodes : Bool
  ftypeOk : Bool
  isDir : Bool
  isSymlink : Bool
  linkTarget : Except Unit String
deriving Repr

/-- The external world: `read_dir` listings (`Except.error` = the directory
read fails; an `Except.error` entry = the iterator yields `Err`),
the gitignore oracle, the cancellation token and the soft clock polled at
each main-loop iteration, and `symlink_metadata`. -/
structure Env where
  fs : Path → Except Unit (List (Except Unit DirEntry))
  rootGifFilesEmpty : Bool
  gifAccepts : List Path → Path → String → Bool → Bool
  expired : Nat → Bool
  elapsedLong : Nat → Bool
  meta : Path → Option (Nat × Nat × Nat)

/-- `tree_options::TreeOptions` as consumed by the builder; the pattern is
the caller-supplied scoring capability (`None` = no pattern). -/
structure TreeOptions where
  show_hidden : Bool
  only_folders : Bool
  show_sizes : Bool
  respect_git_ignore : OptionBool
  pattern : Option (String → Option Int)

/-- `tree_build::BLine`. -/
structure BLine where
  parent_idx : Nat
  path : Path
  depth : Nat
  name : String
  children_loaded : Bool
  children : List Nat
  next_child_idx : Nat
  line_type : LineType
  has_error : Bool
  has_match : Bool
  score : Int
  ignore_filter : Option (List Path)
  nb_kept_children : Int
deriving DecidableEq, Repr

instance : Inhabited BLine :=
  ⟨{ parent_idx := 0, path := [], depth := 0, name := "", children_loaded := false,
     children := [], next_child_idx := 0, line_type := LineType.dir, has_error := false,
     has_match := false, score := 0, ignore_filter := none, nb_kept_children := 0 }⟩

/-- `tree_build::BLineResult`. -/
inductive BLineResult where
  | ok (b : BLine) : BLineResult
  | filteredOutAsHidden : BLineResult
  | filteredOutByPattern : BLineResult
  | filteredOutAsNonFolder : BLineResult
  | gitIgnored : BLineResult
  | invalid : BLineResult
deriving DecidableEq

/-- Rust `name.starts_with('.')`, on the character list so that it evaluates
in the kernel. -/
def startsWithDot (s : String) : Bool :=
  match s.data with
  | [] => false
  | c :: _ => c == '.'

/-- Rust `str::to_lowercase`, modelled characterwise. -/
def lowerKey (s : String) : List Char :=
  s.data.map Char.toLower

/-- Code-point lexicographic order on character lists: the model of Rust's
`Ord` on `String` (byte order on UTF-8 agrees with code-point order). -/
def charListLe : List Char → List Char → Bool
  | [], _ => true
  | _ :: _, [] => false
  | a :: as, b :: bs =>
    if a.toNat < b.toNat then true
    else if b.toNat < a.toNat then false
    else charListLe as bs

/-- `BLine::from_root` (`applicable_to(root)` is the empty extension chain;
whether its rule-file list is empty is the environment's
`rootGifFilesEmpty`). -/
def BLine.from_root (env : Env) (path : Path) (respect_ignore : OptionBool) : BLine :=
  let name := match path.getLast? with
    | some name => name
    | none => "???"
  let ignore_filter : Option (List Path) :=
    if respect_ignore = OptionBool.no then none
    else if respect_ignore = OptionBool.auto && env.rootGifFilesEmpty then none
    else some []
  { parent_idx := 0, path := path, depth := 0, name := name, children_loaded := false,
    children := [], next_child_idx := 0, line_type := LineType.dir, has_error := false,
    has_match := true, score := 0, ignore_filter := ignore_filter, nb_kept_children := 0 }

/-- The pattern test of `BLine::from`: `(has_match, score)` for a name
(`has_match` stays true and the score 0 when no pattern is configured). -/
def patternScore (options : TreeOptions) (name : String) : Bool × Int :=
  match options.pattern with
  | some pattern =>
    match pattern name with
    | some m => (true, m)
    | none => (false, 0)
  | none => (true, 0)

/-- The `file_type` dispatch of `BLine::from`: either an early rejection
(pattern, then `only_folders`, applied only to symlinks and regular files,
never to directories), or `(is_dir, line_type)`. -/
def entryLineType (options : TreeOptions) (e : DirEntry) (has_match : Bool) :
    Sum BLineResult (Bool × LineType) :=
  if e.isDir then Sum.inr (true, LineType.dir)
  else if e.isSymlink then
    if !has_match then Sum.inl BLineResult.filteredOutByPattern
    else if options.only_folders then Sum.inl BLineResult.filteredOutAsNonFolder
    else Sum.inr (false, LineType.symLink (match e.linkTarget with
      | Except.ok target => target
      | Except.error _ => "???"))
  else
    if !has_match then Sum.inl BLineResult.filteredOutByPattern
    else if options.only_folders then Sum.inl BLineResult.filteredOutAsNonFolder
    else Sum.inr (false, LineType.file)

/-- The record built by `BLine::from` on success. -/
def mkChildBLine (parent_idx : Nat) (path : Path) (depth : Nat) (name : String)
    (line_type : LineType) (has_match : Bool) (score : Int)
    (ignore_filter : Option (List Path)) : BLine :=
  { parent_idx := parent_idx, path := path, depth := depth, name := name,
    children_loaded := false, children := [], next_child_idx := 0,
    line_type := line_type, has_error := false, has_match := has_match,
    score := score, ignore_filter := ignore_filter, nb_kept_children := 0 }

/-- `BLine::from`: build a child `BLine` from a directory entry, applying the
filters exactly in the source's order (name decodability, the hidden-name
filter, the file type, the pattern and `only_folders` per file type, then
the ignore filter). -/
def BLine.fromEntry (env : Env) (options : TreeOptions) (parent_idx : Nat)
    (parentPath : Path) (e : DirEntry) (depth : Nat)
    (parent_ignore_filter : Option (List Path)) : BLineResult :=
  if !e.nameDecodes then BLineResult.invalid
  else if !options.show_hidden && startsWithDot e.fname then
    BLineResult.filteredOutAsHidden
  else if !e.ftypeOk then BLineResult.invalid
  else
    match entryLineType options e (patternScore options e.fname).1 with
    | Sum.inl r => r
    | Sum.inr (is_dir, line_type) =>
      match parent_ignore_filter with
      | some gif =>
        if !env.gifAccepts gif (parentPath ++ [e.fname]) e.fname is_dir then
          BLineResult.gitIgnored
        else
          BLineResult.ok (mkChildBLine parent_idx (parentPath ++ [e.fname]) depth
            e.fname line_type (patternScore options e.fname).1
            (patternScore options e.fname).2
            (if is_dir then some (gif ++ [parentPath ++ [e.fname]]) else none))
      | none =>
        BLineResult.ok (mkChildBLine parent_idx (parentPath ++ [e.fname]) depth
          e.fname line_type (patternScore options e.fname).1
          (patternScore options e.fname).2 none)

/-- Read `self.blines[i]` (in-bounds in every reachable state; the default
only totalizes the function). -/
def getB (bs : List BLine) (i : Nat) : BLine :=
  bs.getD i default

/-- Write `self.blines[i]`. -/
def setB (bs : List BLine) (i : Nat) (b : BLine) : List BLine :=
  bs.set i b

/-- `tree_build::SortableBLineIdx`. -/
structure SortableBLineIdx where
  idx : Nat
  score : Int
deriving DecidableEq, Repr

instance : Inhabited SortableBLineIdx := ⟨⟨0, 0⟩⟩

/-- `Ord for SortableBLineIdx` (inverted on scores: the smallest score is the
greatest element, so it sits at the top of the max-heap; equal scores compare
`Equal`). -/
def SortableBLineIdx.cmp (a b : SortableBLineIdx) : Ordering :=
  if a.score = b.score then Ordering.eq
  else if a.score < b.score then Ordering.gt
  else Ordering.lt

/-- `a <= b` for the heap's element order. -/
def sliLe (a b : SortableBLineIdx) : Bool :=
  !(SortableBLineIdx.cmp a b == Ordering.gt)

/-- `a > b` for the heap's element order. -/
def sliGt (a b : SortableBLineIdx) : Bool :=
  SortableBLineIdx.cmp a b == Ordering.gt

/-- Swap two positions of the heap's backing vector. -/
def lswap (l : List SortableBLineIdx) (i j : Nat) : List SortableBLineIdx :=
  (l.set i (l.getD j default)).set j (l.getD i default)

/-- `BinaryHeap::sift_up` (Rust std): move the element at `pos` towards the
root while it is strictly greater than its parent.  `pos` strictly decreases,
so `pos` itself is enough fuel. -/
def siftUpF : Nat → List SortableBLineIdx → Nat → Nat → List SortableBLineIdx
  | 0, data, _, _ => data
  | fuel + 1, data, start, pos =>
    if pos > start then
      if sliLe (data.getD pos default) (data.getD ((pos - 1) / 2) default) then data
      else siftUpF fuel (lswap data pos ((pos - 1) / 2)) start ((pos - 1) / 2)
    else data

/-- `sift_up` with its canonical fuel: the walk to the root takes at most
`pos` steps because the parent index strictly decreases. -/
def siftUp (data : List SortableBLineIdx) (start pos : Nat) : List SortableBLineIdx :=
  siftUpF pos data start pos

/-- `BinaryHeap::push`. -/
def heapPush (data : List SortableBLineIdx) (x : SortableBLineIdx) :
    List SortableBLineIdx :=
  siftUp (data ++ [x]) 0 data.length

/-- Inside the descent of `sift_down_to_bottom`: the greater of the two
children of `pos` (the right child on an `Equal` comparison, exactly as the
source's `!(left > right)` test). -/
def pickChild (data : List SortableBLineIdx) (pos : Nat) : Nat :=
  if 2 * pos + 2 < data.length &&
      !(sliGt (data.getD (2 * pos + 1) default) (data.getD (2 * pos + 2) default)) then
    2 * pos + 2
  else 2 * pos + 1

/-- The body of `BinaryHeap::sift_down_to_bottom`'s descent: walk the hole to
the bottom along the greater child, returning the final hole position.  The
child index at least doubles each step, so the length of the vector is
enough fuel. -/
def siftDownF : Nat → List SortableBLineIdx → Nat → Nat
  | 0, _, pos => pos
  | fuel + 1, data, pos =>
    if 2 * pos + 1 < data.length then
      siftDownF fuel (lswap data pos (pickChild data pos)) (pickChild data pos)
    else pos

/-- The permutation performed by the descent (the hole walk is a sequence of
swaps). -/
def siftDownSwaps : Nat → List SortableBLineIdx → Nat → List SortableBLineIdx
  | 0, data, _ => data
  | fuel + 1, data, pos =>
    if 2 * pos + 1 < data.length then
      siftDownSwaps fuel (lswap data pos (pickChild data pos)) (pickChild data pos)
    else data

/-- `BinaryHeap::sift_down_to_bottom pos`. -/
def siftDownToBottom (data : List SortableBLineIdx) (pos : Nat) :
    List SortableBLineIdx :=
  let final := siftDownF data.length data pos
  siftUp (siftDownSwaps data.length data pos) pos final

/-- `BinaryHeap::pop`: remove the last element of the vector, and if the heap
is still non-empty swap it with the root and sift down.  (On a non-empty
vector `data.getLast?.getD default` is exactly the popped last element.) -/
def heapPop (data : List SortableBLineIdx) :
    Option (SortableBLineIdx × List SortableBLineIdx) :=
  if data.isEmpty then none
  else if data.dropLast.isEmpty then some (data.getLast?.getD default, [])
  else some (data.dropLast.getD 0 default,
    siftDownToBottom (data.dropLast.set 0 (data.getLast?.getD default)) 0)

/-- The mutable state of `TreeBuilder` (its `options` and `targeted_size`
are immutable and passed separately). -/
structure Builder where
  blines : List BLine
  nb_gitignored : Nat
deriving Repr

/-- `TreeBuilder::store`: append the bline, return its index. -/
def store (bs : List BLine) (b : BLine) : List BLine × Nat :=
  (bs ++ [b], bs.length)

/-- One entry of the `read_dir` iterator inside `load_children` (skipping
`Err` entries like the source's `if let Ok(e)`), accumulating the stored
children, the gitignored count and the direct-match flag, and setting the
parent's `has_match` as soon as a directly matching child is found. -/
def loadEntryStep (env : Env) (options : TreeOptions) (bline_idx : Nat)
    (acc : Builder × List Nat × Bool) (ent : Except Unit DirEntry) :
    Builder × List Nat × Bool :=
  match ent with
  | Except.error _ => acc
  | Except.ok e =>
    let (b, children, has_child_match) := acc
    let parent := getB b.blines bline_idx
    match BLine.fromEntry env options bline_idx parent.path e (parent.depth + 1)
        parent.ignore_filter with
    | BLineResult.ok bl =>
      let b :=
        if bl.has_match then
          { b with blines := setB b.blines bline_idx { parent with has_match := true } }
        else b
      let (blines, idx) := store b.blines bl
      ({ b with blines := blines }, children ++ [idx], has_child_match || bl.has_match)
    | BLineResult.gitIgnored =>
      ({ b with nb_gitignored := b.nb_gitignored + 1 }, children, has_child_match)
    | _ => acc

/-- The comparator of the `children.sort_by` call: compare the lowercased
names of the two blines. -/
def childLe (bs : List BLine) (a b : Nat) : Bool :=
  charListLe (lowerKey (getB bs a).name) (lowerKey (getB bs b).name)

/-- Insert one index into a run sorted by `le` (helper of `sortByLe`). -/
def insertLe (le : Nat → Nat → Bool) (x : Nat) : List Nat → List Nat
  | [] => [x]
  | y :: ys => if le x y then x :: y :: ys else y :: insertLe le x ys

/-- The `children.sort_by` call, as a stable insertion sort.  (Rust's
`sort_by` is also stable, so on the comparator's ties the two produce the
same order; a structurally recursive sort is used so that concrete builds
evaluate inside the kernel.) -/
def sortByLe (le : Nat → Nat → Bool) : List Nat → List Nat
  | [] => []
  | x :: xs => insertLe le x (sortByLe le xs)

/-- The `children_loaded = true` write at the top of `load_children`. -/
def markLoaded (b : Builder) (idx : Nat) : Builder :=
  { b with blines := setB b.blines idx { getB b.blines idx with children_loaded := true } }

/-- The `has_error = true` write of `load_children`'s failure branch. -/
def markError (b : Builder) (idx : Nat) : Builder :=
  { b with blines := setB b.blines idx { getB b.blines idx with has_error := true } }

/-- A bline with new children appended. -/
def withChildren (bl : BLine) (cs : List Nat) : BLine :=
  { bl with children := bl.children ++ cs }

/-- The tail of `load_children`'s success branch: sort the accepted children
by lowercased name and append them to the node's children. -/
def attachSorted (b : Builder) (idx : Nat) (children : List Nat) : Builder :=
  { b with blines := setB b.blines idx (withChildren (getB b.blines idx) (sortByLe (childLe b.blines) children)) }

/-- `TreeBuilder::load_children`: mark the node loaded, read the directory
(setting `has_error` on failure), build a bline per entry, sort the accepted
children by lowercased name and append them to the node's children.  Returns
the updated builder and whether some child directly matched.  (The source
sets `children_loaded` before calling `read_dir`; both writes commute since
the path is unchanged, and the match below reads the path before any
write.) -/
def load_children (env : Env) (options : TreeOptions) (b : Builder)
    (bline_idx : Nat) : Builder × Bool :=
  match env.fs (getB b.blines bline_idx).path with
  | Except.ok entries =>
    match entries.foldl (loadEntryStep env options bline_idx)
        (markLoaded b bline_idx, [], false) with
    | (b2, children, has_child_match) =>
      (attachSorted b2 bline_idx children, has_child_match)
  | Except.error _ => (markError (markLoaded b bline_idx) bline_idx, false)

/-- `TreeBuilder::next_child`. -/
def next_child (bs : List BLine) (bline_idx : Nat) : List BLine × Option Nat :=
  if (getB bs bline_idx).next_child_idx < (getB bs bline_idx).children.length then
    (setB bs bline_idx { getB bs bline_idx with next_child_idx := (getB bs bline_idx).next_child_idx + 1 },
     some ((getB bs bline_idx).children.getD (getB bs bline_idx).next_child_idx 0))
  else (bs, none)

/-- The state of `gather_lines`' main loop. -/
structure GSt where
  b : Builder
  out : List Nat
  nbOk : Nat
  openDirs : List Nat
  nextLevel : List Nat
  iter : Nat
deriving Repr

/-- The ancestor-fixing walk of `gather_lines` (lines 362-374): climb the
parent chain from `idx`, setting `has_match` and counting each node that was
not yet matched, stopping when the parent is the root.  Parent indices
strictly decrease in the arena, so `idx` is enough fuel. -/
def setMatched (bs : List BLine) (idx : Nat) : List BLine :=
  setB bs idx { getB bs idx with has_match := true }

def ancestorWalk : Nat → List BLine → Nat → Nat → List BLine × Nat
  | fuel, bs, idx, nbOk =>
    if !(getB bs idx).has_match then
      if (getB bs idx).parent_idx = 0 then (setMatched bs idx, nbOk + 1)
      else match fuel with
        | 0 => (setMatched bs idx, nbOk + 1)
        | fuel + 1 =>
          ancestorWalk fuel (setMatched bs idx) (getB bs idx).parent_idx (nbOk + 1)
    else
      if (getB bs idx).parent_idx = 0 then (bs, nbOk)
      else match fuel with
        | 0 => (bs, nbOk)
        | fuel + 1 => ancestorWalk fuel bs (getB bs idx).parent_idx nbOk

/-- One next-level directory inside the level-change step: load its children,
fix the ancestors when a direct child matched, and push it onto the open
FIFO. -/
def levelDirStep (env : Env) (options : TreeOptions)
    (acc : Builder × Nat × List Nat) (idx : Nat) : Builder × Nat × List Nat :=
  let (b, nbOk, openDirs) := acc
  let (b, has_child_match) := load_children env options b idx
  let (blines, nbOk) :=
    if has_child_match then ancestorWalk idx b.blines idx nbOk
    else (b.blines, nbOk)
  ({ b with blines := blines }, nbOk, openDirs ++ [idx])

/-- One main-loop iteration's body (after the budget and cancellation
checks): serve the next child of the head open directory, drop an exhausted
open directory, or switch to the next depth level.  Returns the next state,
or `none` when the loop breaks because both the FIFO and the next-level set
are empty. -/
def gatherStep (env : Env) (options : TreeOptions) (st : GSt) : Option GSt :=
  match st.openDirs with
  | open_dir_idx :: rest =>
    match next_child st.b.blines open_dir_idx with
    | (blines, some child_idx) =>
      let child := getB blines child_idx
      let nbOk := if child.has_match then st.nbOk + 1 else st.nbOk
      let nextLevel :=
        if child.line_type = LineType.dir then st.nextLevel ++ [child_idx]
        else st.nextLevel
      some { b := { st.b with blines := blines }, out := st.out ++ [child_idx],
             nbOk := nbOk, openDirs := rest ++ [open_dir_idx],
             nextLevel := nextLevel, iter := st.iter + 1 }
    | (blines, none) =>
      let b := { st.b with blines := blines }
      some { st with b := b, openDirs := rest, iter := st.iter + 1 }
  | [] =>
    if st.nextLevel.isEmpty then none
    else
      let (b, nbOk, openDirs) :=
        st.nextLevel.foldl (levelDirStep env options) (st.b, st.nbOk, st.openDirs)
      some { b := b, out := st.out, nbOk := nbOk, openDirs := openDirs,
             nextLevel := [], iter := st.iter + 1 }

/-- The main loop of `gather_lines`.  The outer `none` is fuel exhaustion (a
model artifact: every claim is about executions that finish); `some none` is
the cancelled run; `some (some st)` a normal exit of the loop. -/
def gatherLoop (env : Env) (options : TreeOptions) (targeted_size : Nat) :
    Nat → GSt → Option (Option GSt)
  | 0, _ => none
  | fuel + 1, st =>
    if options.pattern.isSome then
      if st.nbOk > 20 * targeted_size ||
          (decide (st.nbOk ≥ targeted_size) && env.elapsedLong st.iter) then
        some (some st)
      else if env.expired st.iter then some none
      else
        match gatherStep env options st with
        | some st' => gatherLoop env options targeted_size fuel st'
        | none => some (some st)
    else if st.nbOk ≥ targeted_size then some (some st)
    else
      match gatherStep env options st with
      | some st' => gatherLoop env options targeted_size fuel st'
      | none => some (some st)

/-- The `show_sizes` drain at the end of `gather_lines`: finish reading the
root's children past the bottom of the screen.  Each step consumes one
pending child of the root, so the root's child count is enough fuel. -/
def drainRoot : Nat → List BLine → List Nat → List BLine × List Nat
  | 0, bs, out => (bs, out)
  | fuel + 1, bs, out =>
    match next_child bs 0 with
    | (bs, some child_idx) => drainRoot fuel bs (out ++ [child_idx])
    | (bs, none) => (bs, out)

/-- `TreeBuilder::gather_lines`, from the builder freshly seeded with the
root: push the root on the candidate list, load its children, run the main
loop, and drain the root when `show_sizes` is set. -/
def gather_lines (env : Env) (options : TreeOptions) (targeted_size : Nat)
    (b : Builder) (fuel : Nat) : Option (Option (Builder × List Nat)) :=
  let out : List Nat := [0]
  let (b, _) := load_children env options b 0
  match gatherLoop env options targeted_size fuel
      { b := b, out := out, nbOk := 1, openDirs := [0], nextLevel := [], iter := 0 } with
  | none => none
  | some none => some none
  | some (some st) =>
    if options.show_sizes then
      let (blines, out) :=
        drainRoot (getB st.b.blines 0).children.length st.b.blines st.out
      some (some ({ st.b with blines := blines }, out))
    else some (some (st.b, st.out))

/-- Phase 1 of `trim_excess`: count the matched lines and seed
`nb_kept_children` on the parents. -/
def trimCountStep (acc : List BLine × Nat) (idx : Nat) : List BLine × Nat :=
  let (bs, count) := acc
  if (getB bs idx).has_match then
    let parent_idx := (getB bs idx).parent_idx
    let parent := getB bs parent_idx
    (setB bs parent_idx { parent with nb_kept_children := parent.nb_kept_children + 1 },
     count + 1)
  else (bs, count)

/-- Phase 2 of `trim_excess`: seed the removal queue with the matched leaves
of the kept sub-tree (keeping the complete first level when showing
sizes). -/
def trimSeedStep (options : TreeOptions) (bs : List BLine)
    (queue : List SortableBLineIdx) (idx : Nat) : List SortableBLineIdx :=
  let bline := getB bs idx
  if bline.has_match && bline.nb_kept_children == 0 &&
      (decide (bline.depth > 1) || !options.show_sizes) then
    heapPush queue { idx := idx, score := bline.score }
  else queue

/-- The removal loop of `trim_excess`: while more than `targeted_size` lines
are kept, pop the worst queued line, clear its `has_match`, decrement its
parent's kept-children counter, and queue the parent when the counter reaches
zero.  `count` strictly decreases, so it is its own fuel. -/
def trimLoop (targeted_size : Nat) :
    Nat → List SortableBLineIdx → List BLine → List BLine × Nat × List SortableBLineIdx
  | 0, queue, bs => (bs, 0, queue)
  | count + 1, queue, bs =>
    if count + 1 ≤ targeted_size then (bs, count + 1, queue)
    else
      match heapPop queue with
      | none => (bs, count + 1, queue)
      | some (sli, queue) =>
        let bs := setB bs sli.idx { getB bs sli.idx with has_match := false }
        let parent_idx := (getB bs sli.idx).parent_idx
        let parent := getB bs parent_idx
        let parent := { parent with nb_kept_children := parent.nb_kept_children - 1 }
        let bs := setB bs parent_idx parent
        let queue :=
          if parent.nb_kept_children == 0 then
            heapPush queue { idx := parent_idx, score := parent.score }
          else queue
        trimLoop targeted_size count queue bs

/-- `TreeBuilder::trim_excess`. -/
def trim_excess (options : TreeOptions) (targeted_size : Nat) (bs : List BLine)
    (out : List Nat) : List BLine :=
  let (bs, count) := (out.drop 1).foldl trimCountStep (bs, 1)
  let queue := (out.drop 1).foldl (trimSeedStep options bs) []
  (trimLoop targeted_size count queue bs).1

/-- `flat_tree::TreeLine`. -/
structure TreeLine where
  left_branchs : List Bool
  depth : Nat
  name : String
  path : Path
  line_type : LineType
  has_error : Bool
  unlisted : Nat
  score : Int
  mode : Nat
  uid : Nat
  gid : Nat
  size : Option Nat
deriving DecidableEq, Repr

/-- `BLine::to_tree_line` (`symlink_metadata` is the environment's `meta`;
mode, uid and gid default to 0 when it fails). -/
def to_tree_line (env : Env) (bl : BLine) : TreeLine :=
  let mug := match env.meta bl.path with
    | some mug => mug
    | none => (0, 0, 0)
  { left_branchs := List.replicate bl.depth false, depth := bl.depth, name := bl.name,
    path := bl.path, line_type := bl.line_type, has_error := bl.has_error,
    unlisted := bl.children.length - bl.next_child_idx, score := bl.score,
    mode := mug.1, uid := mug.2.1, gid := mug.2.2, size := none }

/-- `flat_tree::Tree` (the `options` echo is omitted: it carries the caller's
closures and plays no role in any observable property). -/
structure Tree where
  lines : List TreeLine
  selection : Nat
  scroll : Int
  nb_gitignored : Nat
deriving DecidableEq, Repr

/-- One step of `into_tree`'s emission loop: load a matched, never-loaded
directory so its `unlisted` count is right, then materialize its line. -/
def emitStep (env : Env) (options : TreeOptions) (acc : Builder × List TreeLine)
    (idx : Nat) : Builder × List TreeLine :=
  let (b, lines) := acc
  if (getB b.blines idx).has_match then
    let b :=
      if !(getB b.blines idx).children_loaded then
        if (getB b.blines idx).line_type = LineType.dir then
          (load_children env options b idx).1
        else b
      else b
    (b, lines ++ [to_tree_line env (getB b.blines idx)])
  else (b, lines)

/-- `TreeBuilder::into_tree`.  `Tree::after_lines_changed` and
`Tree::fetch_file_sizes` live in `flat_tree.rs` / the external sizer, outside
the specified core; modelled from the spec: the finalizer walks the candidate
list in order and materializes one line per kept candidate, and the sizer
only fills the `size` fields, so both leave the emitted line sequence as
built here. -/
def into_tree (env : Env) (options : TreeOptions) (b : Builder) (out : List Nat) :
    Tree :=
  let (b, lines) := out.foldl (emitStep env options) (b, [])
  { lines := lines, selection := 0, scroll := 0, nb_gitignored := b.nb_gitignored }

/-- `TreeBuilder::from`: seed the arena with the root bline. -/
def builderFrom (env : Env) (path : Path) (options : TreeOptions) : Builder :=
  { blines := [BLine.from_root env path options.respect_git_ignore], nb_gitignored := 0 }

/-- `TreeBuilder::build`: gather, and unless the task was cancelled, trim the
excess and finalize.  Outer `none` = fuel exhaustion (model artifact);
`some none` = cancelled (`build` returned `None`); `some (some t)` = the
built tree. -/
def build (env : Env) (path : Path) (options : TreeOptions) (targeted_size : Nat)
    (fuel : Nat) : Option (Option Tree) :=
  let b := builderFrom env path options
  match gather_lines env options targeted_size b fuel with
  | none => none
  | some none => some none
  | some (some (b, out)) =>
    let blines := trim_excess options targeted_size b.blines out
    some (some (into_tree env options { b with blines := blines } out))

/-- `build`, also exposing the final builder state (after the finalizer's
loads) and the candidate list; `build` is its `Tree` projection.  Used to
state properties of the internal arena. -/
def buildFull (env : Env) (path : Path) (options : TreeOptions) (targeted_size : Nat)
    (fuel : Nat) : Option (Option (Builder × List Nat × Tree)) :=
  let b := builderFrom env path options
  match gather_lines env options targeted_size b fuel with
  | none => none
  | some none => some none
  | some (some (b, out)) =>
    let blines := trim_excess options targeted_size b.blines out
    let (bFin, lines) := out.foldl (emitStep env options) ({ b with blines := blines }, [])
    some (some (bFin, out,
      { lines := lines, selection := 0, scroll := 0, nb_gitignored := bFin.nb_gitignored }))

/-! ### Basic lemmas about the arena accessors -/

theorem length_setB (bs : List BLine) (i : Nat) (b : BLine) :
    (setB bs i b).length = bs.length :=
  List.length_set bs i b

theorem getB_setB_self {bs : List BLine} {i : Nat} (b : BLine) (h : i < bs.length) :
    getB (setB bs i b) i = b := by
  simp [getB, setB, List.getD_eq_getElem?_getD, List.getElem?_set_self h]

theorem getB_setB_ne {bs : List BLine} {i j : Nat} (b : BLine) (h : i ≠ j) :
    getB (setB bs i b) j = getB bs j := by
  simp [getB, setB, List.getD_eq_getElem?_getD, List.getElem?_set_ne h]

theorem getB_append_left {bs l : List BLine} {i : Nat} (h : i < bs.length) :
    getB (bs ++ l) i = getB bs i := by
  simp [getB, List.getD_eq_getElem?_getD, List.getElem?_append_left h]

theorem getB_append_self (bs : List BLine) (b : BLine) :
    getB (bs ++ [b]) bs.length = b := by
  simp [getB, List.getD_append_right _ _ _ _ (Nat.le_refl _)]

theorem getB_oob {bs : List BLine} {i : Nat} (h : bs.length ≤ i) :
    getB bs i = default := by
  simp [getB, List.getD_eq_getElem?_getD, List.getElem?_eq_none h]

theorem getB_eq_getElem {bs : List BLine} {i : Nat} (h : i < bs.length) :
    getB bs i = bs[i] := by
  simp [getB, List.getD_eq_getElem?_getD, List.getElem?_eq_getElem h]

/-! ### The heap model: permutation lemmas -/

theorem lswap_perm {l : List SortableBLineIdx} {i j : Nat}
    (hi : i < l.length) (hj : j < l.length) : (lswap l i j).Perm l := by
  rw [List.perm_iff_count]
  intro a
  have hj' : j < (l.set i (l.getD j default)).length := by
    simpa using hj
  unfold lswap
  rw [List.count_set _ _ _ _ hj', List.count_set _ _ _ _ hi]
  have hgi : l.getD i default = l[i] := by
    simp [List.getD_eq_getElem?_getD, List.getElem?_eq_getElem hi]
  have hgj : l.getD j default = l[j] := by
    simp [List.getD_eq_getElem?_getD, List.getElem?_eq_getElem hj]
  have hset : (l.set i (l.getD j default))[j] = l[j] := by
    rw [List.getElem_set]
    rcases eq_or_ne i j with h | h
    · subst h
      simp [List.getElem?_eq_getElem hi]
    · simp [h]
  rw [hset, hgi, hgj]
  have hcount_i : (if (l[i] == a) = true then 1 else 0) ≤ List.count a l := by
    split
    · next hia =>
      have : a ∈ l := by
        have := List.getElem_mem hi
        rwa [eq_of_beq hia] at this
      simpa [List.count_pos_iff] using List.count_pos_iff.mpr this
    · exact Nat.zero_le _
  have hcount_j : (if (l[j] == a) = true then 1 else 0) ≤ List.count a l := by
    split
    · next hja =>
      have : a ∈ l := by
        have := List.getElem_mem hj
        rwa [eq_of_beq hja] at this
      simpa [List.count_pos_iff] using List.count_pos_iff.mpr this
    · exact Nat.zero_le _
  omega

theorem length_lswap (l : List SortableBLineIdx) (i j : Nat) :
    (lswap l i j).length = l.length := by
  simp [lswap]

theorem siftUpF_perm :
    ∀ (fuel : Nat) (data : List SortableBLineIdx) (start pos : Nat),
      pos < data.length → (siftUpF fuel data start pos).Perm data
  | 0, data, _, _, _ => List.Perm.refl data
  | fuel + 1, data, start, pos, h => by
    unfold siftUpF
    split
    · next hgt =>
      split
      · exact List.Perm.refl data
      · have hpar : (pos - 1) / 2 < data.length :=
          Nat.lt_of_le_of_lt (Nat.le_trans (Nat.div_le_self _ _) (Nat.sub_le _ _)) h
        exact List.Perm.trans
          (siftUpF_perm fuel _ start _ (by rw [length_lswap]; exact hpar))
          (lswap_perm h hpar)
    · exact List.Perm.refl data

theorem siftUp_perm {data : List SortableBLineIdx} {start pos : Nat}
    (h : pos < data.length) : (siftUp data start pos).Perm data :=
  siftUpF_perm pos data start pos h

theorem heapPush_perm (data : List SortableBLineIdx) (x : SortableBLineIdx) :
    (heapPush data x).Perm (x :: data) := by
  have h1 : (siftUp (data ++ [x]) 0 data.length).Perm (data ++ [x]) :=
    siftUp_perm (by simp)
  exact List.Perm.trans h1 (List.perm_append_singleton x data)

theorem pickChild_lt {data : List SortableBLineIdx} {pos : Nat}
    (h : 2 * pos + 1 < data.length) : pickChild data pos < data.length := by
  unfold pickChild
  split
  · next hcc =>
    have := (Bool.and_eq_true _ _ ▸ hcc).1
    exact of_decide_eq_true this
  · exact h

theorem length_siftDownSwaps :
    ∀ (fuel : Nat) (data : List SortableBLineIdx) (pos : Nat),
      (siftDownSwaps fuel data pos).length = data.length
  | 0, _, _ => rfl
  | fuel + 1, data, pos => by
    unfold siftDownSwaps
    split
    · rw [length_siftDownSwaps fuel, length_lswap]
    · rfl

theorem siftDownSwaps_perm :
    ∀ (fuel : Nat) (data : List SortableBLineIdx) (pos : Nat),
      pos < data.length → (siftDownSwaps fuel data pos).Perm data
  | 0, data, _, _ => List.Perm.refl data
  | fuel + 1, data, pos, h => by
    unfold siftDownSwaps
    split
    · next hch =>
      have hc2 : pickChild data pos < data.length := pickChild_lt hch
      exact List.Perm.trans
        (siftDownSwaps_perm fuel _ _ (by rw [length_lswap]; exact hc2))
        (lswap_perm h hc2)
    · exact List.Perm.refl data

theorem siftDownF_lt :
    ∀ (fuel : Nat) (data : List SortableBLineIdx) (pos : Nat),
      pos < data.length → siftDownF fuel data pos < data.length
  | 0, _, _, h => h
  | fuel + 1, data, pos, h => by
    unfold siftDownF
    split
    · next hch =>
      have hc2 : pickChild data pos < data.length := pickChild_lt hch
      have := siftDownF_lt fuel (lswap data pos (pickChild data pos)) (pickChild data pos)
        (by rw [length_lswap]; exact hc2)
      rwa [length_lswap] at this
    · exact h

theorem siftDownToBottom_perm {data : List SortableBLineIdx} {pos : Nat}
    (h : pos < data.length) : (siftDownToBottom data pos).Perm data := by
  unfold siftDownToBottom
  have hswaps := siftDownSwaps_perm data.length data pos h
  have hlen := length_siftDownSwaps data.length data pos
  have hfin : siftDownF data.length data pos < data.length := siftDownF_lt _ _ _ h
  exact List.Perm.trans (siftUp_perm (by rw [hlen]; exact hfin)) hswaps

theorem heapPop_eq_none_iff (data : List SortableBLineIdx) :
    heapPop data = none ↔ data = [] := by
  unfold heapPop
  by_cases he : data.isEmpty
  · simp [he, List.isEmpty_iff.mp he]
  · rw [if_neg he]
    have hne : ¬data = [] := fun h => he (List.isEmpty_iff.mpr h)
    by_cases hre : data.dropLast.isEmpty <;> simp [hre, hne]

theorem heapPop_perm {data d' : List SortableBLineIdx} {x : SortableBLineIdx}
    (h : heapPop data = some (x, d')) : (x :: d').Perm data := by
  have hne : data ≠ [] := by
    intro hc
    subst hc
    simp [heapPop] at h
  have hee : data.isEmpty = false := by
    simp [hne]
  unfold heapPop at h
  rw [hee] at h
  simp only [Bool.false_eq_true, if_false] at h
  have hlast : data.getLast?.getD default = data.getLast hne := by
    rw [List.getLast?_eq_getLast data hne]
    rfl
  have hdata : data = data.dropLast ++ [data.getLast hne] :=
    (List.dropLast_append_getLast hne).symm
  by_cases hre : data.dropLast.isEmpty
  · rw [if_pos hre] at h
    simp only [Option.some.injEq, Prod.mk.injEq] at h
    obtain ⟨hx, hd'⟩ := h
    subst hd'
    rw [List.isEmpty_iff] at hre
    conv_rhs => rw [hdata, hre]
    rw [← hx, hlast]
    exact List.Perm.refl _
  · rw [if_neg hre] at h
    simp only [Option.some.injEq, Prod.mk.injEq] at h
    obtain ⟨hx, hd'⟩ := h
    rw [List.isEmpty_iff] at hre
    obtain ⟨hd, tl, hrest⟩ : ∃ hd tl, data.dropLast = hd :: tl := by
      cases hdl : data.dropLast with
      | nil => exact absurd hdl hre
      | cons hd tl => exact ⟨hd, tl, rfl⟩
    have hitem : x = hd := by
      rw [← hx, hrest]
      rfl
    have hset : data.dropLast.set 0 (data.getLast?.getD default) = data.getLast hne :: tl := by
      rw [hrest, hlast]
      rfl
    have hperm1 : d'.Perm (data.dropLast.set 0 (data.getLast?.getD default)) := by
      rw [← hd']
      apply siftDownToBottom_perm
      simp [hrest]
    have hstep : (x :: d').Perm (x :: (data.getLast hne :: tl)) :=
      List.Perm.cons x (hperm1.trans (by rw [hset]))
    refine hstep.trans ?_
    conv_rhs => rw [hdata, hrest]
    rw [hitem]
    refine List.Perm.cons hd ?_
    exact (List.perm_append_singleton (data.getLast hne) tl).symm

theorem heapPop_mem {data d' : List SortableBLineIdx} {x : SortableBLineIdx}
    (h : heapPop data = some (x, d')) : x ∈ data :=
  (heapPop_perm h).mem_iff.mp (List.mem_cons_self x d')

/-! ### The lowercased-name order is total and transitive -/

theorem charListLe_total : ∀ as bs : List Char, (charListLe as bs || charListLe bs as) = true
  | [], bs => by cases bs <;> simp [charListLe]
  | _ :: _, [] => by simp [charListLe]
  | a :: as, b :: bs => by
    simp only [charListLe]
    rcases Nat.lt_trichotomy a.toNat b.toNat with h | h | h
    · simp [h]
    · have ih := charListLe_total as bs
      rw [if_neg (by omega), if_neg (by omega), if_neg (by omega), if_neg (by omega)]
      exact ih
    · simp [h, Nat.lt_asymm h]

theorem charListLe_trans : ∀ as bs cs : List Char,
    charListLe as bs = true → charListLe bs cs = true → charListLe as cs = true
  | [], _, cs, _, _ => by cases cs <;> simp [charListLe]
  | _ :: _, [], _, h, _ => by simp [charListLe] at h
  | _ :: _, _ :: _, [], _, h => by simp [charListLe] at h
  | a :: as, b :: bs, c :: cs, h1, h2 => by
    simp only [charListLe] at h1 h2 ⊢
    rcases Nat.lt_trichotomy a.toNat b.toNat with hab | hab | hab
    · rcases Nat.lt_trichotomy b.toNat c.toNat with hbc | hbc | hbc
      · simp [Nat.lt_trans hab hbc]
      · simp [show a.toNat < c.toNat by omega]
      · rw [if_neg (by omega), if_pos hbc] at h2
        exact absurd h2 (by simp)
    · rw [if_neg (by omega), if_neg (by omega)] at h1
      rcases Nat.lt_trichotomy b.toNat c.toNat with hbc | hbc | hbc
      · simp [show a.toNat < c.toNat by omega]
      · rw [if_neg (by omega), if_neg (by omega)] at h2
        rw [if_neg (by omega), if_neg (by omega)]
        exact charListLe_trans as bs cs h1 h2
      · rw [if_neg (by omega), if_pos hbc] at h2
        exact absurd h2 (by simp)
    · rw [if_neg (by omega), if_pos hab] at h1
      exact absurd h1 (by simp)

/-! ### Characterization of a successfully built child bline -/

theorem fromEntry_ok_shape {env : Env} {options : TreeOptions} {parent_idx : Nat}
    {parentPath : Path} {e : DirEntry} {depth : Nat} {pif : Option (List Path)}
    {bl : BLine}
    (h : BLine.fromEntry env options parent_idx parentPath e depth pif =
      BLineResult.ok bl) :
    ∃ line_type ignore_filter,
      bl = mkChildBLine parent_idx (parentPath ++ [e.fname]) depth e.fname line_type
        (patternScore options e.fname).1 (patternScore options e.fname).2
        ignore_filter := by
  unfold BLine.fromEntry at h
  split_ifs at h
  rcases hlt : entryLineType options e (patternScore options e.fname).1 with r | ⟨is_dir, lt⟩
  · rw [hlt] at h
    dsimp only at h
    have : r = BLineResult.ok bl := h
    subst this
    exact absurd hlt (by
      unfold entryLineType
      split_ifs <;> simp)
  · rw [hlt] at h
    dsimp only at h
    cases pif with
    | none =>
      dsimp only at h
      simp only [BLineResult.ok.injEq] at h
      exact ⟨lt, none, h.symm⟩
    | some gif =>
      dsimp only at h
      split_ifs at h <;>
        (simp only [BLineResult.ok.injEq] at h; exact ⟨lt, _, h.symm⟩)

theorem fromEntry_ok_fields {env : Env} {options : TreeOptions} {parent_idx : Nat}
    {parentPath : Path} {e : DirEntry} {depth : Nat} {pif : Option (List Path)}
    {bl : BLine}
    (h : BLine.fromEntry env options parent_idx parentPath e depth pif =
      BLineResult.ok bl) :
    bl.parent_idx = parent_idx ∧ bl.depth = depth ∧ bl.name = e.fname ∧
    bl.path = parentPath ++ [e.fname] ∧ bl.children = [] ∧ bl.next_child_idx = 0 ∧
    bl.children_loaded = false ∧ bl.has_error = false ∧ bl.nb_kept_children = 0 := by
  obtain ⟨lt, ifil, rfl⟩ := fromEntry_ok_shape h
  simp [mkChildBLine]

/-! ### Characterization of the entry loop of `load_children` -/

/-- The invariant carried by the accumulator of `load_children`'s entry loop
relative to the builder `b0` it started from (`idx` is the directory being
loaded): the arena only grew by fresh child blines, the only touched existing
bline is the parent's `has_match`, and the accumulated `children` are exactly
the fresh indices, in increasing order. -/
structure LoadAcc (options : TreeOptions) (b0 : Builder) (idx : Nat) (acc : Builder × List Nat × Bool) :
    Prop where
  len_le : b0.blines.length ≤ acc.1.blines.length
  frame : ∀ j, j < b0.blines.length → j ≠ idx → getB acc.1.blines j = getB b0.blines j
  parent_eq : getB acc.1.blines idx =
    { getB b0.blines idx with
      has_match := (getB b0.blines idx).has_match || acc.2.2 }
  cs_lt : ∀ c ∈ acc.2.1, b0.blines.length ≤ c ∧ c < acc.1.blines.length
  cs_sorted : acc.2.1.Pairwise (· < ·)
  cs_cover : ∀ j, b0.blines.length ≤ j → j < acc.1.blines.length → j ∈ acc.2.1
  child_fields : ∀ c ∈ acc.2.1,
    (getB acc.1.blines c).parent_idx = idx ∧
    (getB acc.1.blines c).depth = (getB b0.blines idx).depth + 1 ∧
    (getB acc.1.blines c).path =
      (getB b0.blines idx).path ++ [(getB acc.1.blines c).name] ∧
    (getB acc.1.blines c).children = [] ∧
    (getB acc.1.blines c).next_child_idx = 0 ∧
    (getB acc.1.blines c).children_loaded = false ∧
    (getB acc.1.blines c).nb_kept_children = 0 ∧
    (getB acc.1.blines c).has_error = false ∧
    (options.pattern = none → (getB acc.1.blines c).has_match = true)
  hcm_iff : acc.2.2 = true ↔ ∃ c ∈ acc.2.1, (getB acc.1.blines c).has_match = true

/-- The number of entries of a listing that `BLine::from` rejects as
git-ignored, for a parent at index `idx` with the given path, depth and
ignore filter. -/
def countIgnored (env : Env) (options : TreeOptions) (idx : Nat) (ppath : Path)
    (pdepth : Nat) (pifil : Option (List Path))
    (ents : List (Except Unit DirEntry)) : Nat :=
  ents.countP (fun ent =>
    match ent with
    | Except.error _ => false
    | Except.ok e =>
      decide (BLine.fromEntry env options idx ppath e (pdepth + 1) pifil =
        BLineResult.gitIgnored))

theorem loadAcc_init (options : TreeOptions) (b0 : Builder) (idx : Nat) :
    LoadAcc options b0 idx (b0, [], false) where
  len_le := Nat.le_refl _
  frame := fun _ _ _ => rfl
  parent_eq := by simp
  cs_lt := by simp
  cs_sorted := List.Pairwise.nil
  cs_cover := fun j h1 h2 => by
    change j < b0.blines.length at h2
    omega
  child_fields := by simp
  hcm_iff := by simp

theorem loadEntryStep_inv {env : Env} {options : TreeOptions} {b0 : Builder}
    {idx : Nat} {acc : Builder × List Nat × Bool} (hidx : idx < b0.blines.length)
    (h : LoadAcc options b0 idx acc) (ent : Except Unit DirEntry) :
    LoadAcc options b0 idx (loadEntryStep env options idx acc ent) ∧
    (loadEntryStep env options idx acc ent).1.nb_gitignored =
      acc.1.nb_gitignored +
        countIgnored env options idx (getB b0.blines idx).path
          (getB b0.blines idx).depth (getB b0.blines idx).ignore_filter [ent] := by
  obtain ⟨b, cs, hcm⟩ := acc
  have hidx' : idx < b.blines.length := Nat.lt_of_lt_of_le hidx h.len_le
  cases ent with
  | error u =>
    refine ⟨h, ?_⟩
    simp [loadEntryStep, countIgnored]
  | ok e =>
    have hpath : (getB b.blines idx).path = (getB b0.blines idx).path := by
      rw [h.parent_eq]
    have hdepth : (getB b.blines idx).depth = (getB b0.blines idx).depth := by
      rw [h.parent_eq]
    have hfil : (getB b.blines idx).ignore_filter =
        (getB b0.blines idx).ignore_filter := by
      rw [h.parent_eq]
    simp only [loadEntryStep]
    rcases hres : BLine.fromEntry env options idx (getB b.blines idx).path e
        ((getB b.blines idx).depth + 1) (getB b.blines idx).ignore_filter
      with bl | _ | _ | _ | _ | _
    case gitIgnored =>
      dsimp only
      constructor
      · exact {
          len_le := h.len_le
          frame := h.frame
          parent_eq := h.parent_eq
          cs_lt := h.cs_lt
          cs_sorted := h.cs_sorted
          cs_cover := h.cs_cover
          child_fields := h.child_fields
          hcm_iff := h.hcm_iff }
      · rw [hpath, hdepth, hfil] at hres
        simp [countIgnored, hres]
    case ok =>
      dsimp only
      have hflds := fromEntry_ok_fields hres
      set b1 : Builder := (if bl.has_match = true then { b with blines := setB b.blines idx { getB b.blines idx with has_match := true } } else b) with hb1
      have hb1len : b1.blines.length = b.blines.length := by
        rw [hb1]; split <;> simp [length_setB]
      have hb1git : b1.nb_gitignored = b.nb_gitignored := by
        rw [hb1]; split <;> rfl
      have hb1frame : ∀ j, j ≠ idx → getB b1.blines j = getB b.blines j := by
        intro j hj
        rw [hb1]
        split
        · exact getB_setB_ne _ (fun hc => hj hc.symm)
        · rfl
      have hb1parent : getB b1.blines idx =
          { getB b0.blines idx with
            has_match := (getB b0.blines idx).has_match || (hcm || bl.has_match) } := by
      -- placeholder
        rw [hb1]
        split
        · next hm =>
          rw [getB_setB_self _ hidx', h.parent_eq, hm]
          simp
        · next hm =>
          rw [h.parent_eq]
          simp only [Bool.not_eq_true] at hm
          rw [hm]
          simp
      have hL : b0.blines.length ≤ b.blines.length := h.len_le
      refine ⟨?_, ?_⟩
      · constructor
        · -- len_le
          simp only [store, List.length_append, hb1len, List.length_singleton]
          omega
        · -- frame
          intro j hj hne
          simp only [store]
          rw [getB_append_left (by rw [hb1len]; exact Nat.lt_of_lt_of_le hj h.len_le),
            hb1frame j hne]
          exact h.frame j hj hne
        · -- parent_eq
          simp only [store]
          rw [getB_append_left (by rw [hb1len]; exact hidx'), hb1parent]
        · -- cs_lt
          intro c hc
          simp only [store, List.length_append, List.length_singleton, hb1len]
          rcases List.mem_append.mp hc with hc | hc
          · have hcc := h.cs_lt c hc
            dsimp only at hcc
            omega
          · simp only [store, hb1len, List.mem_singleton] at hc
            subst hc
            omega
        · -- cs_sorted
          refine List.pairwise_append.mpr ⟨h.cs_sorted, List.pairwise_singleton _ _, ?_⟩
          intro c hc c' hc'
          simp only [store, List.mem_singleton] at hc'
          subst hc'
          rw [hb1len]
          exact (h.cs_lt c hc).2
        · -- cs_cover
          intro j h1 h2
          simp only [store, List.length_append, List.length_singleton, hb1len] at h2
          rw [List.mem_append]
          rcases Nat.lt_or_ge j b.blines.length with hlt | hge
          · exact Or.inl (h.cs_cover j h1 hlt)
          · right
            simp only [store, hb1len, List.mem_singleton]
            omega
        · -- child_fields
          intro c hc
          rcases List.mem_append.mp hc with hc | hc
          · obtain ⟨hclt1, hclt2⟩ := h.cs_lt c hc
            have hcne : c ≠ idx := by omega
            simp only [store]
            rw [getB_append_left (by rw [hb1len]; exact hclt2), hb1frame c hcne]
            exact h.child_fields c hc
          · simp only [store, List.mem_singleton] at hc
            subst hc
            simp only [store]
            rw [getB_append_self]
            obtain ⟨f1, f2, f3, f4, f5, f6, f7, f8, f9⟩ := hflds
            have hnp : options.pattern = none → bl.has_match = true := by
              intro hpn
              obtain ⟨lt2, ifil2, hbl⟩ := fromEntry_ok_shape hres
              rw [hbl]
              simp [mkChildBLine, patternScore, hpn]
            refine ⟨f1, by rw [f2, hdepth], by rw [f4, f3, hpath], f5, f6, f7, f9, f8, hnp⟩
        · -- hcm_iff
          constructor
          · intro hor
            rcases Bool.or_eq_true _ _ ▸ hor with hh | hh
            · obtain ⟨c, hc, hcm2⟩ := h.hcm_iff.mp hh
              obtain ⟨hclt1, hclt2⟩ := h.cs_lt c hc
              refine ⟨c, List.mem_append.mpr (Or.inl hc), ?_⟩
              simp only [store]
              rw [getB_append_left (by rw [hb1len]; exact hclt2),
                hb1frame c (by omega)]
              exact hcm2
            · refine ⟨b1.blines.length, ?_, ?_⟩
              · simp only [store]
                rw [hb1len]
                exact List.mem_append.mpr (Or.inr (by simp))
              · simp only [store]
                rw [getB_append_self]
                exact hh
          · rintro ⟨c, hc, hcmc⟩
            simp only [store] at hc hcmc
            rcases List.mem_append.mp hc with hc | hc
            · obtain ⟨hclt1, hclt2⟩ := h.cs_lt c hc
              rw [getB_append_left (by rw [hb1len]; exact hclt2),
                hb1frame c (by omega)] at hcmc
              exact Bool.or_eq_true _ _ ▸ Or.inl (h.hcm_iff.mpr ⟨c, hc, hcmc⟩)
            · simp only [List.mem_singleton] at hc
              subst hc
              rw [getB_append_self] at hcmc
              exact Bool.or_eq_true _ _ ▸ Or.inr hcmc
      · -- gitignored count: an accepted entry is not counted
        rw [hpath, hdepth, hfil] at hres
        simp [countIgnored, hres, hb1git]
    all_goals
      dsimp only
      rw [hpath, hdepth, hfil] at hres
      exact ⟨h, by simp [countIgnored, hres]⟩

theorem loadFold_inv (env : Env) (options : TreeOptions) {b0 : Builder} {idx : Nat}
    (hidx : idx < b0.blines.length) :
    ∀ (ents : List (Except Unit DirEntry)) (acc : Builder × List Nat × Bool),
      LoadAcc options b0 idx acc →
      LoadAcc options b0 idx (ents.foldl (loadEntryStep env options idx) acc) ∧
      (ents.foldl (loadEntryStep env options idx) acc).1.nb_gitignored =
        acc.1.nb_gitignored +
          countIgnored env options idx (getB b0.blines idx).path
            (getB b0.blines idx).depth (getB b0.blines idx).ignore_filter ents
  | [], acc, h => ⟨h, by simp [countIgnored]⟩
  | ent :: ents, acc, h => by
    obtain ⟨h1, h2⟩ := loadEntryStep_inv hidx h ent
    obtain ⟨h3, h4⟩ := loadFold_inv env options hidx ents _ h1
    rw [List.foldl_cons]
    refine ⟨h3, ?_⟩
    rw [h4, h2]
    simp only [countIgnored, List.countP_cons, List.countP_nil]
    omega

/-- The full effect of `TreeBuilder::load_children` on the builder, relative
to the starting state: the loaded node gets `children_loaded`, possibly
`has_error` (on a read failure) and `has_match` (when a child directly
matched), and its children list extended by the freshly stored child blines
sorted by lowercased name; every other existing bline is untouched; the
gitignored counter grows by the number of gitignored entries. -/
structure LoadSpec (env : Env) (options : TreeOptions) (b : Builder) (idx : Nat)
    (res : Builder × Bool) : Prop where
  len_le : b.blines.length ≤ res.1.blines.length
  frame : ∀ j, j < b.blines.length → j ≠ idx → getB res.1.blines j = getB b.blines j
  parent_core :
    (getB res.1.blines idx).parent_idx = (getB b.blines idx).parent_idx ∧
    (getB res.1.blines idx).path = (getB b.blines idx).path ∧
    (getB res.1.blines idx).depth = (getB b.blines idx).depth ∧
    (getB res.1.blines idx).name = (getB b.blines idx).name ∧
    (getB res.1.blines idx).next_child_idx = (getB b.blines idx).next_child_idx ∧
    (getB res.1.blines idx).line_type = (getB b.blines idx).line_type ∧
    (getB res.1.blines idx).score = (getB b.blines idx).score ∧
    (getB res.1.blines idx).ignore_filter = (getB b.blines idx).ignore_filter ∧
    (getB res.1.blines idx).nb_kept_children = (getB b.blines idx).nb_kept_children
  loaded : (getB res.1.blines idx).children_loaded = true
  hm : (getB res.1.blines idx).has_match = ((getB b.blines idx).has_match || res.2)
  herr : (getB res.1.blines idx).has_error =
    ((getB b.blines idx).has_error ||
      match env.fs (getB b.blines idx).path with
      | Except.ok _ => false
      | Except.error _ => true)
  children_ext : ∃ cs,
    (getB res.1.blines idx).children = (getB b.blines idx).children ++ cs ∧
    (∀ c ∈ cs, b.blines.length ≤ c ∧ c < res.1.blines.length) ∧
    cs.Nodup ∧
    (∀ j, b.blines.length ≤ j → j < res.1.blines.length → j ∈ cs) ∧
    (∀ c ∈ cs,
      (getB res.1.blines c).parent_idx = idx ∧
      (getB res.1.blines c).depth = (getB b.blines idx).depth + 1 ∧
      (getB res.1.blines c).path =
        (getB b.blines idx).path ++ [(getB res.1.blines c).name] ∧
      (getB res.1.blines c).children = [] ∧
      (getB res.1.blines c).next_child_idx = 0 ∧
      (getB res.1.blines c).children_loaded = false ∧
      (getB res.1.blines c).nb_kept_children = 0 ∧
      (getB res.1.blines c).has_error = false ∧
      (options.pattern = none → (getB res.1.blines c).has_match = true)) ∧
    cs.Pairwise (fun a c => charListLe (lowerKey (getB res.1.blines a).name)
      (lowerKey (getB res.1.blines c).name) = true) ∧
    (res.2 = true ↔ ∃ c ∈ cs, (getB res.1.blines c).has_match = true)
  git : res.1.nb_gitignored = b.nb_gitignored +
    (match env.fs (getB b.blines idx).path with
      | Except.ok ents => countIgnored env options idx (getB b.blines idx).path
          (getB b.blines idx).depth (getB b.blines idx).ignore_filter ents
      | Except.error _ => 0)

theorem markLoaded_len (b : Builder) (idx : Nat) :
    (markLoaded b idx).blines.length = b.blines.length := length_setB _ _ _

theorem markLoaded_git (b : Builder) (idx : Nat) :
    (markLoaded b idx).nb_gitignored = b.nb_gitignored := rfl

theorem markLoaded_getB_self {b : Builder} {idx : Nat} (h : idx < b.blines.length) :
    getB (markLoaded b idx).blines idx =
      { getB b.blines idx with children_loaded := true } := getB_setB_self _ h

theorem markLoaded_getB_ne {b : Builder} {idx j : Nat} (h : j ≠ idx) :
    getB (markLoaded b idx).blines j = getB b.blines j :=
  getB_setB_ne _ (fun hc => h hc.symm)

theorem markError_len (b : Builder) (idx : Nat) :
    (markError b idx).blines.length = b.blines.length := length_setB _ _ _

theorem markError_getB_self {b : Builder} {idx : Nat} (h : idx < b.blines.length) :
    getB (markError b idx).blines idx =
      { getB b.blines idx with has_error := true } := getB_setB_self _ h

theorem markError_getB_ne {b : Builder} {idx j : Nat} (h : j ≠ idx) :
    getB (markError b idx).blines j = getB b.blines j :=
  getB_setB_ne _ (fun hc => h hc.symm)

theorem withChildren_core (bl : BLine) (cs : List Nat) :
    (withChildren bl cs).parent_idx = bl.parent_idx ∧
    (withChildren bl cs).path = bl.path ∧
    (withChildren bl cs).depth = bl.depth ∧
    (withChildren bl cs).name = bl.name ∧
    (withChildren bl cs).next_child_idx = bl.next_child_idx ∧
    (withChildren bl cs).line_type = bl.line_type ∧
    (withChildren bl cs).score = bl.score ∧
    (withChildren bl cs).ignore_filter = bl.ignore_filter ∧
    (withChildren bl cs).nb_kept_children = bl.nb_kept_children ∧
    (withChildren bl cs).children_loaded = bl.children_loaded ∧
    (withChildren bl cs).has_match = bl.has_match ∧
    (withChildren bl cs).has_error = bl.has_error ∧
    (withChildren bl cs).children = bl.children ++ cs := by
  unfold withChildren
  simp

theorem insertLe_perm (le : Nat → Nat → Bool) (x : Nat) :
    ∀ l : List Nat, (insertLe le x l).Perm (x :: l)
  | [] => List.Perm.refl _
  | y :: ys => by
    unfold insertLe
    by_cases h : le x y = true
    · rw [if_pos h]
    · rw [if_neg h]
      exact ((insertLe_perm le x ys).cons y).trans (List.Perm.swap x y ys)

theorem sortByLe_perm (le : Nat → Nat → Bool) :
    ∀ l : List Nat, (sortByLe le l).Perm l
  | [] => List.Perm.refl _
  | x :: xs =>
    (insertLe_perm le x (sortByLe le xs)).trans ((sortByLe_perm le xs).cons x)

theorem insertLe_pairwise {le : Nat → Nat → Bool}
    (htrans : ∀ a c d, le a c = true → le c d = true → le a d = true)
    (htotal : ∀ a c, (le a c || le c a) = true) (x : Nat) :
    ∀ {l : List Nat}, l.Pairwise (fun a c => le a c = true) →
      (insertLe le x l).Pairwise (fun a c => le a c = true)
  | [], _ => by simp [insertLe]
  | y :: ys, hl => by
    rw [List.pairwise_cons] at hl
    obtain ⟨hy, hys⟩ := hl
    unfold insertLe
    by_cases h : le x y = true
    · rw [if_pos h]
      rw [List.pairwise_cons]
      refine ⟨?_, List.pairwise_cons.mpr ⟨hy, hys⟩⟩
      intro c hc
      rcases List.mem_cons.mp hc with hcy | hcys
      · rw [hcy]; exact h
      · exact htrans x y c h (hy c hcys)
    · rw [if_neg h]
      rw [List.pairwise_cons]
      have hxy : le x y = false := by
        cases hv : le x y
        · rfl
        · exact absurd hv h
      have hyx : le y x = true := by
        have ht := htotal x y
        rw [hxy] at ht
        simpa using ht
      refine ⟨?_, insertLe_pairwise htrans htotal x hys⟩
      intro c hc
      have hc2 := (insertLe_perm le x ys).mem_iff.mp hc
      rcases List.mem_cons.mp hc2 with hcx | hcys
      · rw [hcx]; exact hyx
      · exact hy c hcys

theorem sortByLe_pairwise {le : Nat → Nat → Bool}
    (htrans : ∀ a c d, le a c = true → le c d = true → le a d = true)
    (htotal : ∀ a c, (le a c || le c a) = true) :
    ∀ l : List Nat, (sortByLe le l).Pairwise (fun a c => le a c = true)
  | [] => List.Pairwise.nil
  | x :: xs =>
    insertLe_pairwise htrans htotal x (sortByLe_pairwise htrans htotal xs)

theorem attachSorted_len (b : Builder) (idx : Nat) (cs : List Nat) :
    (attachSorted b idx cs).blines.length = b.blines.length := length_setB _ _ _

theorem attachSorted_git (b : Builder) (idx : Nat) (cs : List Nat) :
    (attachSorted b idx cs).nb_gitignored = b.nb_gitignored := rfl

theorem attachSorted_getB_self {b : Builder} {idx : Nat} {cs : List Nat}
    (h : idx < b.blines.length) :
    getB (attachSorted b idx cs).blines idx =
      withChildren (getB b.blines idx) (sortByLe (childLe b.blines) cs) :=
  getB_setB_self _ h

theorem attachSorted_getB_ne {b : Builder} {idx j : Nat} {cs : List Nat}
    (h : j ≠ idx) :
    getB (attachSorted b idx cs).blines j = getB b.blines j :=
  getB_setB_ne _ (fun hc => h hc.symm)

theorem load_children_spec (env : Env) (options : TreeOptions) (b : Builder)
    (idx : Nat) (hidx : idx < b.blines.length) :
    LoadSpec env options b idx (load_children env options b idx) := by
  unfold load_children
  have hidx'' : idx < (markLoaded b idx).blines.length := by
    rw [markLoaded_len]; exact hidx
  cases hfs : env.fs (getB b.blines idx).path with
  | error u =>
    dsimp only
    constructor
    case len_le => rw [markError_len, markLoaded_len]
    case frame =>
      intro j hj hne
      rw [markError_getB_ne hne, markLoaded_getB_ne hne]
    case parent_core =>
      rw [markError_getB_self hidx'', markLoaded_getB_self hidx]
      simp
    case loaded =>
      rw [markError_getB_self hidx'', markLoaded_getB_self hidx]
    case hm =>
      rw [markError_getB_self hidx'', markLoaded_getB_self hidx]
      simp
    case herr =>
      rw [markError_getB_self hidx'', markLoaded_getB_self hidx, hfs]
      simp
    case children_ext =>
      refine ⟨[], ?_, by simp, List.nodup_nil, ?_, by simp, List.Pairwise.nil, by simp⟩
      · rw [markError_getB_self hidx'', markLoaded_getB_self hidx]
        simp
      · intro j h1 h2
        rw [markError_len, markLoaded_len] at h2
        omega
    case git =>
      rw [hfs]
      simp [markError, markLoaded]
  | ok ents =>
    dsimp only
    obtain ⟨ha, hgit⟩ := loadFold_inv env options hidx'' ents (markLoaded b idx, [], false)
      (loadAcc_init options (markLoaded b idx) idx)
    rcases hfold : ents.foldl (loadEntryStep env options idx) (markLoaded b idx, [], false)
      with ⟨b2, cs, hcm⟩
    rw [hfold] at ha hgit
    dsimp only at ha hgit ⊢
    have hlen2 : b.blines.length ≤ b2.blines.length := by
      have h1 := ha.len_le
      rw [markLoaded_len] at h1
      exact h1
    have hidx2 : idx < b2.blines.length := Nat.lt_of_lt_of_le hidx hlen2
    have hpar2 : getB b2.blines idx =
        { getB b.blines idx with
          children_loaded := true
          has_match := (getB b.blines idx).has_match || hcm } := by
      have h1 := ha.parent_eq
      rw [markLoaded_getB_self hidx] at h1
      exact h1
    have hframe2 : ∀ j, j < b.blines.length → j ≠ idx →
        getB b2.blines j = getB b.blines j := by
      intro j hj hne
      have h1 := ha.frame j (by rw [markLoaded_len]; exact hj) hne
      rw [markLoaded_getB_ne hne] at h1
      exact h1
    have hpermS : (sortByLe (childLe b2.blines) cs).Perm cs :=
      sortByLe_perm (childLe b2.blines) cs
    have hmemS : ∀ c, c ∈ sortByLe (childLe b2.blines) cs ↔ c ∈ cs :=
      fun c => hpermS.mem_iff
    have hcs_lt : ∀ c ∈ cs, b.blines.length ≤ c ∧ c < b2.blines.length := by
      intro c hc
      have h1 := ha.cs_lt c hc
      rw [markLoaded_len] at h1
      exact h1
    have hcne : ∀ c ∈ cs, c ≠ idx := by
      intro c hc
      have h1 := (hcs_lt c hc).1
      omega
    constructor
    case len_le => rw [attachSorted_len]; exact hlen2
    case frame =>
      intro j hj hne
      rw [attachSorted_getB_ne hne]
      exact hframe2 j hj hne
    case parent_core =>
      rw [attachSorted_getB_self hidx2]
      obtain ⟨w1, w2, w3, w4, w5, w6, w7, w8, w9, w10, w11, w12, w13⟩ :=
        withChildren_core (getB b2.blines idx) (sortByLe (childLe b2.blines) cs)
      rw [w1, w2, w3, w4, w5, w6, w7, w8, w9, hpar2]
      simp
    case loaded =>
      rw [attachSorted_getB_self hidx2,
        (withChildren_core _ _).2.2.2.2.2.2.2.2.2.1, hpar2]
    case hm =>
      rw [attachSorted_getB_self hidx2,
        (withChildren_core _ _).2.2.2.2.2.2.2.2.2.2.1, hpar2]
    case herr =>
      rw [attachSorted_getB_self hidx2,
        (withChildren_core _ _).2.2.2.2.2.2.2.2.2.2.2.1, hpar2, hfs]
      simp
    case children_ext =>
      refine ⟨sortByLe (childLe b2.blines) cs, ?_, ?_, ?_, ?_, ?_, ?_, ?_⟩
      · rw [attachSorted_getB_self hidx2,
          (withChildren_core _ _).2.2.2.2.2.2.2.2.2.2.2.2, hpar2]
      · intro c hc
        have h1 := hcs_lt c ((hmemS c).mp hc)
        rw [attachSorted_len]
        exact h1
      · have hnodup : cs.Nodup := (ha.cs_sorted.imp (fun hlt => Nat.ne_of_lt hlt))
        exact hpermS.nodup_iff.mpr hnodup
      · intro j h1 h2
        rw [attachSorted_len] at h2
        rw [hmemS]
        exact ha.cs_cover j (by rw [markLoaded_len]; exact h1) h2
      · intro c hc
        have hc2 := (hmemS c).mp hc
        have hfl := ha.child_fields c hc2
        rw [markLoaded_getB_self hidx] at hfl
        rw [attachSorted_getB_ne (hcne c hc2)]
        exact hfl
      · have htrans : ∀ a c d : Nat, childLe b2.blines a c = true →
            childLe b2.blines c d = true → childLe b2.blines a d = true := by
          intro a c d h1 h2
          exact charListLe_trans _ _ _ h1 h2
        have htotal : ∀ a c : Nat,
            (childLe b2.blines a c || childLe b2.blines c a) = true := by
          intro a c
          exact charListLe_total _ _
        have hsorted := sortByLe_pairwise htrans htotal cs
        refine hsorted.imp_of_mem ?_
        intro a c ha2 hc2 hle
        rw [attachSorted_getB_ne (hcne a ((hmemS a).mp ha2)),
          attachSorted_getB_ne (hcne c ((hmemS c).mp hc2))]
        exact hle
      · rw [ha.hcm_iff]
        constructor
        · rintro ⟨c, hc, hmc⟩
          refine ⟨c, (hmemS c).mpr hc, ?_⟩
          rw [attachSorted_getB_ne (hcne c hc)]
          exact hmc
        · rintro ⟨c, hc, hmc⟩
          refine ⟨c, (hmemS c).mp hc, ?_⟩
          rw [attachSorted_getB_ne (hcne c ((hmemS c).mp hc))] at hmc
          exact hmc
    case git =>
      rw [attachSorted_git, hgit, markLoaded_git, markLoaded_getB_self hidx, hfs]

/-! ### `next_child` characterization -/

theorem next_child_some {bs bs' : List BLine} {d c : Nat}
    (h : next_child bs d = (bs', some c)) :
    (getB bs d).next_child_idx < (getB bs d).children.length ∧
    c = (getB bs d).children.getD (getB bs d).next_child_idx 0 ∧
    bs' = setB bs d { getB bs d with
      next_child_idx := (getB bs d).next_child_idx + 1 } := by
  unfold next_child at h
  split at h
  · next hlt =>
    simp only [Prod.mk.injEq, Option.some.injEq] at h
    exact ⟨hlt, h.2.symm, h.1.symm⟩
  · simp at h

theorem next_child_none {bs bs' : List BLine} {d : Nat}
    (h : next_child bs d = (bs', none)) :
    bs' = bs ∧ ¬(getB bs d).next_child_idx < (getB bs d).children.length := by
  unfold next_child at h
  split at h
  · simp at h
  · next hge =>
    simp only [Prod.mk.injEq] at h
    exact ⟨h.1.symm, hge⟩

/-! ### The ancestor walk -/

theorem setMatched_len (bs : List BLine) (idx : Nat) :
    (setMatched bs idx).length = bs.length := length_setB _ _ _

theorem setMatched_getB_self {bs : List BLine} {idx : Nat} (h : idx < bs.length) :
    getB (setMatched bs idx) idx = { getB bs idx with has_match := true } :=
  getB_setB_self _ h

theorem setMatched_getB_ne {bs : List BLine} {idx j : Nat} (h : j ≠ idx) :
    getB (setMatched bs idx) j = getB bs j :=
  getB_setB_ne _ (fun hc => h hc.symm)

/-- The effect of the ancestor walk: the arena keeps its length, every bline
is either untouched or only had `has_match` switched on, and — provided the
only closure violations were at the walk's start or just below it — the
`has_match` flags are closed under parents afterwards. -/
theorem ancestorWalk_spec :
    ∀ (fuel idx : Nat) (bs : List BLine) (nbOk : Nat),
      idx ≤ fuel →
      idx < bs.length →
      (getB bs 0).parent_idx = 0 →
      (getB bs 0).has_match = true →
      (∀ i, 0 < i → i < bs.length → (getB bs i).parent_idx < i) →
      (∀ i, 0 < i → i < bs.length → (getB bs i).has_match = true →
        ((getB bs (getB bs i).parent_idx).has_match = true ∨ i = idx ∨
          (getB bs i).parent_idx = idx)) →
      (ancestorWalk fuel bs idx nbOk).1.length = bs.length ∧
      (∀ j, getB (ancestorWalk fuel bs idx nbOk).1 j = getB bs j ∨
        getB (ancestorWalk fuel bs idx nbOk).1 j = { getB bs j with has_match := true }) ∧
      (∀ i, 0 < i → i < bs.length →
        (getB (ancestorWalk fuel bs idx nbOk).1 i).has_match = true →
        (getB (ancestorWalk fuel bs idx nbOk).1
          (getB (ancestorWalk fuel bs idx nbOk).1 i).parent_idx).has_match = true)
  | fuel, idx, bs, nbOk, hfuel, hlen, hrp, hrm, hpl, hvio => by
    have hset_len : (setMatched bs idx).length = bs.length := setMatched_len bs idx
    have hself := fun (h : idx < bs.length) => setMatched_getB_self h
    -- facts about the target of the walk after the conditional set
    unfold ancestorWalk
    by_cases hm : (getB bs idx).has_match = true
    · rw [if_neg (by simp [hm])]
      by_cases hp : (getB bs idx).parent_idx = 0
      · rw [if_pos hp]
        refine ⟨rfl, fun j => Or.inl rfl, ?_⟩
        intro i hi0 hil hmi
        rcases hvio i hi0 hil hmi with h | h | h
        · exact h
        · subst h
          rw [hp]
          exact hrm
        · rw [h]
          exact hm
      · rw [if_neg hp]
        cases fuel with
        | zero =>
          -- idx ≤ 0 forces idx = 0, whose parent is 0: contradiction with hp
          have : idx = 0 := Nat.le_zero.mp hfuel
          subst this
          exact absurd hrp hp
        | succ fuel =>
          have hplt : (getB bs idx).parent_idx < idx := by
            rcases Nat.eq_zero_or_pos idx with h0 | h0
            · subst h0
              exact absurd hrp hp
            · exact hpl idx h0 hlen
          have hvio' : ∀ i, 0 < i → i < bs.length → (getB bs i).has_match = true →
              ((getB bs (getB bs i).parent_idx).has_match = true ∨
                i = (getB bs idx).parent_idx ∨
                (getB bs i).parent_idx = (getB bs idx).parent_idx) := by
            intro i hi0 hil hmi
            rcases hvio i hi0 hil hmi with h | h | h
            · exact Or.inl h
            · subst h
              exact Or.inr (Or.inr rfl)
            · rw [h]
              exact Or.inl hm
          exact ancestorWalk_spec fuel (getB bs idx).parent_idx bs nbOk
            (by omega) (Nat.lt_trans hplt hlen) hrp hrm hpl hvio'
    · rw [if_pos (by simp [hm])]
      have hidx_pos : 0 < idx := by
        rcases Nat.eq_zero_or_pos idx with h0 | h0
        · subst h0
          exact absurd hrm hm
        · exact h0
      have hrp1 : (getB (setMatched bs idx) 0).parent_idx = 0 := by
        rw [setMatched_getB_ne (by omega)]
        exact hrp
      have hrm1 : (getB (setMatched bs idx) 0).has_match = true := by
        rw [setMatched_getB_ne (by omega)]
        exact hrm
      have hpl1 : ∀ i, 0 < i → i < (setMatched bs idx).length →
          (getB (setMatched bs idx) i).parent_idx < i := by
        intro i hi0 hil
        rw [hset_len] at hil
        rcases eq_or_ne i idx with he | he
        · subst he
          rw [hself hlen]
          exact hpl i hi0 hil
        · rw [setMatched_getB_ne he]
          exact hpl i hi0 hil
      by_cases hp : (getB bs idx).parent_idx = 0
      · rw [if_pos hp]
        refine ⟨hset_len, ?_, ?_⟩
        · intro j
          rcases eq_or_ne j idx with he | he
          · subst he
            exact Or.inr (hself hlen)
          · exact Or.inl (setMatched_getB_ne he)
        · intro i hi0 hil hmi
          rcases eq_or_ne i idx with he | he
          · subst he
            rw [hself hlen] at hmi ⊢
            have : ({ getB bs i with has_match := true } : BLine).parent_idx =
                (getB bs i).parent_idx := rfl
            rw [this, hp, hrm1]
          · rw [setMatched_getB_ne he] at hmi
            rcases hvio i hi0 hil hmi with h | h | h
            · rcases eq_or_ne (getB bs i).parent_idx idx with hpe | hpe
              · rw [setMatched_getB_ne he, hpe, hself hlen]
              · rw [setMatched_getB_ne he, setMatched_getB_ne hpe]
                exact h
            · exact absurd h he
            · rw [setMatched_getB_ne he, h, hself hlen]
      · rw [if_neg hp]
        cases fuel with
        | zero =>
          have : idx = 0 := Nat.le_zero.mp hfuel
          omega
        | succ fuel =>
          have hplt : (getB bs idx).parent_idx < idx := hpl idx hidx_pos hlen
          have hlen1 : (getB bs idx).parent_idx < (setMatched bs idx).length := by
            rw [hset_len]
            exact Nat.lt_trans hplt hlen
          have hvio1 : ∀ i, 0 < i → i < (setMatched bs idx).length →
              (getB (setMatched bs idx) i).has_match = true →
              ((getB (setMatched bs idx) (getB (setMatched bs idx) i).parent_idx).has_match = true ∨
                i = (getB bs idx).parent_idx ∨
                (getB (setMatched bs idx) i).parent_idx = (getB bs idx).parent_idx) := by
            intro i hi0 hil hmi
            rw [hset_len] at hil
            rcases eq_or_ne i idx with he | he
            · subst he
              rw [hself hlen]
              have : ({ getB bs i with has_match := true } : BLine).parent_idx =
                  (getB bs i).parent_idx := rfl
              rw [this]
              exact Or.inr (Or.inr rfl)
            · rw [setMatched_getB_ne he] at hmi
              rcases hvio i hi0 hil hmi with h | h | h
              · rcases eq_or_ne (getB bs i).parent_idx idx with hpe | hpe
                · rw [setMatched_getB_ne he, hpe, hself hlen]
                  exact Or.inl rfl
                · rw [setMatched_getB_ne he, setMatched_getB_ne hpe]
                  exact Or.inl h
              · exact absurd h he
              · rw [setMatched_getB_ne he, h, hself hlen]
                exact Or.inl rfl
          obtain ⟨ih1, ih2, ih3⟩ := ancestorWalk_spec fuel (getB bs idx).parent_idx
            (setMatched bs idx) (nbOk + 1) (by omega) hlen1 hrp1 hrm1 hpl1 hvio1
          refine ⟨by rw [ih1, hset_len], ?_, ?_⟩
          · intro j
            rcases ih2 j with h | h
            · rcases eq_or_ne j idx with he | he
              · subst he
                rw [h, hself hlen]
                exact Or.inr rfl
              · rw [h, setMatched_getB_ne he]
                exact Or.inl rfl
            · rcases eq_or_ne j idx with he | he
              · subst he
                rw [h, hself hlen]
                right
                rfl
              · rw [h, setMatched_getB_ne he]
                exact Or.inr rfl
          · intro i hi0 hil
            rw [← hset_len] at hil
            exact ih3 i hi0 hil

/-- When every bline is already matched (the no-pattern case) the ancestor
walk is the identity. -/
theorem ancestorWalk_allMatched :
    ∀ (fuel idx : Nat) (bs : List BLine) (nbOk : Nat),
      (∀ i, i < bs.length → (getB bs i).has_match = true) →
      idx < bs.length →
      (getB bs 0).parent_idx = 0 →
      (∀ i, 0 < i → i < bs.length → (getB bs i).parent_idx < i) →
      ancestorWalk fuel bs idx nbOk = (bs, nbOk)
  | fuel, idx, bs, nbOk, hall, hlen, hrp, hpl => by
    unfold ancestorWalk
    rw [if_neg (by simp [hall idx hlen])]
    by_cases hp : (getB bs idx).parent_idx = 0
    · rw [if_pos hp]
    · rw [if_neg hp]
      have hidx_pos : 0 < idx := by
        rcases Nat.eq_zero_or_pos idx with h0 | h0
        · subst h0
          exact absurd hrp hp
        · exact h0
      cases fuel with
      | zero => rfl
      | succ fuel =>
        exact ancestorWalk_allMatched fuel (getB bs idx).parent_idx bs nbOk hall
          (Nat.lt_trans (hpl idx hidx_pos hlen) hlen) hrp hpl

/-! ### The gather-loop invariant -/

/-- The arena and loop-state invariant maintained by `gather_lines`: the root
is first and always matched, parent indices decrease, paths and depths grow
along edges, cursors stay in range, children lists are disjoint sorted lists
of fresh indices, `has_match` is closed under parents, the candidate list
contains the root first and the parents of all its members, and the open and
next-level sets are drawn from the candidate list. -/
structure GInv (options : TreeOptions) (tsize : Nat) (st : GSt) : Prop where
  root_lt : 0 < st.b.blines.length
  root_parent : (getB st.b.blines 0).parent_idx = 0
  root_depth : (getB st.b.blines 0).depth = 0
  root_match : (getB st.b.blines 0).has_match = true
  parent_lt : ∀ i, 0 < i → i < st.b.blines.length →
    (getB st.b.blines i).parent_idx < i
  depth_succ : ∀ i, 0 < i → i < st.b.blines.length →
    (getB st.b.blines i).depth = (getB st.b.blines (getB st.b.blines i).parent_idx).depth + 1
  path_eq : ∀ i, 0 < i → i < st.b.blines.length →
    (getB st.b.blines i).path =
      (getB st.b.blines (getB st.b.blines i).parent_idx).path ++ [(getB st.b.blines i).name]
  cursor_le : ∀ i, (getB st.b.blines i).next_child_idx ≤ (getB st.b.blines i).children.length
  child_parent : ∀ d, d < st.b.blines.length → ∀ c ∈ (getB st.b.blines d).children,
    (getB st.b.blines c).parent_idx = d ∧ 0 < c ∧ c < st.b.blines.length
  children_nodup : ∀ d, d < st.b.blines.length → (getB st.b.blines d).children.Nodup
  children_disj : ∀ d d', d < st.b.blines.length → d' < st.b.blines.length → d ≠ d' →
    ∀ c, c ∈ (getB st.b.blines d).children → c ∉ (getB st.b.blines d').children
  sorted : ∀ d, d < st.b.blines.length →
    (getB st.b.blines d).children.Pairwise (fun a c =>
      charListLe (lowerKey (getB st.b.blines a).name)
        (lowerKey (getB st.b.blines c).name) = true)
  unloaded_mt : ∀ d, d < st.b.blines.length →
    (getB st.b.blines d).children_loaded = false → (getB st.b.blines d).children = []
  nkc_zero : ∀ i, (getB st.b.blines i).nb_kept_children = 0
  closure : ∀ i, 0 < i → i < st.b.blines.length → (getB st.b.blines i).has_match = true →
    (getB st.b.blines (getB st.b.blines i).parent_idx).has_match = true
  out_head : st.out.head? = some 0
  out_lt : ∀ i ∈ st.out, i < st.b.blines.length
  out_nodup : st.out.Nodup
  out_parent : ∀ i ∈ st.out, (getB st.b.blines i).parent_idx ∈ st.out
  open_sub : ∀ i ∈ st.openDirs, i ∈ st.out
  nld_sub : ∀ i ∈ st.nextLevel, i ∈ st.out
  nld_pos : ∀ i ∈ st.nextLevel, 0 < i
  nld_nodup : st.nextLevel.Nodup
  nld_unloaded : ∀ i ∈ st.nextLevel, (getB st.b.blines i).children_loaded = false
  consumed_out : ∀ d, d < st.b.blines.length →
    st.out.filter (fun c => decide (c ∈ (getB st.b.blines d).children)) =
      (getB st.b.blines d).children.take (getB st.b.blines d).next_child_idx
  pending_unloaded : ∀ d, d < st.b.blines.length →
    ∀ c ∈ (getB st.b.blines d).children.drop (getB st.b.blines d).next_child_idx,
      (getB st.b.blines c).children_loaded = false
  nopat : options.pattern = none →
    (st.nbOk = st.out.length ∧ st.nbOk ≤ max tsize 1 ∧
      ∀ i, i < st.b.blines.length → (getB st.b.blines i).has_match = true)

/-! ### Preservation of the invariant by the gather steps -/

theorem gstep_child_inv {options : TreeOptions} {tsize : Nat} {st : GSt}
    (h : GInv options tsize st) {d : Nat} {rest : List Nat}
    (hopen : st.openDirs = d :: rest)
    {blines : List BLine} {c : Nat}
    (hnc : next_child st.b.blines d = (blines, some c))
    (hbound : options.pattern = none → st.nbOk < tsize) :
    GInv options tsize
      { b := { st.b with blines := blines },
        out := st.out ++ [c],
        nbOk := if (getB blines c).has_match then st.nbOk + 1 else st.nbOk,
        openDirs := rest ++ [d],
        nextLevel := if (getB blines c).line_type = LineType.dir then
          st.nextLevel ++ [c] else st.nextLevel,
        iter := st.iter + 1 } := by
  obtain ⟨hcur, hceq, hbs⟩ := next_child_some hnc
  have hd_out : d ∈ st.out := h.open_sub d (by rw [hopen]; exact List.mem_cons_self d rest)
  have hd_lt : d < st.b.blines.length := h.out_lt d hd_out
  have hcelem : c = (getB st.b.blines d).children[(getB st.b.blines d).next_child_idx] := by
    rw [hceq, List.getD_eq_getElem?_getD, List.getElem?_eq_getElem hcur]
    rfl
  have hcmem : c ∈ (getB st.b.blines d).children := by
    rw [hcelem]
    exact List.getElem_mem hcur
  obtain ⟨hcp, hcpos, hclt⟩ := h.child_parent d hd_lt c hcmem
  have hlen : blines.length = st.b.blines.length := by
    rw [hbs]; exact length_setB _ _ _
  have hgd : getB blines d = { getB st.b.blines d with
      next_child_idx := (getB st.b.blines d).next_child_idx + 1 } := by
    rw [hbs]; exact getB_setB_self _ hd_lt
  have hgne : ∀ j, j ≠ d → getB blines j = getB st.b.blines j := by
    intro j hj
    rw [hbs]; exact getB_setB_ne _ (fun hc2 => hj hc2.symm)
  have hsame : ∀ j, (getB blines j).parent_idx = (getB st.b.blines j).parent_idx ∧
      (getB blines j).depth = (getB st.b.blines j).depth ∧
      (getB blines j).path = (getB st.b.blines j).path ∧
      (getB blines j).name = (getB st.b.blines j).name ∧
      (getB blines j).children = (getB st.b.blines j).children ∧
      (getB blines j).children_loaded = (getB st.b.blines j).children_loaded ∧
      (getB blines j).has_match = (getB st.b.blines j).has_match ∧
      (getB blines j).nb_kept_children = (getB st.b.blines j).nb_kept_children := by
    intro j
    rcases eq_or_ne j d with he | he
    · subst he
      rw [hgd]
      simp
    · rw [hgne j he]
      simp
  have hc_not_out : c ∉ st.out := by
    intro hco
    have hfil : c ∈ st.out.filter (fun x => decide (x ∈ (getB st.b.blines d).children)) := by
      rw [List.mem_filter]
      exact ⟨hco, by simp [hcmem]⟩
    rw [h.consumed_out d hd_lt] at hfil
    obtain ⟨k, hk, hkeq⟩ := List.getElem_of_mem hfil
    have hklen : k < (getB st.b.blines d).next_child_idx := by
      have := hk
      rw [List.length_take] at this
      omega
    have hk2 : k < (getB st.b.blines d).children.length := by
      have := h.cursor_le d
      omega
    rw [List.getElem_take] at hkeq
    have hnodup := h.children_nodup d hd_lt
    have : k = (getB st.b.blines d).next_child_idx := by
      have hinj := @List.Nodup.getElem_inj_iff _ _ hnodup _ hk2 _ hcur
      exact hinj.mp (by rw [hkeq, hcelem])
    omega
  have hout_ne : st.out ≠ [] := by
    intro hc2
    have hh := h.out_head
    rw [hc2] at hh
    simp at hh
  constructor
  case root_lt => rw [hlen]; exact h.root_lt
  case root_parent => rw [(hsame 0).1]; exact h.root_parent
  case root_depth => rw [(hsame 0).2.1]; exact h.root_depth
  case root_match => rw [(hsame 0).2.2.2.2.2.2.1]; exact h.root_match
  case parent_lt =>
    intro i hi0 hil
    rw [hlen] at hil
    rw [(hsame i).1]
    exact h.parent_lt i hi0 hil
  case depth_succ =>
    intro i hi0 hil
    rw [hlen] at hil
    rw [(hsame i).2.1, (hsame i).1, (hsame _).2.1]
    exact h.depth_succ i hi0 hil
  case path_eq =>
    intro i hi0 hil
    rw [hlen] at hil
    rw [(hsame i).2.2.1, (hsame i).1, (hsame _).2.2.1, (hsame i).2.2.2.1]
    exact h.path_eq i hi0 hil
  case cursor_le =>
    intro i
    rcases eq_or_ne i d with he | he
    · subst he
      rw [hgd]
      have hcl : ({ getB st.b.blines i with
          next_child_idx := (getB st.b.blines i).next_child_idx + 1 } : BLine).children =
          (getB st.b.blines i).children := rfl
      rw [hcl]
      exact hcur
    · rw [hgne i he]
      exact h.cursor_le i
  case child_parent =>
    intro d2 hd2 c2 hc2
    rw [hlen] at hd2
    rw [(hsame d2).2.2.2.2.1] at hc2
    obtain ⟨g1, g2, g3⟩ := h.child_parent d2 hd2 c2 hc2
    rw [(hsame c2).1, hlen]
    exact ⟨g1, g2, g3⟩
  case children_nodup =>
    intro d2 hd2
    rw [hlen] at hd2
    rw [(hsame d2).2.2.2.2.1]
    exact h.children_nodup d2 hd2
  case children_disj =>
    intro d2 d2' hd2 hd2' hne c2
    rw [hlen] at hd2 hd2'
    rw [(hsame d2).2.2.2.2.1, (hsame d2').2.2.2.2.1]
    exact h.children_disj d2 d2' hd2 hd2' hne c2
  case sorted =>
    intro d2 hd2
    rw [hlen] at hd2
    rw [(hsame d2).2.2.2.2.1]
    refine (h.sorted d2 hd2).imp_of_mem ?_
    intro a c2 _ _ hle
    rw [(hsame a).2.2.2.1, (hsame c2).2.2.2.1]
    exact hle
  case unloaded_mt =>
    intro d2 hd2
    rw [hlen] at hd2
    rw [(hsame d2).2.2.2.2.2.1, (hsame d2).2.2.2.2.1]
    exact h.unloaded_mt d2 hd2
  case nkc_zero =>
    intro i
    rw [(hsame i).2.2.2.2.2.2.2]
    exact h.nkc_zero i
  case closure =>
    intro i hi0 hil
    rw [hlen] at hil
    rw [(hsame i).2.2.2.2.2.2.1, (hsame i).1, (hsame _).2.2.2.2.2.2.1]
    exact h.closure i hi0 hil
  case out_head =>
    show (st.out ++ [c]).head? = some 0
    rw [List.head?_append_of_ne_nil st.out hout_ne]
    exact h.out_head
  case out_lt =>
    intro i hi
    rw [hlen]
    rcases List.mem_append.mp hi with hi | hi
    · exact h.out_lt i hi
    · simp only [List.mem_singleton] at hi
      subst hi
      exact hclt
  case out_nodup =>
    rw [List.nodup_append]
    exact ⟨h.out_nodup, List.nodup_singleton c, by
      intro a ha hb
      simp only [List.mem_singleton] at hb
      subst hb
      exact hc_not_out ha⟩
  case out_parent =>
    intro i hi
    rcases List.mem_append.mp hi with hi | hi
    · rw [(hsame i).1]
      exact List.mem_append.mpr (Or.inl (h.out_parent i hi))
    · simp only [List.mem_singleton] at hi
      subst hi
      rw [(hsame i).1, hcp]
      exact List.mem_append.mpr (Or.inl hd_out)
  case open_sub =>
    intro i hi
    rcases List.mem_append.mp hi with hi | hi
    · exact List.mem_append.mpr (Or.inl (h.open_sub i (by rw [hopen]; exact List.mem_cons_of_mem d hi)))
    · simp only [List.mem_singleton] at hi
      subst hi
      exact List.mem_append.mpr (Or.inl hd_out)
  case nld_sub =>
    intro i hi
    dsimp only at hi ⊢
    split at hi
    · rcases List.mem_append.mp hi with hi | hi
      · exact List.mem_append.mpr (Or.inl (h.nld_sub i hi))
      · simp only [List.mem_singleton] at hi
        subst hi
        exact List.mem_append.mpr (Or.inr (List.mem_singleton.mpr rfl))
    · exact List.mem_append.mpr (Or.inl (h.nld_sub i hi))
  case nld_pos =>
    intro i hi
    dsimp only at hi
    split at hi
    · rcases List.mem_append.mp hi with hi | hi
      · exact h.nld_pos i hi
      · simp only [List.mem_singleton] at hi
        subst hi
        exact hcpos
    · exact h.nld_pos i hi
  case nld_nodup =>
    dsimp only
    split
    · rw [List.nodup_append]
      exact ⟨h.nld_nodup, List.nodup_singleton c, by
        intro a ha hb
        simp only [List.mem_singleton] at hb
        subst hb
        exact hc_not_out (h.nld_sub a ha)⟩
    · exact h.nld_nodup
  case nld_unloaded =>
    have hcun : (getB blines c).children_loaded = false := by
      rw [(hsame c).2.2.2.2.2.1]
      refine h.pending_unloaded d hd_lt c ?_
      rw [List.drop_eq_getElem_cons hcur, ← hcelem]
      exact List.mem_cons_self _ _
    intro i hi
    dsimp only at hi
    split at hi
    · rcases List.mem_append.mp hi with hi | hi
      · rw [(hsame i).2.2.2.2.2.1]
        exact h.nld_unloaded i hi
      · simp only [List.mem_singleton] at hi
        subst hi
        exact hcun
    · rw [(hsame i).2.2.2.2.2.1]
      exact h.nld_unloaded i hi
  case consumed_out =>
    intro d2 hd2
    rw [hlen] at hd2
    rcases eq_or_ne d2 d with he | he
    · subst he
      have hch : (getB blines d2).children = (getB st.b.blines d2).children :=
        (hsame d2).2.2.2.2.1
      have hcu : (getB blines d2).next_child_idx =
          (getB st.b.blines d2).next_child_idx + 1 := by
        rw [hgd]
      rw [hch, hcu, List.filter_append, h.consumed_out d2 hd2]
      have hfc : List.filter (fun x => decide (x ∈ (getB st.b.blines d2).children)) [c] = [c] := by
        simp [hcmem]
      rw [hfc, List.take_succ, List.getElem?_eq_getElem hcur, ← hcelem]
      rfl
    · have hch : (getB blines d2).children = (getB st.b.blines d2).children :=
        (hsame d2).2.2.2.2.1
      have hcu : (getB blines d2).next_child_idx =
          (getB st.b.blines d2).next_child_idx := by
        rw [hgne d2 he]
      rw [hch, hcu, List.filter_append, h.consumed_out d2 hd2]
      have hfc : List.filter (fun x => decide (x ∈ (getB st.b.blines d2).children)) [c] = [] := by
        simp only [List.filter_cons, List.filter_nil]
        rw [if_neg]
        simp only [decide_eq_true_eq]
        exact h.children_disj d d2 hd_lt hd2 (fun hx => he hx.symm) c hcmem
      rw [hfc, List.append_nil]
  case pending_unloaded =>
    intro d2 hd2 c2 hc2
    rw [hlen] at hd2
    have hch : (getB blines d2).children = (getB st.b.blines d2).children :=
      (hsame d2).2.2.2.2.1
    rw [(hsame c2).2.2.2.2.2.1]
    rcases eq_or_ne d2 d with he | he
    · subst he
      rw [hch, hgd] at hc2
      have hdrop : c2 ∈ (getB st.b.blines d2).children.drop
          (getB st.b.blines d2).next_child_idx := by
        have hsub : (getB st.b.blines d2).children.drop ((getB st.b.blines d2).next_child_idx + 1) ⊆
            (getB st.b.blines d2).children.drop (getB st.b.blines d2).next_child_idx := by
          rw [List.drop_eq_getElem_cons hcur]
          exact fun x hx => List.mem_cons_of_mem _ hx
        exact hsub hc2
      exact h.pending_unloaded d2 hd2 c2 hdrop
    · rw [hch, hgne d2 he] at hc2
      exact h.pending_unloaded d2 hd2 c2 hc2
  case nopat =>
    intro hpn
    dsimp only
    obtain ⟨hn1, hn2, hn3⟩ := h.nopat hpn
    have hcm : (getB blines c).has_match = true := by
      rw [(hsame c).2.2.2.2.2.2.1]
      exact hn3 c hclt
    rw [if_pos hcm]
    refine ⟨?_, ?_, ?_⟩
    · rw [List.length_append, List.length_singleton, hn1]
    · have := hbound hpn
      omega
    · intro i hil
      rw [hlen] at hil
      rw [(hsame i).2.2.2.2.2.2.1]
      exact hn3 i hil

theorem gstep_done_inv {options : TreeOptions} {tsize : Nat} {st : GSt}
    (h : GInv options tsize st) {d : Nat} {rest : List Nat}
    (hopen : st.openDirs = d :: rest)
    {blines : List BLine}
    (hnc : next_child st.b.blines d = (blines, none)) :
    GInv options tsize
      { st with
        b := { st.b with blines := blines }
        openDirs := rest
        iter := st.iter + 1 } := by
  obtain ⟨hbseq, _⟩ := next_child_none hnc
  subst hbseq
  exact {
    root_lt := h.root_lt
    root_parent := h.root_parent
    root_depth := h.root_depth
    root_match := h.root_match
    parent_lt := h.parent_lt
    depth_succ := h.depth_succ
    path_eq := h.path_eq
    cursor_le := h.cursor_le
    child_parent := h.child_parent
    children_nodup := h.children_nodup
    children_disj := h.children_disj
    sorted := h.sorted
    unloaded_mt := h.unloaded_mt
    nkc_zero := h.nkc_zero
    closure := h.closure
    out_head := h.out_head
    out_lt := h.out_lt
    out_nodup := h.out_nodup
    out_parent := h.out_parent
    open_sub := fun i hi =>
      h.open_sub i (by rw [hopen]; exact List.mem_cons_of_mem d hi)
    nld_sub := h.nld_sub
    nld_pos := h.nld_pos
    nld_nodup := h.nld_nodup
    nld_unloaded := h.nld_unloaded
    consumed_out := h.consumed_out
    pending_unloaded := h.pending_unloaded
    nopat := h.nopat }

theorem levelDirStep_eq (env : Env) (options : TreeOptions) (b : Builder)
    (nbOk : Nat) (opend : List Nat) (c : Nat) :
    levelDirStep env options (b, nbOk, opend) c =
      ((if (load_children env options b c).2 then
          { (load_children env options b c).1 with
            blines := (ancestorWalk c (load_children env options b c).1.blines c nbOk).1 }
        else (load_children env options b c).1),
       (if (load_children env options b c).2 then
          (ancestorWalk c (load_children env options b c).1.blines c nbOk).2
        else nbOk),
       opend ++ [c]) := by
  unfold levelDirStep
  dsimp only
  rcases hres : load_children env options b c with ⟨b1, hcm⟩
  cases hcm <;> rfl

theorem levelDirStep_inv {env : Env} {options : TreeOptions} {tsize : Nat}
    {b : Builder} {nbOk : Nat} {opend out todo : List Nat} {c iter : Nat}
    (h : GInv options tsize
      { b := b, out := out, nbOk := nbOk, openDirs := opend,
        nextLevel := c :: todo, iter := iter })
    {bfin : Builder} {nbOk2 : Nat} {openfin : List Nat}
    (hstep : levelDirStep env options (b, nbOk, opend) c = (bfin, nbOk2, openfin)) :
    GInv options tsize
      { b := bfin, out := out, nbOk := nbOk2, openDirs := openfin,
        nextLevel := todo, iter := iter } := by
  have hc_out : c ∈ out := h.nld_sub c (List.mem_cons_self c todo)
  have hc_lt : c < b.blines.length := h.out_lt c hc_out
  have hc_pos : 0 < c := h.nld_pos c (List.mem_cons_self c todo)
  have hc_unl : (getB b.blines c).children_loaded = false :=
    h.nld_unloaded c (List.mem_cons_self c todo)
  have hc_mt : (getB b.blines c).children = [] := h.unloaded_mt c hc_lt hc_unl
  have hc_cur : (getB b.blines c).next_child_idx = 0 := by
    have h1 := h.cursor_le c
    rw [hc_mt] at h1
    simpa using h1
  have hroot_lt : 0 < b.blines.length := h.root_lt
  have hpend_not_out : ∀ d, d < b.blines.length →
      ∀ y ∈ (getB b.blines d).children.drop (getB b.blines d).next_child_idx,
      y ∉ out := by
    intro d hd y hy hyout
    have hymem : y ∈ (getB b.blines d).children := by
      have := List.drop_subset (getB b.blines d).next_child_idx (getB b.blines d).children
      exact this hy
    have hfil : y ∈ out.filter (fun x => decide (x ∈ (getB b.blines d).children)) := by
      rw [List.mem_filter]
      exact ⟨hyout, by simp [hymem]⟩
    have hcons := h.consumed_out d hd
    dsimp only at hcons
    rw [hcons] at hfil
    obtain ⟨k, hk, hkeq⟩ := List.getElem_of_mem hfil
    obtain ⟨k2, hk2, hkeq2⟩ := List.getElem_of_mem hy
    have hcur := h.cursor_le d
    dsimp only at hcur
    have hklen : k < (getB b.blines d).next_child_idx := by
      have := hk
      rw [List.length_take] at this
      omega
    have hkb : k < (getB b.blines d).children.length := by
      omega
    rw [List.getElem_take] at hkeq
    rw [List.getElem_drop] at hkeq2
    have hnodup := h.children_nodup d hd
    have hk2b : (getB b.blines d).next_child_idx + k2 < (getB b.blines d).children.length := by
      have := hk2
      rw [List.length_drop] at this
      omega
    have := (@List.Nodup.getElem_inj_iff _ _ hnodup _ hkb _ hk2b).mp
      (by rw [hkeq, hkeq2])
    omega
  have hspec0 := load_children_spec env options b c hc_lt
  rcases hld : load_children env options b c with ⟨b1, hcm⟩
  rw [hld] at hspec0
  rw [levelDirStep_eq, hld] at hstep
  dsimp only at hstep
  obtain ⟨cs, hch, hbounds, hnodupcs, hcover, hfields, hsortcs, hcmiff⟩ :=
    hspec0.children_ext
  dsimp only at hch hbounds hcover hfields hsortcs hcmiff
  have hlen1 : b.blines.length ≤ b1.blines.length := hspec0.len_le
  have hframe1 : ∀ j, j < b.blines.length → j ≠ c →
      getB b1.blines j = getB b.blines j := hspec0.frame
  have hcore1 : (getB b1.blines c).parent_idx = (getB b.blines c).parent_idx ∧
      (getB b1.blines c).path = (getB b.blines c).path ∧
      (getB b1.blines c).depth = (getB b.blines c).depth ∧
      (getB b1.blines c).name = (getB b.blines c).name ∧
      (getB b1.blines c).next_child_idx = (getB b.blines c).next_child_idx ∧
      (getB b1.blines c).line_type = (getB b.blines c).line_type ∧
      (getB b1.blines c).score = (getB b.blines c).score ∧
      (getB b1.blines c).ignore_filter = (getB b.blines c).ignore_filter ∧
      (getB b1.blines c).nb_kept_children = (getB b.blines c).nb_kept_children :=
    hspec0.parent_core
  have hloaded1 : (getB b1.blines c).children_loaded = true := hspec0.loaded
  have hm1 : (getB b1.blines c).has_match =
      ((getB b.blines c).has_match || hcm) := hspec0.hm
  have hchc : (getB b1.blines c).children = cs := by
    rw [hch, hc_mt]
    rfl
  have hc_lt1 : c < b1.blines.length := Nat.lt_of_lt_of_le hc_lt hlen1
  have hrp1 : (getB b1.blines 0).parent_idx = 0 := by
    rw [hframe1 0 hroot_lt (by omega)]
    exact h.root_parent
  have hrm1 : (getB b1.blines 0).has_match = true := by
    rw [hframe1 0 hroot_lt (by omega)]
    exact h.root_match
  have hrd1 : (getB b1.blines 0).depth = 0 := by
    rw [hframe1 0 hroot_lt (by omega)]
    exact h.root_depth
  have hpl1 : ∀ i, 0 < i → i < b1.blines.length → (getB b1.blines i).parent_idx < i := by
    intro i hi0 hil
    rcases Nat.lt_or_ge i b.blines.length with hib | hib
    · rcases eq_or_ne i c with he | he
      · subst he
        rw [hcore1.1]
        exact h.parent_lt i hi0 hib
      · rw [hframe1 i hib he]
        exact h.parent_lt i hi0 hib
    · have hicsmem := hcover i hib hil
      have := (hfields i hicsmem).1
      rw [this]
      omega
  have hmono1 : ∀ j, j < b.blines.length → (getB b.blines j).has_match = true →
      (getB b1.blines j).has_match = true := by
    intro j hj hmj
    rcases eq_or_ne j c with he | he
    · subst he
      rw [hm1, hmj]
      rfl
    · rw [hframe1 j hj he]
      exact hmj
  have hvio1 : ∀ i, 0 < i → i < b1.blines.length → (getB b1.blines i).has_match = true →
      ((getB b1.blines (getB b1.blines i).parent_idx).has_match = true ∨ i = c ∨
        (getB b1.blines i).parent_idx = c) := by
    intro i hi0 hil hmi
    rcases Nat.lt_or_ge i b.blines.length with hib | hib
    · rcases eq_or_ne i c with he | he
      · exact Or.inr (Or.inl he)
      · rw [hframe1 i hib he] at hmi
        have hcl := h.closure i hi0 hib hmi
        have hplt := h.parent_lt i hi0 hib
        dsimp only at hcl hplt
        have hpb : (getB b.blines i).parent_idx < b.blines.length := by omega
        rw [hframe1 i hib he]
        exact Or.inl (hmono1 _ hpb hcl)
    · have hicsmem := hcover i hib hil
      exact Or.inr (Or.inr (hfields i hicsmem).1)
  have hall1 : options.pattern = none → ∀ i, i < b1.blines.length →
      (getB b1.blines i).has_match = true := by
    intro hpn i hil
    rcases Nat.lt_or_ge i b.blines.length with hib | hib
    · exact hmono1 i hib ((h.nopat hpn).2.2 i hib)
    · exact (hfields i (hcover i hib hil)).2.2.2.2.2.2.2.2 hpn
  -- facts about the children lists of b1
  have hchildren1 : ∀ d, d < b.blines.length → d ≠ c →
      (getB b1.blines d).children = (getB b.blines d).children := by
    intro d hd hne
    rw [hframe1 d hd hne]
  have hold_children_lt : ∀ d, d < b.blines.length →
      ∀ x ∈ (getB b.blines d).children, x < b.blines.length ∧ 0 < x := by
    intro d hd x hx
    obtain ⟨g1, g2, g3⟩ := h.child_parent d hd x hx
    exact ⟨g3, g2⟩
  suffices main : ∀ (bl2 : List BLine) (nbOk2' : Nat),
      bl2.length = b1.blines.length →
      (∀ j, getB bl2 j = getB b1.blines j ∨
        getB bl2 j = { getB b1.blines j with has_match := true }) →
      (∀ i, 0 < i → i < bl2.length → (getB bl2 i).has_match = true →
        (getB bl2 (getB bl2 i).parent_idx).has_match = true) →
      (options.pattern = none → nbOk2' = nbOk) →
      GInv options tsize
        { b := { blines := bl2, nb_gitignored := b1.nb_gitignored }, out := out,
          nbOk := nbOk2', openDirs := opend ++ [c], nextLevel := todo, iter := iter } by
    cases hcm with
    | false =>
      simp only [Bool.false_eq_true, if_false, Prod.mk.injEq] at hstep
      obtain ⟨hb, hn, ho⟩ := hstep
      have hclo : ∀ i, 0 < i → i < b1.blines.length →
          (getB b1.blines i).has_match = true →
          (getB b1.blines (getB b1.blines i).parent_idx).has_match = true := by
        intro i hi0 hil hmi
        rcases hvio1 i hi0 hil hmi with hv | hv | hv
        · exact hv
        · subst hv
          rw [hm1, Bool.or_false] at hmi
          have hcl := h.closure i hi0 hc_lt hmi
          have hplt := h.parent_lt i hi0 hc_lt
          dsimp only at hcl hplt
          rw [hcore1.1]
          exact hmono1 _ (by omega) hcl
        · -- a fresh child of c is matched although hcm is false: impossible
          rcases Nat.lt_or_ge i b.blines.length with hib | hib
          · rcases eq_or_ne i c with he | he
            · subst he
              rw [hm1, Bool.or_false] at hmi
              have hcl := h.closure i hi0 hc_lt hmi
              have hplt := h.parent_lt i hi0 hc_lt
              dsimp only at hcl hplt
              rw [hcore1.1]
              exact hmono1 _ (by omega) hcl
            · rw [hv, hm1, Bool.or_false]
              rw [hframe1 i hib he] at hmi
              have hcl := h.closure i hi0 hib hmi
              have hpeq : (getB b1.blines i).parent_idx = (getB b.blines i).parent_idx := by
                rw [hframe1 i hib he]
              rw [hpeq] at hv
              rw [← hv]
              exact hcl
          · have hicsmem := hcover i hib hil
            exact absurd (hcmiff.mpr ⟨i, hicsmem, hmi⟩) (by simp)
      have hres := main b1.blines nbOk rfl (fun j => Or.inl rfl) hclo (fun _ => rfl)
      rw [← hb, ← hn, ← ho]
      exact hres
    | true =>
      simp only [if_true, Prod.mk.injEq] at hstep
      obtain ⟨hb, hn, ho⟩ := hstep
      obtain ⟨w1, w2, w3⟩ := ancestorWalk_spec c c b1.blines nbOk (Nat.le_refl c)
        hc_lt1 hrp1 hrm1 hpl1 hvio1
      have hclo2 : ∀ i, 0 < i → i < (ancestorWalk c b1.blines c nbOk).1.length →
          (getB (ancestorWalk c b1.blines c nbOk).1 i).has_match = true →
          (getB (ancestorWalk c b1.blines c nbOk).1
            (getB (ancestorWalk c b1.blines c nbOk).1 i).parent_idx).has_match = true := by
        intro i hi0 hil
        rw [w1] at hil
        exact w3 i hi0 hil
      have hnp2 : options.pattern = none → (ancestorWalk c b1.blines c nbOk).2 = nbOk := by
        intro hpn
        rw [ancestorWalk_allMatched c c b1.blines nbOk (hall1 hpn) hc_lt1 hrp1 hpl1]
      have hres := main (ancestorWalk c b1.blines c nbOk).1
        (ancestorWalk c b1.blines c nbOk).2 w1 w2 hclo2 hnp2
      rw [← hb, ← hn, ← ho]
      exact hres
  -- proof of `main`
  intro bl2 nbOk2' hl2 hf2 hcl2 hnp2'
  have hfcore : ∀ j,
      (getB bl2 j).parent_idx = (getB b1.blines j).parent_idx ∧
      (getB bl2 j).depth = (getB b1.blines j).depth ∧
      (getB bl2 j).path = (getB b1.blines j).path ∧
      (getB bl2 j).name = (getB b1.blines j).name ∧
      (getB bl2 j).children = (getB b1.blines j).children ∧
      (getB bl2 j).children_loaded = (getB b1.blines j).children_loaded ∧
      (getB bl2 j).next_child_idx = (getB b1.blines j).next_child_idx ∧
      (getB bl2 j).nb_kept_children = (getB b1.blines j).nb_kept_children := by
    intro j
    rcases hf2 j with he | he <;> rw [he] <;> simp
  have hfmono : ∀ j, (getB b1.blines j).has_match = true →
      (getB bl2 j).has_match = true := by
    intro j hm
    rcases hf2 j with he | he <;> rw [he] <;> simp [hm]
  have hkeep : ∀ j, j < b.blines.length →
      (getB b1.blines j).parent_idx = (getB b.blines j).parent_idx ∧
      (getB b1.blines j).depth = (getB b.blines j).depth ∧
      (getB b1.blines j).path = (getB b.blines j).path ∧
      (getB b1.blines j).name = (getB b.blines j).name ∧
      (getB b1.blines j).next_child_idx = (getB b.blines j).next_child_idx ∧
      (getB b1.blines j).nb_kept_children = (getB b.blines j).nb_kept_children := by
    intro j hj
    rcases eq_or_ne j c with he | he
    · subst he
      exact ⟨hcore1.1, hcore1.2.2.1, hcore1.2.1, hcore1.2.2.2.1,
        hcore1.2.2.2.2.1, hcore1.2.2.2.2.2.2.2.2⟩
    · rw [hframe1 j hj he]
      exact ⟨rfl, rfl, rfl, rfl, rfl, rfl⟩
  constructor
  case root_lt =>
    show 0 < bl2.length
    rw [hl2]
    omega
  case root_parent =>
    show (getB bl2 0).parent_idx = 0
    rw [(hfcore 0).1, hrp1]
  case root_depth =>
    show (getB bl2 0).depth = 0
    rw [(hfcore 0).2.1, hrd1]
  case root_match =>
    exact hfmono 0 hrm1
  case parent_lt =>
    intro i hi0 hil
    dsimp only at hil
    rw [hl2] at hil
    rw [(hfcore i).1]
    exact hpl1 i hi0 hil
  case depth_succ =>
    intro i hi0 hil
    dsimp only at hil ⊢
    rw [hl2] at hil
    rw [(hfcore i).2.1, (hfcore i).1, (hfcore _).2.1]
    rcases Nat.lt_or_ge i b.blines.length with hib | hib
    · have hplt := h.parent_lt i hi0 hib
      dsimp only at hplt
      rw [(hkeep i hib).1, (hkeep i hib).2.1, (hkeep _ (by omega)).2.1]
      exact h.depth_succ i hi0 hib
    · have hicsmem := hcover i hib hil
      obtain ⟨g1, g2, _⟩ := hfields i hicsmem
      rw [g1, g2, (hkeep c hc_lt).2.1]
  case path_eq =>
    intro i hi0 hil
    dsimp only at hil ⊢
    rw [hl2] at hil
    rw [(hfcore i).2.2.1, (hfcore i).1, (hfcore _).2.2.1, (hfcore i).2.2.2.1]
    rcases Nat.lt_or_ge i b.blines.length with hib | hib
    · have hplt := h.parent_lt i hi0 hib
      dsimp only at hplt
      rw [(hkeep i hib).1, (hkeep i hib).2.2.1, (hkeep _ (by omega)).2.2.1,
        (hkeep i hib).2.2.2.1]
      exact h.path_eq i hi0 hib
    · have hicsmem := hcover i hib hil
      obtain ⟨g1, _, g3, _⟩ := hfields i hicsmem
      rw [g1, g3, (hkeep c hc_lt).2.2.1]
  case cursor_le =>
    intro i
    dsimp only
    rw [(hfcore i).2.2.2.2.2.2.1, (hfcore i).2.2.2.2.1]
    rcases Nat.lt_or_ge i b.blines.length with hib | hib
    · rcases eq_or_ne i c with he | he
      · subst he
        rw [(hkeep i hib).2.2.2.2.1, hc_cur]
        exact Nat.zero_le _
      · rw [hframe1 i hib he]
        exact h.cursor_le i
    · rcases Nat.lt_or_ge i b1.blines.length with hil | hil
      · have hicsmem := hcover i hib hil
        obtain ⟨_, _, _, g4, g5, _⟩ := hfields i hicsmem
        rw [g4, g5]
        exact Nat.zero_le _
      · rw [getB_oob hil]
        exact Nat.zero_le _
  case child_parent =>
    intro d hd x hx
    dsimp only at hd hx ⊢
    rw [hl2] at hd
    rw [(hfcore d).2.2.2.2.1] at hx
    rw [(hfcore x).1, hl2]
    rcases Nat.lt_or_ge d b.blines.length with hdb | hdb
    · rcases eq_or_ne d c with he | he
      · subst he
        rw [hchc] at hx
        obtain ⟨g1, _⟩ := hfields x hx
        obtain ⟨hx1, hx2⟩ := hbounds x hx
        exact ⟨g1, by omega, hx2⟩
      · rw [hchildren1 d hdb he] at hx
        obtain ⟨g1, g2, g3⟩ := h.child_parent d hdb x hx
        dsimp only at g1 g2 g3
        refine ⟨?_, g2, by omega⟩
        rw [(hkeep x g3).1]
        exact g1
    · have hdcsmem := hcover d hdb hd
      obtain ⟨_, _, _, g4, _⟩ := hfields d hdcsmem
      rw [g4] at hx
      exact absurd hx (List.not_mem_nil x)
  case children_nodup =>
    intro d hd
    dsimp only at hd ⊢
    rw [hl2] at hd
    rw [(hfcore d).2.2.2.2.1]
    rcases Nat.lt_or_ge d b.blines.length with hdb | hdb
    · rcases eq_or_ne d c with he | he
      · subst he
        rw [hchc]
        exact hnodupcs
      · rw [hchildren1 d hdb he]
        exact h.children_nodup d hdb
    · have hdcsmem := hcover d hdb hd
      obtain ⟨_, _, _, g4, _⟩ := hfields d hdcsmem
      rw [g4]
      exact List.nodup_nil
  case children_disj =>
    intro d d' hd hd' hne x hx
    dsimp only at hd hd' hx ⊢
    rw [hl2] at hd hd'
    rw [(hfcore d).2.2.2.2.1] at hx
    rw [(hfcore d').2.2.2.2.1]
    have hside : ∀ e, e < b1.blines.length → x ∈ (getB b1.blines e).children →
        (e < b.blines.length ∧ e ≠ c → x ∈ (getB b.blines e).children ∧ x < b.blines.length) ∧
        (e = c → x ∈ cs ∧ b.blines.length ≤ x) ∧
        (b.blines.length ≤ e → False) := by
      intro e helt hxe
      refine ⟨?_, ?_, ?_⟩
      · rintro ⟨heb, hec⟩
        rw [hchildren1 e heb hec] at hxe
        exact ⟨hxe, (hold_children_lt e heb x hxe).1⟩
      · rintro rfl
        rw [hchc] at hxe
        exact ⟨hxe, (hbounds x hxe).1⟩
      · intro heb
        have hecsmem := hcover e heb helt
        obtain ⟨_, _, _, g4, _⟩ := hfields e hecsmem
        rw [g4] at hxe
        exact absurd hxe (List.not_mem_nil x)
    intro hx'
    rcases Nat.lt_or_ge d b.blines.length with hdb | hdb
    · rcases Nat.lt_or_ge d' b.blines.length with hdb' | hdb'
      · rcases eq_or_ne d c with he | he
        · obtain ⟨hxcs, hxge⟩ := (hside d hd hx).2.1 he
          rcases eq_or_ne d' c with he' | he'
          · exact hne (he.trans he'.symm)
          · obtain ⟨_, hxlt⟩ := (hside d' hd' hx').1 ⟨hdb', he'⟩
            omega
        · obtain ⟨hxd, hxlt⟩ := (hside d hd hx).1 ⟨hdb, he⟩
          rcases eq_or_ne d' c with he' | he'
          · obtain ⟨_, hxge⟩ := (hside d' hd' hx').2.1 he'
            omega
          · obtain ⟨hxd', _⟩ := (hside d' hd' hx').1 ⟨hdb', he'⟩
            exact h.children_disj d d' hdb hdb' hne x hxd hxd'
      · exact (hside d' hd' hx').2.2 hdb'
    · exact (hside d hd hx).2.2 hdb
  case sorted =>
    intro d hd
    dsimp only at hd ⊢
    rw [hl2] at hd
    rw [(hfcore d).2.2.2.2.1]
    rcases Nat.lt_or_ge d b.blines.length with hdb | hdb
    · rcases eq_or_ne d c with he | he
      · subst he
        rw [hchc]
        refine hsortcs.imp_of_mem ?_
        intro a e ha hee hle
        rw [(hfcore a).2.2.2.1, (hfcore e).2.2.2.1]
        exact hle
      · rw [hchildren1 d hdb he]
        refine (h.sorted d hdb).imp_of_mem ?_
        intro a e ha hee hle
        have halt := (hold_children_lt d hdb a ha).1
        have helt := (hold_children_lt d hdb e hee).1
        rw [(hfcore a).2.2.2.1, (hfcore e).2.2.2.1,
          (hkeep a halt).2.2.2.1, (hkeep e helt).2.2.2.1]
        exact hle
    · have hdcsmem := hcover d hdb hd
      obtain ⟨_, _, _, g4, _⟩ := hfields d hdcsmem
      rw [g4]
      exact List.Pairwise.nil
  case unloaded_mt =>
    intro d hd
    dsimp only at hd ⊢
    rw [hl2] at hd
    rw [(hfcore d).2.2.2.2.2.1, (hfcore d).2.2.2.2.1]
    rcases Nat.lt_or_ge d b.blines.length with hdb | hdb
    · rcases eq_or_ne d c with he | he
      · subst he
        rw [hloaded1]
        intro hc2
        exact absurd hc2 (by simp)
      · rw [hchildren1 d hdb he, hframe1 d hdb he]
        exact h.unloaded_mt d hdb
    · have hdcsmem := hcover d hdb hd
      obtain ⟨_, _, _, g4, _⟩ := hfields d hdcsmem
      intro _
      exact g4
  case nkc_zero =>
    intro i
    dsimp only
    rw [(hfcore i).2.2.2.2.2.2.2]
    rcases Nat.lt_or_ge i b.blines.length with hib | hib
    · rw [(hkeep i hib).2.2.2.2.2]
      exact h.nkc_zero i
    · rcases Nat.lt_or_ge i b1.blines.length with hil | hil
      · exact (hfields i (hcover i hib hil)).2.2.2.2.2.2.1
      · rw [getB_oob hil]
        rfl
  case closure =>
    intro i hi0 hil
    dsimp only at hil ⊢
    exact hcl2 i hi0 hil
  case out_head => exact h.out_head
  case out_lt =>
    intro i hi
    dsimp only at hi ⊢
    rw [hl2]
    have hlt := h.out_lt i hi
    dsimp only at hlt
    omega
  case out_nodup => exact h.out_nodup
  case out_parent =>
    intro i hi
    dsimp only at hi ⊢
    have hilt := h.out_lt i hi
    rw [(hfcore i).1, (hkeep i hilt).1]
    exact h.out_parent i hi
  case open_sub =>
    intro i hi
    dsimp only at hi ⊢
    rcases List.mem_append.mp hi with hi | hi
    · exact h.open_sub i hi
    · simp only [List.mem_singleton] at hi
      subst hi
      exact hc_out
  case nld_sub =>
    intro i hi
    dsimp only at hi ⊢
    exact h.nld_sub i (List.mem_cons_of_mem c hi)
  case nld_pos =>
    intro i hi
    dsimp only at hi
    exact h.nld_pos i (List.mem_cons_of_mem c hi)
  case nld_nodup =>
    exact List.Nodup.of_cons h.nld_nodup
  case nld_unloaded =>
    intro i hi
    dsimp only at hi ⊢
    have hic : i ≠ c := by
      intro he
      subst he
      have := h.nld_nodup
      rw [List.nodup_cons] at this
      exact this.1 hi
    have hilt : i < b.blines.length := h.out_lt i (h.nld_sub i (List.mem_cons_of_mem c hi))
    rw [(hfcore i).2.2.2.2.2.1, hframe1 i hilt hic]
    exact h.nld_unloaded i (List.mem_cons_of_mem c hi)
  case consumed_out =>
    intro d hd
    dsimp only at hd ⊢
    rw [hl2] at hd
    rw [(hfcore d).2.2.2.2.1, (hfcore d).2.2.2.2.2.2.1]
    rcases Nat.lt_or_ge d b.blines.length with hdb | hdb
    · rcases eq_or_ne d c with he | he
      · subst he
        rw [hchc, (hkeep d hdb).2.2.2.2.1, hc_cur]
        rw [List.take_zero]
        rw [List.filter_eq_nil_iff]
        intro x hx
        have hxlt := h.out_lt x hx
        dsimp only at hxlt
        simp only [decide_eq_true_eq]
        intro hxcs
        have := (hbounds x hxcs).1
        omega
      · rw [hchildren1 d hdb he, (hkeep d hdb).2.2.2.2.1]
        exact h.consumed_out d hdb
    · have hdcsmem := hcover d hdb hd
      obtain ⟨_, _, _, g4, g5, _⟩ := hfields d hdcsmem
      rw [g4, g5]
      simp
  case pending_unloaded =>
    intro d hd y hy
    dsimp only at hd hy ⊢
    rw [hl2] at hd
    rw [(hfcore d).2.2.2.2.1, (hfcore d).2.2.2.2.2.2.1] at hy
    rw [(hfcore y).2.2.2.2.2.1]
    rcases Nat.lt_or_ge d b.blines.length with hdb | hdb
    · rcases eq_or_ne d c with he | he
      · subst he
        rw [hchc, (hkeep d hdb).2.2.2.2.1, hc_cur, List.drop_zero] at hy
        exact (hfields y hy).2.2.2.2.2.1
      · rw [hchildren1 d hdb he, (hkeep d hdb).2.2.2.2.1] at hy
        have hyno := hpend_not_out d hdb y hy
        have hyc : y ≠ c := fun hyc => hyno (hyc ▸ hc_out)
        have hylt : y < b.blines.length :=
          (hold_children_lt d hdb y (List.drop_subset _ _ hy)).1
        rw [hframe1 y hylt hyc]
        exact h.pending_unloaded d hdb y hy
    · have hdcsmem := hcover d hdb hd
      obtain ⟨_, _, _, g4, _⟩ := hfields d hdcsmem
      rw [g4] at hy
      simp at hy
  case nopat =>
    intro hpn
    dsimp only
    obtain ⟨hn1, hn2, hn3⟩ := h.nopat hpn
    rw [hnp2' hpn]
    refine ⟨hn1, hn2, ?_⟩
    intro i hil
    rw [hl2] at hil
    exact hfmono i (hall1 hpn i hil)

theorem GInv_iter {options : TreeOptions} {tsize : Nat} {b : Builder}
    {out : List Nat} {nbOk : Nat} {opend lvl : List Nat} {iter iter' : Nat}
    (h : GInv options tsize
      { b := b, out := out, nbOk := nbOk, openDirs := opend,
        nextLevel := lvl, iter := iter }) :
    GInv options tsize
      { b := b, out := out, nbOk := nbOk, openDirs := opend,
        nextLevel := lvl, iter := iter' } := by
  cases h
  constructor <;> assumption

theorem levelFold_inv (env : Env) (options : TreeOptions) (tsize : Nat)
    (lvl : List Nat) :
    ∀ (b : Builder) (nbOk : Nat) (opend out : List Nat) (iter : Nat),
    GInv options tsize
      { b := b, out := out, nbOk := nbOk, openDirs := opend,
        nextLevel := lvl, iter := iter } →
    GInv options tsize
      { b := (lvl.foldl (levelDirStep env options) (b, nbOk, opend)).1,
        out := out,
        nbOk := (lvl.foldl (levelDirStep env options) (b, nbOk, opend)).2.1,
        openDirs := (lvl.foldl (levelDirStep env options) (b, nbOk, opend)).2.2,
        nextLevel := [], iter := iter } := by
  induction lvl with
  | nil =>
    intro b nbOk opend out iter h
    exact h
  | cons c todo ih =>
    intro b nbOk opend out iter h
    rw [List.foldl_cons]
    rcases hstep : levelDirStep env options (b, nbOk, opend) c with ⟨b2, nbOk2, open2⟩
    exact ih b2 nbOk2 open2 out iter (levelDirStep_inv h hstep)

theorem gatherStep_inv {env : Env} {options : TreeOptions} {tsize : Nat}
    {st st' : GSt} (h : GInv options tsize st)
    (hbound : options.pattern = none → st.nbOk < tsize)
    (hstep : gatherStep env options st = some st') :
    GInv options tsize st' := by
  obtain ⟨b, out, nbOk, opend, lvl, iter⟩ := st
  cases opend with
  | cons d rest =>
    simp only [gatherStep] at hstep
    rcases hnc : next_child b.blines d with ⟨blines, oc⟩
    rw [hnc] at hstep
    cases oc with
    | some c =>
      dsimp only at hstep
      injection hstep with hstep
      subst hstep
      exact gstep_child_inv h rfl hnc hbound
    | none =>
      dsimp only at hstep
      injection hstep with hstep
      subst hstep
      exact gstep_done_inv h rfl hnc
  | nil =>
    simp only [gatherStep] at hstep
    cases lvl with
    | nil => simp at hstep
    | cons c todo =>
      simp only [List.isEmpty_cons, Bool.false_eq_true, if_false] at hstep
      rcases hfold : List.foldl (levelDirStep env options) (b, nbOk, []) (c :: todo)
        with ⟨b2, nbOk2, open2⟩
      rw [hfold] at hstep
      dsimp only at hstep
      injection hstep with hstep
      subst hstep
      have h2 := levelFold_inv env options tsize (c :: todo) b nbOk [] out iter h
      rw [hfold] at h2
      dsimp only at h2
      exact GInv_iter h2

theorem gatherLoop_inv {env : Env} {options : TreeOptions} {tsize : Nat}
    (fuel : Nat) :
    ∀ (st st' : GSt), GInv options tsize st →
    gatherLoop env options tsize fuel st = some (some st') →
    GInv options tsize st' := by
  induction fuel with
  | zero =>
    intro st st' h hloop
    simp [gatherLoop] at hloop
  | succ fuel ih =>
    intro st st' h hloop
    rw [gatherLoop] at hloop
    by_cases hps : options.pattern.isSome = true
    · rw [if_pos hps] at hloop
      by_cases hb1 : (st.nbOk > 20 * tsize ||
          (decide (st.nbOk ≥ tsize) && env.elapsedLong st.iter)) = true
      · rw [if_pos hb1] at hloop
        injection hloop with hloop
        injection hloop with hloop
        subst hloop
        exact h
      · rw [if_neg hb1] at hloop
        by_cases hb2 : env.expired st.iter = true
        · rw [if_pos hb2] at hloop
          injection hloop with hloop
          exact absurd hloop (by simp)
        · rw [if_neg hb2] at hloop
          rcases hgs : gatherStep env options st with _ | st2
          · rw [hgs] at hloop
            injection hloop with hloop
            injection hloop with hloop
            subst hloop
            exact h
          · rw [hgs] at hloop
            have hbound : options.pattern = none → st.nbOk < tsize := by
              intro hpn
              rw [hpn] at hps
              exact absurd hps (by simp)
            exact ih st2 st' (gatherStep_inv h hbound hgs) hloop
    · rw [if_neg hps] at hloop
      by_cases hb3 : st.nbOk ≥ tsize
      · rw [if_pos hb3] at hloop
        injection hloop with hloop
        injection hloop with hloop
        subst hloop
        exact h
      · rw [if_neg hb3] at hloop
        rcases hgs : gatherStep env options st with _ | st2
        · rw [hgs] at hloop
          injection hloop with hloop
          injection hloop with hloop
          subst hloop
          exact h
        · rw [hgs] at hloop
          exact ih st2 st' (gatherStep_inv h (fun _ => by omega) hgs) hloop

/-- The state entering the main loop of `gather_lines` — root stored, root
children loaded, the root both in `out` and open — satisfies the gather
invariant. -/
theorem gatherInit_inv (env : Env) (options : TreeOptions) (tsize : Nat)
    (path : Path) :
    GInv options tsize
      { b := (load_children env options (builderFrom env path options) 0).1,
        out := [0], nbOk := 1, openDirs := [0], nextLevel := [], iter := 0 } := by
  have hlen0 : (builderFrom env path options).blines.length = 1 := rfl
  have hroot0 : getB (builderFrom env path options).blines 0 =
      BLine.from_root env path options.respect_git_ignore := rfl
  have hspec0 := load_children_spec env options (builderFrom env path options) 0
    (by rw [hlen0]; omega)
  rcases hld : load_children env options (builderFrom env path options) 0 with ⟨b1, hcm⟩
  rw [hld] at hspec0
  dsimp only
  obtain ⟨cs, hch, hbounds, hnodupcs, hcover, hfields, hsortcs, hcmiff⟩ :=
    hspec0.children_ext
  dsimp only at hch hbounds hcover hfields hsortcs hcmiff
  have hcore := hspec0.parent_core
  have hloaded : (getB b1.blines 0).children_loaded = true := hspec0.loaded
  have hm : (getB b1.blines 0).has_match =
      ((getB (builderFrom env path options).blines 0).has_match || hcm) := hspec0.hm
  have hlen1 : 1 ≤ b1.blines.length := by
    have h1 := hspec0.len_le
    rw [hlen0] at h1
    exact h1
  have hrp : (getB b1.blines 0).parent_idx = 0 := by
    rw [hcore.1, hroot0]
    rfl
  have hrd : (getB b1.blines 0).depth = 0 := by
    rw [hcore.2.2.1, hroot0]
    rfl
  have hrm : (getB b1.blines 0).has_match = true := by
    rw [hm, hroot0]
    exact Bool.true_or hcm
  have hr_cur : (getB b1.blines 0).next_child_idx = 0 := by
    rw [hcore.2.2.2.2.1, hroot0]
    rfl
  have hr_nkc : (getB b1.blines 0).nb_kept_children = 0 := by
    rw [hcore.2.2.2.2.2.2.2.2, hroot0]
    rfl
  have hchc : (getB b1.blines 0).children = cs := by
    rw [hch, hroot0]
    rfl
  have hmem_cs : ∀ i, 0 < i → i < b1.blines.length → i ∈ cs := by
    intro i hi0 hil
    exact hcover i (by rw [hlen0]; omega) hil
  have hcs_pos : ∀ x ∈ cs, 0 < x := by
    intro x hx
    have h1 := (hbounds x hx).1
    rw [hlen0] at h1
    omega
  have hcs_ne0 : ∀ x ∈ cs, x ≠ 0 := by
    intro x hx
    have := hcs_pos x hx
    omega
  constructor
  case root_lt => exact Nat.lt_of_lt_of_le (by omega) hlen1
  case root_parent => exact hrp
  case root_depth => exact hrd
  case root_match => exact hrm
  case parent_lt =>
    intro i hi0 hil
    rw [(hfields i (hmem_cs i hi0 hil)).1]
    exact hi0
  case depth_succ =>
    intro i hi0 hil
    obtain ⟨g1, g2, _⟩ := hfields i (hmem_cs i hi0 hil)
    rw [g1, g2, hcore.2.2.1]
  case path_eq =>
    intro i hi0 hil
    obtain ⟨g1, _, g3, _⟩ := hfields i (hmem_cs i hi0 hil)
    rw [g1, g3, hcore.2.1]
  case cursor_le =>
    intro i
    rcases Nat.eq_zero_or_pos i with he | hi0
    · subst he
      rw [hr_cur]
      exact Nat.zero_le _
    · rcases Nat.lt_or_ge i b1.blines.length with hil | hil
      · obtain ⟨_, _, _, g4, g5, _⟩ := hfields i (hmem_cs i hi0 hil)
        rw [g4, g5]
        exact Nat.zero_le _
      · rw [getB_oob hil]
        exact Nat.zero_le _
  case child_parent =>
    intro d hd x hx
    rcases Nat.eq_zero_or_pos d with he | hd0
    · subst he
      rw [hchc] at hx
      refine ⟨(hfields x hx).1, hcs_pos x hx, (hbounds x hx).2⟩
    · obtain ⟨_, _, _, g4, _⟩ := hfields d (hmem_cs d hd0 hd)
      rw [g4] at hx
      exact absurd hx (List.not_mem_nil x)
  case children_nodup =>
    intro d hd
    rcases Nat.eq_zero_or_pos d with he | hd0
    · subst he
      rw [hchc]
      exact hnodupcs
    · obtain ⟨_, _, _, g4, _⟩ := hfields d (hmem_cs d hd0 hd)
      rw [g4]
      exact List.nodup_nil
  case children_disj =>
    intro d d' hd hd' hne x hx hx'
    rcases Nat.eq_zero_or_pos d' with he | hd0'
    · subst he
      rcases Nat.eq_zero_or_pos d with he2 | hd0
      · exact hne (he2.trans rfl)
      · obtain ⟨_, _, _, g4, _⟩ := hfields d (hmem_cs d hd0 hd)
        rw [g4] at hx
        exact absurd hx (List.not_mem_nil x)
    · obtain ⟨_, _, _, g4, _⟩ := hfields d' (hmem_cs d' hd0' hd')
      rw [g4] at hx'
      exact absurd hx' (List.not_mem_nil x)
  case sorted =>
    intro d hd
    rcases Nat.eq_zero_or_pos d with he | hd0
    · subst he
      rw [hchc]
      exact hsortcs
    · obtain ⟨_, _, _, g4, _⟩ := hfields d (hmem_cs d hd0 hd)
      rw [g4]
      exact List.Pairwise.nil
  case unloaded_mt =>
    intro d hd hdl
    rcases Nat.eq_zero_or_pos d with he | hd0
    · subst he
      rw [hloaded] at hdl
      exact absurd hdl (by simp)
    · exact (hfields d (hmem_cs d hd0 hd)).2.2.2.1
  case nkc_zero =>
    intro i
    rcases Nat.eq_zero_or_pos i with he | hi0
    · subst he
      exact hr_nkc
    · rcases Nat.lt_or_ge i b1.blines.length with hil | hil
      · exact (hfields i (hmem_cs i hi0 hil)).2.2.2.2.2.2.1
      · rw [getB_oob hil]
        rfl
  case closure =>
    intro i hi0 hil _
    rw [(hfields i (hmem_cs i hi0 hil)).1]
    exact hrm
  case out_head => rfl
  case out_lt =>
    intro i hi
    simp only [List.mem_singleton] at hi
    subst hi
    exact Nat.lt_of_lt_of_le (by omega) hlen1
  case out_nodup => exact List.nodup_singleton 0
  case out_parent =>
    intro i hi
    simp only [List.mem_singleton] at hi
    subst hi
    rw [hrp]
    exact List.mem_singleton.mpr rfl
  case open_sub =>
    intro i hi
    exact hi
  case nld_sub =>
    intro i hi
    exact absurd hi (List.not_mem_nil i)
  case nld_pos =>
    intro i hi
    exact absurd hi (List.not_mem_nil i)
  case nld_nodup => exact List.nodup_nil
  case nld_unloaded =>
    intro i hi
    exact absurd hi (List.not_mem_nil i)
  case consumed_out =>
    intro d hd
    rcases Nat.eq_zero_or_pos d with he | hd0
    · subst he
      rw [hchc, hr_cur, List.take_zero, List.filter_eq_nil_iff]
      intro x hx
      simp only [List.mem_singleton] at hx
      subst hx
      simp only [decide_eq_true_eq]
      intro hxcs
      exact hcs_ne0 0 hxcs rfl
    · obtain ⟨_, _, _, g4, g5, _⟩ := hfields d (hmem_cs d hd0 hd)
      rw [g4, g5]
      simp
  case pending_unloaded =>
    intro d hd y hy
    rcases Nat.eq_zero_or_pos d with he | hd0
    · subst he
      rw [hchc, hr_cur, List.drop_zero] at hy
      exact (hfields y hy).2.2.2.2.2.1
    · obtain ⟨_, _, _, g4, _⟩ := hfields d (hmem_cs d hd0 hd)
      rw [g4] at hy
      simp at hy
  case nopat =>
    intro hpn
    refine ⟨rfl, le_max_right _ _, ?_⟩
    intro i hil
    rcases Nat.eq_zero_or_pos i with he | hi0
    · subst he
      exact hrm
    · exact (hfields i (hmem_cs i hi0 hil)).2.2.2.2.2.2.2.2 hpn

/-! ### The post-gather invariant, carried through the drain and the trim -/

/-- What survives of the gather invariant once the main loop is over: the
arena is a well-formed forest rooted at index 0, the candidate list `out`
starts at the root, is duplicate-free, parent-closed, and contains exactly
the consumed children of every node. -/
structure CInv (bs : List BLine) (out : List Nat) : Prop where
  root_lt : 0 < bs.length
  root_parent : (getB bs 0).parent_idx = 0
  root_depth : (getB bs 0).depth = 0
  root_match : (getB bs 0).has_match = true
  parent_lt : ∀ i, 0 < i → i < bs.length → (getB bs i).parent_idx < i
  depth_succ : ∀ i, 0 < i → i < bs.length →
    (getB bs i).depth = (getB bs (getB bs i).parent_idx).depth + 1
  path_eq : ∀ i, 0 < i → i < bs.length →
    (getB bs i).path = (getB bs (getB bs i).parent_idx).path ++ [(getB bs i).name]
  cursor_le : ∀ i, (getB bs i).next_child_idx ≤ (getB bs i).children.length
  child_parent : ∀ d, d < bs.length → ∀ c ∈ (getB bs d).children,
    (getB bs c).parent_idx = d ∧ 0 < c ∧ c < bs.length
  children_nodup : ∀ d, d < bs.length → (getB bs d).children.Nodup
  children_disj : ∀ d d', d < bs.length → d' < bs.length → d ≠ d' →
    ∀ c, c ∈ (getB bs d).children → c ∉ (getB bs d').children
  sorted : ∀ d, d < bs.length →
    (getB bs d).children.Pairwise (fun a c =>
      charListLe (lowerKey (getB bs a).name) (lowerKey (getB bs c).name) = true)
  unloaded_mt : ∀ d, d < bs.length →
    (getB bs d).children_loaded = false → (getB bs d).children = []
  nkc_zero : ∀ i, (getB bs i).nb_kept_children = 0
  closure : ∀ i, 0 < i → i < bs.length → (getB bs i).has_match = true →
    (getB bs (getB bs i).parent_idx).has_match = true
  out_head : out.head? = some 0
  out_lt : ∀ i ∈ out, i < bs.length
  out_nodup : out.Nodup
  out_parent : ∀ i ∈ out, (getB bs i).parent_idx ∈ out
  consumed_out : ∀ d, d < bs.length →
    out.filter (fun c => decide (c ∈ (getB bs d).children)) =
      (getB bs d).children.take (getB bs d).next_child_idx

theorem GInv_to_CInv {options : TreeOptions} {tsize : Nat} {st : GSt}
    (h : GInv options tsize st) : CInv st.b.blines st.out :=
  { root_lt := h.root_lt, root_parent := h.root_parent, root_depth := h.root_depth,
    root_match := h.root_match, parent_lt := h.parent_lt, depth_succ := h.depth_succ,
    path_eq := h.path_eq, cursor_le := h.cursor_le, child_parent := h.child_parent,
    children_nodup := h.children_nodup, children_disj := h.children_disj,
    sorted := h.sorted, unloaded_mt := h.unloaded_mt, nkc_zero := h.nkc_zero,
    closure := h.closure, out_head := h.out_head, out_lt := h.out_lt,
    out_nodup := h.out_nodup, out_parent := h.out_parent,
    consumed_out := h.consumed_out }

theorem CInv_zero_mem {bs : List BLine} {out : List Nat} (h : CInv bs out) :
    0 ∈ out := by
  have h1 := h.out_head
  cases out with
  | nil => simp at h1
  | cons a t =>
    simp only [List.head?_cons, Option.some.injEq] at h1
    subst h1
    exact List.mem_cons_self 0 t

/-- One consumed root child in the `show_sizes` drain preserves the
post-gather invariant. -/
theorem drainStep_CInv {bs bs2 : List BLine} {out : List Nat} {c : Nat}
    (h : CInv bs out) (hnc : next_child bs 0 = (bs2, some c)) :
    CInv bs2 (out ++ [c]) := by
  obtain ⟨hcur, hceq, hbs⟩ := next_child_some hnc
  have hlen2 : bs2.length = bs.length := by rw [hbs, length_setB]
  have h0 : getB bs2 0 = { getB bs 0 with
      next_child_idx := (getB bs 0).next_child_idx + 1 } := by
    rw [hbs]
    exact getB_setB_self _ h.root_lt
  have hsame : ∀ j, j ≠ 0 → getB bs2 j = getB bs j := by
    intro j hj
    rw [hbs]
    exact getB_setB_ne _ (fun he => hj he.symm)
  have hc_mem : c ∈ (getB bs 0).children := by
    rw [hceq, List.getD_eq_getElem?_getD, List.getElem?_eq_getElem hcur]
    exact List.getElem_mem hcur
  obtain ⟨hc_par, hc_pos, hc_lt⟩ := h.child_parent 0 h.root_lt c hc_mem
  have hc_not_out : c ∉ out := by
    intro hco
    have hfil : c ∈ out.filter (fun x => decide (x ∈ (getB bs 0).children)) := by
      rw [List.mem_filter]
      exact ⟨hco, by simp [hc_mem]⟩
    rw [h.consumed_out 0 h.root_lt] at hfil
    obtain ⟨k, hk, hkeq⟩ := List.getElem_of_mem hfil
    have hklen : k < (getB bs 0).next_child_idx := by
      have := hk
      rw [List.length_take] at this
      omega
    have hkb : k < (getB bs 0).children.length := by omega
    rw [List.getElem_take] at hkeq
    have hceq2 : c = (getB bs 0).children[(getB bs 0).next_child_idx] := by
      rw [hceq, List.getD_eq_getElem?_getD, List.getElem?_eq_getElem hcur]
      rfl
    have hnodup := h.children_nodup 0 h.root_lt
    have := (@List.Nodup.getElem_inj_iff _ _ hnodup _ hkb _ hcur).mp
      (by rw [hkeq, ← hceq2])
    omega
  have hcore : ∀ j,
      (getB bs2 j).parent_idx = (getB bs j).parent_idx ∧
      (getB bs2 j).depth = (getB bs j).depth ∧
      (getB bs2 j).path = (getB bs j).path ∧
      (getB bs2 j).name = (getB bs j).name ∧
      (getB bs2 j).children = (getB bs j).children ∧
      (getB bs2 j).children_loaded = (getB bs j).children_loaded ∧
      (getB bs2 j).has_match = (getB bs j).has_match ∧
      (getB bs2 j).nb_kept_children = (getB bs j).nb_kept_children := by
    intro j
    rcases eq_or_ne j 0 with he | he
    · subst he
      rw [h0]
      exact ⟨rfl, rfl, rfl, rfl, rfl, rfl, rfl, rfl⟩
    · rw [hsame j he]
      exact ⟨rfl, rfl, rfl, rfl, rfl, rfl, rfl, rfl⟩
  constructor
  case root_lt => rw [hlen2]; exact h.root_lt
  case root_parent => rw [(hcore 0).1]; exact h.root_parent
  case root_depth => rw [(hcore 0).2.1]; exact h.root_depth
  case root_match => rw [(hcore 0).2.2.2.2.2.2.1]; exact h.root_match
  case parent_lt =>
    intro i hi0 hil
    rw [hlen2] at hil
    rw [(hcore i).1]
    exact h.parent_lt i hi0 hil
  case depth_succ =>
    intro i hi0 hil
    rw [hlen2] at hil
    rw [(hcore i).2.1, (hcore i).1, (hcore _).2.1]
    exact h.depth_succ i hi0 hil
  case path_eq =>
    intro i hi0 hil
    rw [hlen2] at hil
    rw [(hcore i).2.2.1, (hcore i).1, (hcore _).2.2.1, (hcore i).2.2.2.1]
    exact h.path_eq i hi0 hil
  case cursor_le =>
    intro i
    rcases eq_or_ne i 0 with he | he
    · subst he
      rw [h0]
      dsimp only
      omega
    · rw [hsame i he]
      exact h.cursor_le i
  case child_parent =>
    intro d hd x hx
    rw [hlen2] at hd
    rw [(hcore d).2.2.2.2.1] at hx
    rw [(hcore x).1, hlen2]
    exact h.child_parent d hd x hx
  case children_nodup =>
    intro d hd
    rw [hlen2] at hd
    rw [(hcore d).2.2.2.2.1]
    exact h.children_nodup d hd
  case children_disj =>
    intro d d' hd hd' hne x hx
    rw [hlen2] at hd hd'
    rw [(hcore d).2.2.2.2.1] at hx
    rw [(hcore d').2.2.2.2.1]
    exact h.children_disj d d' hd hd' hne x hx
  case sorted =>
    intro d hd
    rw [hlen2] at hd
    rw [(hcore d).2.2.2.2.1]
    refine (h.sorted d hd).imp_of_mem ?_
    intro a e ha hee hle
    rw [(hcore a).2.2.2.1, (hcore e).2.2.2.1]
    exact hle
  case unloaded_mt =>
    intro d hd
    rw [hlen2] at hd
    rw [(hcore d).2.2.2.2.2.1, (hcore d).2.2.2.2.1]
    exact h.unloaded_mt d hd
  case nkc_zero =>
    intro i
    rw [(hcore i).2.2.2.2.2.2.2]
    exact h.nkc_zero i
  case closure =>
    intro i hi0 hil
    rw [hlen2] at hil
    rw [(hcore i).2.2.2.2.2.2.1, (hcore i).1, (hcore _).2.2.2.2.2.2.1]
    exact h.closure i hi0 hil
  case out_head =>
    have hne : out ≠ [] := by
      intro he
      rw [he] at h
      have := h.out_head
      simp at this
    rw [List.head?_append_of_ne_nil out hne]
    exact h.out_head
  case out_lt =>
    intro i hi
    rw [hlen2]
    rcases List.mem_append.mp hi with hi | hi
    · exact h.out_lt i hi
    · simp only [List.mem_singleton] at hi
      subst hi
      exact hc_lt
  case out_nodup =>
    rw [List.nodup_append]
    exact ⟨h.out_nodup, List.nodup_singleton c, by
      intro a ha hb
      simp only [List.mem_singleton] at hb
      subst hb
      exact hc_not_out ha⟩
  case out_parent =>
    intro i hi
    rcases List.mem_append.mp hi with hi | hi
    · rw [(hcore i).1]
      exact List.mem_append_left _ (h.out_parent i hi)
    · simp only [List.mem_singleton] at hi
      subst hi
      rw [(hcore i).1, hc_par]
      exact List.mem_append_left _ (CInv_zero_mem h)
  case consumed_out =>
    intro d hd
    rw [hlen2] at hd
    rw [(hcore d).2.2.2.2.1, List.filter_append]
    have hfeq : out.filter (fun x => decide (x ∈ (getB bs d).children)) =
        (getB bs d).children.take (getB bs d).next_child_idx := h.consumed_out d hd
    rcases eq_or_ne d 0 with he | he
    · subst he
      rw [h0]
      dsimp only
      rw [hfeq]
      have hfc : List.filter (fun x => decide (x ∈ (getB bs 0).children)) [c] = [c] := by
        simp [hc_mem]
      rw [hfc, List.take_succ, List.getElem?_eq_getElem hcur]
      have : c = (getB bs 0).children[(getB bs 0).next_child_idx] := by
        rw [hceq, List.getD_eq_getElem?_getD, List.getElem?_eq_getElem hcur]
        rfl
      rw [← this]
      rfl
    · rw [hsame d he]
      rw [hfeq]
      have hfc : List.filter (fun x => decide (x ∈ (getB bs d).children)) [c] = [] := by
        have : c ∉ (getB bs d).children :=
          h.children_disj 0 d h.root_lt hd (fun h0d => he h0d.symm) c hc_mem
        simp [this]
      rw [hfc, List.append_nil]

/-- The whole `show_sizes` drain preserves the post-gather invariant. -/
theorem drainRoot_CInv (fuel : Nat) :
    ∀ (bs : List BLine) (out : List Nat), CInv bs out →
    CInv (drainRoot fuel bs out).1 (drainRoot fuel bs out).2 := by
  induction fuel with
  | zero =>
    intro bs out h
    exact h
  | succ fuel ih =>
    intro bs out h
    rw [drainRoot]
    rcases hnc : next_child bs 0 with ⟨bs2, oc⟩
    cases oc with
    | some c =>
      dsimp only
      exact ih bs2 (out ++ [c]) (drainStep_CInv h hnc)
    | none =>
      dsimp only
      obtain ⟨hbe, _⟩ := next_child_none hnc
      subst hbe
      exact h

/-! ### Phase 1 of the trim: counting the kept lines -/

theorem countP_ext {α : Type} (p q : α → Bool) :
    ∀ (l : List α), (∀ x ∈ l, p x = q x) → l.countP p = l.countP q := by
  intro l
  induction l with
  | nil => intro _; rfl
  | cons a t ih =>
    intro hpq
    rw [List.countP_cons, List.countP_cons, hpq a (List.mem_cons_self a t),
      ih (fun x hx => hpq x (List.mem_cons_of_mem a hx))]

/-- The count-and-seed fold of `trim_excess` phase 1: the arena keeps every
field but `nb_kept_children`, the count grows by the number of kept indices
processed, and each node's `nb_kept_children` grows by its number of kept
processed children. -/
theorem trimCount_fold (l : List Nat) :
    ∀ (bs : List BLine) (n : Nat),
    (∀ i ∈ l, (getB bs i).parent_idx < bs.length) →
    (l.foldl trimCountStep (bs, n)).1.length = bs.length ∧
    (∀ j, getB (l.foldl trimCountStep (bs, n)).1 j =
      { getB bs j with
        nb_kept_children := (getB (l.foldl trimCountStep (bs, n)).1 j).nb_kept_children }) ∧
    (l.foldl trimCountStep (bs, n)).2 =
      n + l.countP (fun i => (getB bs i).has_match) ∧
    (∀ j, (getB (l.foldl trimCountStep (bs, n)).1 j).nb_kept_children =
      (getB bs j).nb_kept_children +
        l.countP (fun i => (getB bs i).has_match && ((getB bs i).parent_idx == j))) := by
  induction l with
  | nil =>
    intro bs n _
    refine ⟨rfl, fun j => rfl, by simp, fun j => by simp⟩
  | cons i rest ih =>
    intro bs n hpl
    rw [List.foldl_cons]
    have hstep : trimCountStep (bs, n) i =
        if (getB bs i).has_match then
          (setB bs (getB bs i).parent_idx
            { getB bs (getB bs i).parent_idx with
              nb_kept_children :=
                (getB bs (getB bs i).parent_idx).nb_kept_children + 1 }, n + 1)
        else (bs, n) := by
      dsimp only [trimCountStep]
    by_cases hm : (getB bs i).has_match = true
    · rw [hstep, if_pos hm]
      have hp : (getB bs i).parent_idx < bs.length := hpl i (List.mem_cons_self i rest)
      have hlen2 : (setB bs (getB bs i).parent_idx
          { getB bs (getB bs i).parent_idx with
            nb_kept_children :=
              (getB bs (getB bs i).parent_idx).nb_kept_children + 1 }).length =
          bs.length := length_setB _ _ _
      have hget2 : ∀ j, getB (setB bs (getB bs i).parent_idx
          { getB bs (getB bs i).parent_idx with
            nb_kept_children :=
              (getB bs (getB bs i).parent_idx).nb_kept_children + 1 }) j =
          { getB bs j with
            nb_kept_children := (getB bs j).nb_kept_children +
              (if (getB bs i).parent_idx = j then 1 else 0) } := by
        intro j
        rcases eq_or_ne (getB bs i).parent_idx j with he | he
        · rw [if_pos he, ← he, getB_setB_self _ hp]
        · rw [if_neg he, getB_setB_ne _ he]
          simp
      obtain ⟨ih1, ih2, ih3, ih4⟩ := ih (setB bs (getB bs i).parent_idx
        { getB bs (getB bs i).parent_idx with
          nb_kept_children :=
            (getB bs (getB bs i).parent_idx).nb_kept_children + 1 }) (n + 1)
        (by
          intro i' hi'
          rw [hget2 i']
          dsimp only
          rw [hlen2]
          exact hpl i' (List.mem_cons_of_mem i hi'))
      refine ⟨by rw [ih1, hlen2], ?_, ?_, ?_⟩
      · intro j
        rw [ih2 j, hget2 j]
      · rw [ih3]
        have hcp : rest.countP (fun i' =>
            (getB (setB bs (getB bs i).parent_idx
              { getB bs (getB bs i).parent_idx with
                nb_kept_children :=
                  (getB bs (getB bs i).parent_idx).nb_kept_children + 1 }) i').has_match) =
            rest.countP (fun i' => (getB bs i').has_match) := by
          refine countP_ext _ _ rest ?_
          intro x _
          rw [hget2 x]
        rw [hcp, List.countP_cons]
        simp [hm]
        omega
      · intro j
        rw [ih4 j, hget2 j]
        dsimp only
        have hcp : rest.countP (fun i' =>
            (getB (setB bs (getB bs i).parent_idx
              { getB bs (getB bs i).parent_idx with
                nb_kept_children :=
                  (getB bs (getB bs i).parent_idx).nb_kept_children + 1 }) i').has_match &&
              ((getB (setB bs (getB bs i).parent_idx
                { getB bs (getB bs i).parent_idx with
                  nb_kept_children :=
                    (getB bs (getB bs i).parent_idx).nb_kept_children + 1 }) i').parent_idx
                == j)) =
            rest.countP (fun i' => (getB bs i').has_match &&
              ((getB bs i').parent_idx == j)) := by
          refine countP_ext _ _ rest ?_
          intro x _
          rw [hget2 x]
        rw [hcp, List.countP_cons]
        rcases eq_or_ne (getB bs i).parent_idx j with he | he
        · rw [if_pos he]
          simp [hm, he]
          omega
        · rw [if_neg he]
          have : ((getB bs i).has_match && ((getB bs i).parent_idx == j)) = false := by
            simp [he]
          rw [this]
          simp
    · rw [hstep, if_neg hm]
      obtain ⟨ih1, ih2, ih3, ih4⟩ := ih bs n
        (fun i' hi' => hpl i' (List.mem_cons_of_mem i hi'))
      refine ⟨ih1, ih2, ?_, ?_⟩
      · rw [ih3, List.countP_cons]
        simp [hm]
      · intro j
        rw [ih4 j, List.countP_cons]
        have : ((getB bs i).has_match && ((getB bs i).parent_idx == j)) = false := by
          simp [hm]
        rw [this]
        simp

/-! ### Phase 2 of the trim: seeding the removal queue -/

/-- Eligibility of an index for the initial removal queue, as tested by
`trim_excess` phase 2. -/
def trimEligible (options : TreeOptions) (bs : List BLine) (i : Nat) : Bool :=
  (getB bs i).has_match && (getB bs i).nb_kept_children == 0 &&
    (decide ((getB bs i).depth > 1) || !options.show_sizes)

theorem trimSeedStep_eq (options : TreeOptions) (bs : List BLine)
    (queue : List SortableBLineIdx) (idx : Nat) :
    trimSeedStep options bs queue idx =
      if trimEligible options bs idx then
        heapPush queue { idx := idx, score := (getB bs idx).score }
      else queue := rfl

/-- The seed fold builds (a heap permutation of) one queue entry per eligible
index, in order. -/
theorem trimSeed_fold (options : TreeOptions) (bs : List BLine) (l : List Nat) :
    ∀ (q : List SortableBLineIdx),
    (l.foldl (trimSeedStep options bs) q).Perm
      (q ++ (l.filter (trimEligible options bs)).map
        (fun i => { idx := i, score := (getB bs i).score })) := by
  induction l with
  | nil =>
    intro q
    simp
  | cons i rest ih =>
    intro q
    rw [List.foldl_cons, trimSeedStep_eq]
    by_cases he : trimEligible options bs i = true
    · rw [if_pos he, List.filter_cons_of_pos he, List.map_cons]
      have h1 := ih (heapPush q { idx := i, score := (getB bs i).score })
      refine h1.trans ?_
      refine List.Perm.trans (List.Perm.append_right _ (heapPush_perm q _)) ?_
      exact List.perm_middle.symm
    · rw [if_neg he, List.filter_cons_of_neg he]
      exact ih q

/-! ### The removal loop of the trim -/

theorem countP_nodup_update {l : List Nat} (p q : Nat → Bool) {x : Nat}
    (hnd : l.Nodup) (hx : x ∈ l)
    (hagree : ∀ y ∈ l, y ≠ x → q y = p y) (hqx : q x = false) (hpx : p x = true) :
    l.countP q + 1 = l.countP p := by
  induction l with
  | nil => simp at hx
  | cons a t ih =>
    rw [List.nodup_cons] at hnd
    rcases List.mem_cons.mp hx with he | hxt
    · subst he
      rw [List.countP_cons, List.countP_cons, hqx, hpx]
      have ht : t.countP q = t.countP p :=
        countP_ext _ _ t (fun y hy =>
          hagree y (List.mem_cons_of_mem _ hy) (fun hyx => hnd.1 (hyx ▸ hy)))
      rw [ht]
      simp
    · have ha : a ≠ x := fun he => hnd.1 (he ▸ hxt)
      rw [List.countP_cons, List.countP_cons,
        hagree a (List.mem_cons_self _ _) ha]
      have ht := ih hnd.2 hxt (fun y hy hyx => hagree y (List.mem_cons_of_mem _ hy) hyx)
      omega

theorem heapPush_mem_of_mem {q : List SortableBLineIdx} {z : SortableBLineIdx}
    (y : SortableBLineIdx) (hz : z ∈ q) : z ∈ heapPush q y :=
  (heapPush_perm q y).mem_iff.mpr (List.mem_cons_of_mem y hz)

theorem heapPush_mem_self (q : List SortableBLineIdx) (y : SortableBLineIdx) :
    y ∈ heapPush q y :=
  (heapPush_perm q y).mem_iff.mpr (List.mem_cons_self y q)

theorem heapPop_rest_subset {data d' : List SortableBLineIdx} {x z : SortableBLineIdx}
    (h : heapPop data = some (x, d')) (hz : z ∈ d') : z ∈ data :=
  (heapPop_perm h).mem_iff.mp (List.mem_cons_of_mem x hz)

theorem heapPop_mem_rest {data d' : List SortableBLineIdx} {x z : SortableBLineIdx}
    (h : heapPop data = some (x, d')) (hz : z ∈ data) (hne : z ≠ x) : z ∈ d' := by
  have hperm := heapPop_perm h
  have h1 : z ∈ x :: d' := hperm.mem_iff.mpr hz
  rcases List.mem_cons.mp h1 with he | hm
  · exact absurd he hne
  · exact hm

theorem heapPop_idx_facts {data d' : List SortableBLineIdx} {x : SortableBLineIdx}
    (h : heapPop data = some (x, d'))
    (hnd : (data.map (fun s => s.idx)).Nodup) :
    x.idx ∉ d'.map (fun s => s.idx) ∧ (d'.map (fun s => s.idx)).Nodup := by
  have hperm := (heapPop_perm h).map (fun s => s.idx)
  have h1 : ((x :: d').map (fun s => s.idx)).Nodup := hperm.nodup_iff.mpr hnd
  rw [List.map_cons, List.nodup_cons] at h1
  exact h1

/-- Every kept non-root candidate has a kept candidate ancestor of depth 1
(a candidate whose parent is the root). -/
theorem matched_chain_to_root {bs : List BLine} {out : List Nat}
    (hop : ∀ i ∈ out, (getB bs i).parent_idx ∈ out)
    (hcl : ∀ i ∈ out, 0 < i → (getB bs i).has_match = true →
      (getB bs (getB bs i).parent_idx).has_match = true)
    (hpl : ∀ i ∈ out, 0 < i → (getB bs i).parent_idx < i) :
    ∀ i, i ∈ out → 0 < i → (getB bs i).has_match = true →
    ∃ j, j ∈ out ∧ 0 < j ∧ (getB bs j).has_match = true ∧
      (getB bs j).parent_idx = 0 := by
  intro i
  induction i using Nat.strong_induction_on with
  | _ i ih =>
    intro hio hi0 him
    rcases Nat.eq_zero_or_pos (getB bs i).parent_idx with hp0 | hpp
    · exact ⟨i, hio, hi0, him, hp0⟩
    · exact ih (getB bs i).parent_idx (hpl i hio hi0) (hop i hio) hpp
        (hcl i hio hi0 him)

/-- The invariant of the removal loop of `trim_excess`: the count tracks the
kept candidates, `nb_kept_children` tracks each node's kept candidate
children, the kept set is ancestor-closed on the candidate list, and the
queue holds kept childless candidates — all of them, when they are deep
enough or sizes are off. -/
structure TLInv (options : TreeOptions) (out : List Nat) (bs : List BLine)
    (count : Nat) (queue : List SortableBLineIdx) : Prop where
  root_lt : 0 < bs.length
  root_parent : (getB bs 0).parent_idx = 0
  root_match : 0 < count → (getB bs 0).has_match = true
  parent_lt : ∀ i, 0 < i → i < bs.length → (getB bs i).parent_idx < i
  out_head : out.head? = some 0
  out_lt : ∀ i ∈ out, i < bs.length
  out_nodup : out.Nodup
  out_parent : ∀ i ∈ out, (getB bs i).parent_idx ∈ out
  closure_out : ∀ i ∈ out, 0 < i → (getB bs i).has_match = true →
    (getB bs (getB bs i).parent_idx).has_match = true
  count_eq : count = out.countP (fun i => (getB bs i).has_match)
  nkc_char : 0 < count → ∀ j, (getB bs j).nb_kept_children =
    (out.drop 1).countP (fun i => (getB bs i).has_match && ((getB bs i).parent_idx == j))
  q_mem : 0 < count → ∀ s ∈ queue, s.idx ∈ out ∧ (getB bs s.idx).has_match = true ∧
    (getB bs s.idx).nb_kept_children = 0
  q_nodup : (queue.map (fun s => s.idx)).Nodup
  q_complete : ∀ i ∈ out.drop 1, (getB bs i).has_match = true →
    (getB bs i).nb_kept_children = 0 →
    (1 < (getB bs i).depth ∨ options.show_sizes = false) →
    ∃ s ∈ queue, s.idx = i

theorem TLInv_out_cons {options : TreeOptions} {out : List Nat} {bs : List BLine}
    {count : Nat} {queue : List SortableBLineIdx}
    (h : TLInv options out bs count queue) : out = 0 :: out.drop 1 := by
  have h1 := h.out_head
  cases out with
  | nil => simp at h1
  | cons a t =>
    simp only [List.head?_cons, Option.some.injEq] at h1
    subst h1
    rfl

theorem TLInv_mem_tail {options : TreeOptions} {out : List Nat} {bs : List BLine}
    {count : Nat} {queue : List SortableBLineIdx}
    (h : TLInv options out bs count queue) {i : Nat} (hi : i ∈ out) (hi0 : 0 < i) :
    i ∈ out.drop 1 := by
  have hc := TLInv_out_cons h
  rw [hc] at hi
  rcases List.mem_cons.mp hi with he | hm
  · omega
  · exact hm

/-- During the loop, a popped index with no kept children cannot be the root
while more than one candidate is kept. -/
theorem TLInv_pop_ne_root {options : TreeOptions} {out : List Nat} {bs : List BLine}
    {count : Nat} {queue : List SortableBLineIdx}
    (h : TLInv options out bs (count + 1) queue) (hcnt : 0 < count)
    {x : Nat} (hxo : x ∈ out) (hxm : (getB bs x).has_match = true)
    (hxk : (getB bs x).nb_kept_children = 0) : x ≠ 0 := by
  intro hx0
  subst hx0
  -- with the root childless in the kept tree, the root is the only kept line
  have htail : ∀ i ∈ out.drop 1, (getB bs i).has_match = false := by
    intro i hit
    by_contra hne
    have him : (getB bs i).has_match = true := by
      cases hm : (getB bs i).has_match
      · exact absurd hm hne
      · rfl
    have hi0 : 0 < i := by
      have hnd := h.out_nodup
      rw [TLInv_out_cons h, List.nodup_cons] at hnd
      rcases Nat.eq_zero_or_pos i with he | hp
      · subst he
        exact absurd hit hnd.1
      · exact hp
    have hio : i ∈ out := by
      rw [TLInv_out_cons h]
      exact List.mem_cons_of_mem 0 hit
    obtain ⟨j, hjo, hj0, hjm, hjp⟩ := matched_chain_to_root h.out_parent
      h.closure_out (fun i hi hi0 => h.parent_lt i hi0 (h.out_lt i hi)) i hio hi0 him
    have hjt : j ∈ out.drop 1 := TLInv_mem_tail h hjo hj0
    have hpos : 0 < (out.drop 1).countP
        (fun i => (getB bs i).has_match && ((getB bs i).parent_idx == 0)) := by
      rw [List.countP_pos_iff]
      exact ⟨j, hjt, by simp [hjm, hjp]⟩
    have := h.nkc_char (by omega) 0
    omega
  have hcp : (out.drop 1).countP (fun i => (getB bs i).has_match) = 0 := by
    rw [List.countP_eq_zero]
    intro i hit
    simp [htail i hit]
  have hce := h.count_eq
  rw [TLInv_out_cons h, List.countP_cons] at hce
  rw [List.drop_one] at hcp
  rw [List.drop_one] at hce
  rw [hcp] at hce
  split at hce <;> omega

/-- One pop of the removal loop preserves the loop invariant, only flips
`has_match` off at the popped index, and only decrements its parent's
kept-children counter. -/
theorem trimStep_TLInv {options : TreeOptions} {out : List Nat} {bs : List BLine}
    {count : Nat} {queue queue2 : List SortableBLineIdx} {sli : SortableBLineIdx}
    {bs2 bs3 : List BLine} {p : Nat} {par : BLine} {queue3 : List SortableBLineIdx}
    (h : TLInv options out bs (count + 1) queue)
    (hpop : heapPop queue = some (sli, queue2))
    (hbs2 : bs2 = setB bs sli.idx { getB bs sli.idx with has_match := false })
    (hpdef : p = (getB bs2 sli.idx).parent_idx)
    (hpar : par = { getB bs2 p with
      nb_kept_children := (getB bs2 p).nb_kept_children - 1 })
    (hbs3 : bs3 = setB bs2 p par)
    (hq3 : queue3 = if par.nb_kept_children == 0 then
      heapPush queue2 { idx := p, score := par.score } else queue2) :
    TLInv options out bs3 count queue3 ∧ bs3.length = bs.length ∧
    (∀ j, getB bs3 j = { getB bs j with
      has_match := (getB bs3 j).has_match,
      nb_kept_children := (getB bs3 j).nb_kept_children }) ∧
    (∀ j, (getB bs3 j).has_match = true → (getB bs j).has_match = true) := by
  obtain ⟨hxo, hxm, hxk⟩ := h.q_mem (by omega) sli (heapPop_mem hpop)
  have hx_lt : sli.idx < bs.length := h.out_lt _ hxo
  have hlen2 : bs2.length = bs.length := by rw [hbs2, length_setB]
  have hget2x : getB bs2 sli.idx = { getB bs sli.idx with has_match := false } := by
    rw [hbs2]
    exact getB_setB_self _ hx_lt
  have hget2ne : ∀ j, j ≠ sli.idx → getB bs2 j = getB bs j := by
    intro j hj
    rw [hbs2]
    exact getB_setB_ne _ (fun he => hj he.symm)
  have hpeq : p = (getB bs sli.idx).parent_idx := by
    rw [hpdef, hget2x]
  have hpo : p ∈ out := by
    rw [hpeq]
    exact h.out_parent _ hxo
  have hp_lt : p < bs.length := h.out_lt _ hpo
  have hget3p : getB bs3 p = par := by
    rw [hbs3]
    exact getB_setB_self _ (by rw [hlen2]; exact hp_lt)
  have hget3ne : ∀ j, j ≠ p → getB bs3 j = getB bs2 j := by
    intro j hj
    rw [hbs3]
    exact getB_setB_ne _ (fun he => hj he.symm)
  have hlen3 : bs3.length = bs.length := by rw [hbs3, length_setB, hlen2]
  -- the popped index is the root only when it is the parent of itself
  have hpx_cases : sli.idx = 0 → p = 0 := by
    intro hx0
    rw [hpeq, hx0]
    exact h.root_parent
  have hnkc2 : ∀ j, (getB bs2 j).nb_kept_children = (getB bs j).nb_kept_children := by
    intro j
    rcases eq_or_ne j sli.idx with he | he
    · rw [he, hget2x]
    · rw [hget2ne j he]
  have hmatch3 : ∀ j, (getB bs3 j).has_match =
      if j = sli.idx then false else (getB bs j).has_match := by
    intro j
    rcases eq_or_ne j p with hjp | hjp
    · rw [hjp, hget3p, hpar]
      dsimp only
      rcases eq_or_ne p sli.idx with hpx | hpx
      · rw [hpx, hget2x, if_pos rfl]
      · rw [hget2ne p hpx, if_neg hpx]
    · rw [hget3ne j hjp]
      rcases eq_or_ne j sli.idx with hjx | hjx
      · rw [hjx, hget2x, if_pos rfl]
      · rw [hget2ne j hjx, if_neg hjx]
  have hnkc3 : ∀ j, (getB bs3 j).nb_kept_children =
      if j = p then (getB bs j).nb_kept_children - 1
      else (getB bs j).nb_kept_children := by
    intro j
    rcases eq_or_ne j p with hjp | hjp
    · rw [hjp, hget3p, hpar, if_pos rfl]
      dsimp only
      rw [hnkc2]
    · rw [hget3ne j hjp, if_neg hjp, hnkc2]
  have hpar3 : ∀ j, (getB bs3 j).parent_idx = (getB bs j).parent_idx := by
    intro j
    rcases eq_or_ne j p with hjp | hjp
    · rw [hjp, hget3p, hpar]
      dsimp only
      rcases eq_or_ne p sli.idx with hpx | hpx
      · rw [hpx, hget2x]
      · rw [hget2ne p hpx]
    · rw [hget3ne j hjp]
      rcases eq_or_ne j sli.idx with hjx | hjx
      · rw [hjx, hget2x]
      · rw [hget2ne j hjx]
  have hdep3 : ∀ j, (getB bs3 j).depth = (getB bs j).depth := by
    intro j
    rcases eq_or_ne j p with hjp | hjp
    · rw [hjp, hget3p, hpar]
      dsimp only
      rcases eq_or_ne p sli.idx with hpx | hpx
      · rw [hpx, hget2x]
      · rw [hget2ne p hpx]
    · rw [hget3ne j hjp]
      rcases eq_or_ne j sli.idx with hjx | hjx
      · rw [hjx, hget2x]
      · rw [hget2ne j hjx]
  have hframe3 : ∀ j, getB bs3 j = { getB bs j with
      has_match := (getB bs3 j).has_match,
      nb_kept_children := (getB bs3 j).nb_kept_children } := by
    intro j
    rcases eq_or_ne j p with hjp | hjp
    · subst hjp
      rw [hget3p, hpar]
      rcases eq_or_ne j sli.idx with hpx | hpx
      · rw [hpx, hget2x]
      · rw [hget2ne j hpx]
    · rw [hget3ne j hjp]
      rcases eq_or_ne j sli.idx with hjx | hjx
      · rw [hjx, hget2x]
      · rw [hget2ne j hjx]
  have hmono3 : ∀ j, (getB bs3 j).has_match = true → (getB bs j).has_match = true := by
    intro j hj
    rw [hmatch3 j] at hj
    rcases eq_or_ne j sli.idx with hjx | hjx
    · rw [if_pos hjx] at hj
      exact absurd hj (by simp)
    · rw [if_neg hjx] at hj
      exact hj
  have htail_nodup : (out.drop 1).Nodup :=
    h.out_nodup.sublist (List.drop_sublist 1 out)
  have hzero_not_tail : 0 ∉ out.drop 1 := by
    have hnd := h.out_nodup
    rw [TLInv_out_cons h, List.nodup_cons] at hnd
    exact hnd.1
  -- when the popped index is not the root, its parent keeps at least one child
  have hnkcp_pos : sli.idx ≠ 0 → 1 ≤ (getB bs p).nb_kept_children := by
    intro hxne
    have hxt : sli.idx ∈ out.drop 1 :=
      TLInv_mem_tail h hxo (Nat.pos_of_ne_zero hxne)
    have hpos : 0 < (out.drop 1).countP
        (fun i => (getB bs i).has_match && ((getB bs i).parent_idx == p)) := by
      rw [List.countP_pos_iff]
      exact ⟨sli.idx, hxt, by simp [hxm, hpeq]⟩
    have := h.nkc_char (by omega) p
    omega
  -- count bookkeeping
  have hcount3 : out.countP (fun i => (getB bs3 i).has_match) + 1 =
      out.countP (fun i => (getB bs i).has_match) := by
    refine countP_nodup_update _ _ h.out_nodup hxo ?_ ?_ hxm
    · intro y _ hy
      rw [hmatch3 y, if_neg hy]
    · rw [hmatch3 sli.idx, if_pos rfl]
  refine ⟨?_, hlen3, hframe3, hmono3⟩
  constructor
  case root_lt => rw [hlen3]; exact h.root_lt
  case root_parent => rw [hpar3]; exact h.root_parent
  case root_match =>
    intro hcnt
    have hxne := TLInv_pop_ne_root h hcnt hxo hxm hxk
    rw [hmatch3, if_neg (fun he => hxne he.symm)]
    exact h.root_match (by omega)
  case parent_lt =>
    intro i hi0 hil
    rw [hlen3] at hil
    rw [hpar3]
    exact h.parent_lt i hi0 hil
  case out_head => exact h.out_head
  case out_lt =>
    intro i hi
    rw [hlen3]
    exact h.out_lt i hi
  case out_nodup => exact h.out_nodup
  case out_parent =>
    intro i hi
    rw [hpar3]
    exact h.out_parent i hi
  case closure_out =>
    intro i hi hi0 him
    have hix : i ≠ sli.idx := by
      intro he
      rw [hmatch3, if_pos he] at him
      exact absurd him (by simp)
    rw [hmatch3, if_neg hix] at him
    have hpm := h.closure_out i hi hi0 him
    have hpnex : (getB bs i).parent_idx ≠ sli.idx := by
      intro he
      have hit : i ∈ out.drop 1 := TLInv_mem_tail h hi hi0
      have hpos : 0 < (out.drop 1).countP
          (fun i2 => (getB bs i2).has_match && ((getB bs i2).parent_idx == sli.idx)) := by
        rw [List.countP_pos_iff]
        exact ⟨i, hit, by simp [him, he]⟩
      have := h.nkc_char (by omega) sli.idx
      omega
    rw [hpar3, hmatch3, if_neg hpnex]
    exact hpm
  case count_eq =>
    have := h.count_eq
    omega
  case nkc_char =>
    intro hcnt j
    have hxne := TLInv_pop_ne_root h hcnt hxo hxm hxk
    have hcp : (out.drop 1).countP (fun i =>
        (getB bs3 i).has_match && ((getB bs3 i).parent_idx == j)) =
        (out.drop 1).countP (fun i =>
          (if i = sli.idx then false else (getB bs i).has_match) &&
            ((getB bs i).parent_idx == j)) := by
      refine countP_ext _ _ _ ?_
      intro y _
      rw [hmatch3 y, hpar3 y]
    rw [hcp, hnkc3]
    rcases eq_or_ne j p with hjp | hjp
    · rw [if_pos hjp]
      subst hjp
      have hup : (out.drop 1).countP (fun i =>
          (if i = sli.idx then false else (getB bs i).has_match) &&
            ((getB bs i).parent_idx == j)) + 1 =
          (out.drop 1).countP (fun i =>
            (getB bs i).has_match && ((getB bs i).parent_idx == j)) := by
        refine countP_nodup_update _ _ htail_nodup
          (TLInv_mem_tail h hxo (Nat.pos_of_ne_zero hxne)) ?_ ?_ ?_
        · intro y _ hy
          rw [if_neg hy]
        · rw [if_pos rfl]
          simp
        · simp [hxm, hpeq]
      have := h.nkc_char (by omega) j
      omega
    · rw [if_neg hjp]
      have hceq : (out.drop 1).countP (fun i =>
          (if i = sli.idx then false else (getB bs i).has_match) &&
            ((getB bs i).parent_idx == j)) =
          (out.drop 1).countP (fun i =>
            (getB bs i).has_match && ((getB bs i).parent_idx == j)) := by
        refine countP_ext _ _ _ ?_
        intro y _
        rcases eq_or_ne y sli.idx with hyx | hyx
        · rw [if_pos hyx, hyx]
          have hb : ((getB bs sli.idx).parent_idx == j) = false := by
            simp only [beq_eq_false_iff_ne, ne_eq]
            rw [← hpeq]
            exact fun he => hjp he.symm
          simp [hb]
        · rw [if_neg hyx]
      rw [hceq]
      exact h.nkc_char (by omega) j
  case q_mem =>
    intro hcnt s hs
    have hxne := TLInv_pop_ne_root h hcnt hxo hxm hxk
    have hq2 : ∀ z ∈ queue2, z.idx ∈ out ∧ (getB bs3 z.idx).has_match = true ∧
        (getB bs3 z.idx).nb_kept_children = 0 := by
      intro z hz
      obtain ⟨hzo, hzm, hzk⟩ := h.q_mem (by omega) z (heapPop_rest_subset hpop hz)
      have hzx : z.idx ≠ sli.idx := by
        intro he
        have := (heapPop_idx_facts hpop h.q_nodup).1
        exact this (he ▸ List.mem_map_of_mem (fun s => s.idx) hz)
      have hzp : z.idx ≠ p := by
        intro he
        have := hnkcp_pos hxne
        rw [he] at hzk
        omega
      refine ⟨hzo, ?_, ?_⟩
      · rw [hmatch3, if_neg hzx]
        exact hzm
      · rw [hnkc3, if_neg hzp]
        exact hzk
    rw [hq3] at hs
    by_cases hpush : (par.nb_kept_children == 0) = true
    · rw [if_pos hpush] at hs
      rcases List.mem_cons.mp ((heapPush_perm _ _).mem_iff.mp hs) with he | hm2
      · subst he
        dsimp only
        refine ⟨hpo, ?_, ?_⟩
        · rw [hmatch3, if_neg (by
            rw [hpeq]
            intro he
            have := h.parent_lt sli.idx (Nat.pos_of_ne_zero hxne) hx_lt
            omega)]
          have := h.closure_out sli.idx hxo (Nat.pos_of_ne_zero hxne) hxm
          rw [← hpeq] at this
          exact this
        · rw [hnkc3, if_pos rfl]
          have hbeq : par.nb_kept_children = 0 := by
            simpa using hpush
          rw [hpar] at hbeq
          dsimp only at hbeq
          rw [hnkc2] at hbeq
          omega
      · exact hq2 s hm2
    · rw [if_neg hpush] at hs
      exact hq2 s hs
  case q_nodup =>
    have hq2nd := (heapPop_idx_facts hpop h.q_nodup).2
    rw [hq3]
    by_cases hpush : (par.nb_kept_children == 0) = true
    · rw [if_pos hpush]
      have hperm := (heapPush_perm queue2
        { idx := p, score := par.score }).map (fun s => s.idx)
      refine hperm.nodup_iff.mpr ?_
      rw [List.map_cons, List.nodup_cons]
      refine ⟨?_, hq2nd⟩
      have hx0ne : sli.idx ≠ 0 := by
        intro hx0
        have hbeq : par.nb_kept_children = 0 := by simpa using hpush
        rw [hpar] at hbeq
        dsimp only at hbeq
        rw [hnkc2, hpx_cases hx0] at hbeq
        have hz0 : (getB bs 0).nb_kept_children = 0 := hx0 ▸ hxk
        omega
      intro hmem
      obtain ⟨z, hz, hze⟩ := List.mem_map.mp hmem
      obtain ⟨hzo, hzm, hzk⟩ := h.q_mem (by omega) z (heapPop_rest_subset hpop hz)
      dsimp only at hze
      have := hnkcp_pos hx0ne
      rw [hze] at hzk
      omega
    · rw [if_neg hpush]
      exact hq2nd
  case q_complete =>
    intro i hit him hik hid
    have hix : i ≠ sli.idx := by
      intro he
      rw [hmatch3, if_pos he] at him
      exact absurd him (by simp)
    rw [hmatch3, if_neg hix] at him
    rw [hnkc3] at hik
    have hdep := hdep3 i
    rw [hdep] at hid
    rcases eq_or_ne i p with hip | hip
    · rw [if_pos hip] at hik
      -- the parent's counter just hit zero: it was pushed
      have hparz : par.nb_kept_children = 0 := by
        rw [hpar]
        dsimp only
        rw [hnkc2, ← hip]
        omega
      refine ⟨{ idx := p, score := par.score }, ?_, hip.symm⟩
      rw [hq3, if_pos (by simp [hparz])]
      exact heapPush_mem_self _ _
    · rw [if_neg hip] at hik
      obtain ⟨s, hs, hse⟩ := h.q_complete i hit him hik hid
      refine ⟨s, ?_, hse⟩
      have hsx : s ≠ sli := by
        intro he
        rw [he] at hse
        exact hix hse.symm
      have hs2 : s ∈ queue2 := heapPop_mem_rest hpop hs hsx
      rw [hq3]
      by_cases hpush : (par.nb_kept_children == 0) = true
      · rw [if_pos hpush]
        exact heapPush_mem_of_mem _ hs2
      · rw [if_neg hpush]
        exact hs2

/-- The removal loop of `trim_excess`: it preserves the loop invariant, only
turns `has_match` flags off, and stops either at or below the target or with
an empty queue. -/
theorem trimLoop_spec (H : Nat) (options : TreeOptions) :
    ∀ (count : Nat) (queue : List SortableBLineIdx) (bs : List BLine) (out : List Nat),
    TLInv options out bs count queue →
    (trimLoop H count queue bs).1.length = bs.length ∧
    (∀ j, getB (trimLoop H count queue bs).1 j = { getB bs j with
      has_match := (getB (trimLoop H count queue bs).1 j).has_match,
      nb_kept_children := (getB (trimLoop H count queue bs).1 j).nb_kept_children }) ∧
    (∀ j, (getB (trimLoop H count queue bs).1 j).has_match = true →
      (getB bs j).has_match = true) ∧
    TLInv options out (trimLoop H count queue bs).1 (trimLoop H count queue bs).2.1
      (trimLoop H count queue bs).2.2 ∧
    ((trimLoop H count queue bs).2.1 ≤ H ∨ (trimLoop H count queue bs).2.2 = []) ∧
    (0 < count → 1 ≤ H → 0 < (trimLoop H count queue bs).2.1) := by
  intro count
  induction count with
  | zero =>
    intro queue bs out h
    exact ⟨rfl, fun j => rfl, fun j hj => hj, h, Or.inl (Nat.zero_le H), fun h0 _ => h0⟩
  | succ count ih =>
    intro queue bs out h
    rw [trimLoop]
    by_cases hstop : count + 1 ≤ H
    · rw [if_pos hstop]
      exact ⟨rfl, fun j => rfl, fun j hj => hj, h, Or.inl hstop,
        fun _ _ => Nat.succ_pos count⟩
    · rw [if_neg hstop]
      rcases hpop : heapPop queue with _ | ⟨sli, queue2⟩
      · dsimp only
        have hqe : queue = [] := (heapPop_eq_none_iff queue).mp hpop
        exact ⟨rfl, fun j => rfl, fun j hj => hj, h, Or.inr hqe,
          fun _ _ => Nat.succ_pos count⟩
      · dsimp only
        obtain ⟨h3, hlen3, hframe3, hmono3⟩ := trimStep_TLInv h hpop rfl rfl rfl rfl rfl
        obtain ⟨ih1, ih2, ih3, ih4, ih5, ih6⟩ := ih _ _ out h3
        refine ⟨?_, ?_, ?_, ih4, ih5, ?_⟩
        · rw [ih1, hlen3]
        · intro j
          exact (ih2 j).trans (by rw [hframe3 j])
        · intro j hj
          exact hmono3 j (ih3 j hj)
        · intro _ hH
          exact ih6 (by omega) hH

theorem exists_max_measure (f : Nat → Nat) :
    ∀ (l : List Nat), l ≠ [] → ∃ m, m ∈ l ∧ ∀ x ∈ l, f x ≤ f m := by
  intro l
  induction l with
  | nil => intro hne; exact absurd rfl hne
  | cons a t ih =>
    intro _
    rcases eq_or_ne t [] with hte | htne
    · subst hte
      refine ⟨a, List.mem_cons_self a [], ?_⟩
      intro x hx
      simp only [List.mem_singleton] at hx
      subst hx
      exact Nat.le_refl _
    · obtain ⟨m, hm, hmax⟩ := ih htne
      rcases Nat.le_total (f a) (f m) with hle | hle
      · refine ⟨m, List.mem_cons_of_mem a hm, ?_⟩
        intro x hx
        rcases List.mem_cons.mp hx with he | hxt
        · subst he; exact hle
        · exact hmax x hxt
      · refine ⟨a, List.mem_cons_self a t, ?_⟩
        intro x hx
        rcases List.mem_cons.mp hx with he | hxt
        · subst he; exact Nat.le_refl _
        · exact Nat.le_trans (hmax x hxt) hle

/-- `trim_excess` only turns `has_match` flags off, keeps the root whenever
the target is at least one line, keeps the kept set ancestor-closed on the
candidate list, and leaves at most the targeted number of kept candidates
unless `show_sizes` keeps first-level lines alive. -/
theorem trim_excess_spec (options : TreeOptions) (H : Nat) {bs : List BLine}
    {out : List Nat} (hC : CInv bs out) :
    (trim_excess options H bs out).length = bs.length ∧
    (∀ j, getB (trim_excess options H bs out) j = { getB bs j with
      has_match := (getB (trim_excess options H bs out) j).has_match,
      nb_kept_children := (getB (trim_excess options H bs out) j).nb_kept_children }) ∧
    (∀ j, (getB (trim_excess options H bs out) j).has_match = true →
      (getB bs j).has_match = true) ∧
    (1 ≤ H → (getB (trim_excess options H bs out) 0).has_match = true) ∧
    (∀ i ∈ out, 0 < i → (getB (trim_excess options H bs out) i).has_match = true →
      (getB (trim_excess options H bs out)
        (getB (trim_excess options H bs out) i).parent_idx).has_match = true) ∧
    (out.countP (fun i => (getB (trim_excess options H bs out) i).has_match) ≤ max H 1 ∨
      (options.show_sizes = true ∧ ∀ i ∈ out,
        (getB (trim_excess options H bs out) i).has_match = true →
        i = 0 ∨ (getB bs i).depth = 1)) := by
  have hout_cons : out = 0 :: out.drop 1 := by
    have h1 := hC.out_head
    cases out with
    | nil => simp at h1
    | cons a t =>
      simp only [List.head?_cons, Option.some.injEq] at h1
      subst h1
      rfl
  have hzero_not_tail : 0 ∉ out.drop 1 := by
    have hnd := hC.out_nodup
    rw [hout_cons, List.nodup_cons] at hnd
    exact hnd.1
  have htail_sub : ∀ i ∈ out.drop 1, i ∈ out := by
    intro i hi
    rw [hout_cons]
    exact List.mem_cons_of_mem 0 hi
  have htail_pos : ∀ i ∈ out.drop 1, 0 < i := by
    intro i hi
    rcases Nat.eq_zero_or_pos i with he | hp
    · subst he
      exact absurd hi hzero_not_tail
    · exact hp
  have hpl_out : ∀ i ∈ out.drop 1, (getB bs i).parent_idx < bs.length := by
    intro i hi
    have hilt := hC.out_lt i (htail_sub i hi)
    have := hC.parent_lt i (htail_pos i hi) hilt
    omega
  obtain ⟨p1len, p1frame, p1count, p1nkc⟩ :=
    trimCount_fold (out.drop 1) bs 1 hpl_out
  -- phase-1 field preservation
  have hm1 : ∀ j, (getB ((out.drop 1).foldl trimCountStep (bs, 1)).1 j).has_match =
      (getB bs j).has_match := by
    intro j
    rw [p1frame j]
  have hpar1 : ∀ j, (getB ((out.drop 1).foldl trimCountStep (bs, 1)).1 j).parent_idx =
      (getB bs j).parent_idx := by
    intro j
    rw [p1frame j]
  have hdep1 : ∀ j, (getB ((out.drop 1).foldl trimCountStep (bs, 1)).1 j).depth =
      (getB bs j).depth := by
    intro j
    rw [p1frame j]
  -- the initial loop invariant
  have hT : TLInv options out ((out.drop 1).foldl trimCountStep (bs, 1)).1
      ((out.drop 1).foldl trimCountStep (bs, 1)).2
      ((out.drop 1).foldl (trimSeedStep options
        ((out.drop 1).foldl trimCountStep (bs, 1)).1) []) := by
    have hqperm := trimSeed_fold options ((out.drop 1).foldl trimCountStep (bs, 1)).1
      (out.drop 1) []
    rw [List.nil_append] at hqperm
    constructor
    case root_lt => rw [p1len]; exact hC.root_lt
    case root_parent => rw [hpar1]; exact hC.root_parent
    case root_match =>
      intro _
      rw [hm1]
      exact hC.root_match
    case parent_lt =>
      intro i hi0 hil
      rw [p1len] at hil
      rw [hpar1]
      exact hC.parent_lt i hi0 hil
    case out_head => exact hC.out_head
    case out_lt =>
      intro i hi
      rw [p1len]
      exact hC.out_lt i hi
    case out_nodup => exact hC.out_nodup
    case out_parent =>
      intro i hi
      rw [hpar1]
      exact hC.out_parent i hi
    case closure_out =>
      intro i hi hi0 him
      rw [hm1] at him
      rw [hm1, hpar1]
      exact hC.closure i hi0 (hC.out_lt i hi) him
    case count_eq =>
      rw [p1count]
      have hcp : ∀ (l : List Nat), l.countP (fun i =>
          (getB ((out.drop 1).foldl trimCountStep (bs, 1)).1 i).has_match) =
          l.countP (fun i => (getB bs i).has_match) := fun l =>
        countP_ext _ _ l (fun y _ => hm1 y)
      rw [hcp out]
      conv_rhs => rw [hout_cons]
      rw [List.countP_cons, hC.root_match]
      simp
      omega
    case nkc_char =>
      intro _ j
      rw [p1nkc j, hC.nkc_zero j]
      have hcp : (out.drop 1).countP (fun i =>
          (getB ((out.drop 1).foldl trimCountStep (bs, 1)).1 i).has_match &&
            ((getB ((out.drop 1).foldl trimCountStep (bs, 1)).1 i).parent_idx == j)) =
          (out.drop 1).countP (fun i =>
            (getB bs i).has_match && ((getB bs i).parent_idx == j)) := by
        refine countP_ext _ _ _ ?_
        intro y _
        rw [hm1 y, hpar1 y]
      rw [hcp]
      simp
    case q_mem =>
      intro _ s hs
      have hs2 := hqperm.mem_iff.mp hs
      obtain ⟨i, hif, hie⟩ := List.mem_map.mp hs2
      have hit := List.mem_filter.mp hif
      have helig := hit.2
      unfold trimEligible at helig
      rw [Bool.and_eq_true, Bool.and_eq_true] at helig
      obtain ⟨⟨hm, hk⟩, _⟩ := helig
      subst hie
      refine ⟨htail_sub i hit.1, hm, ?_⟩
      simpa using hk
    case q_nodup =>
      have hqp := hqperm.map (fun s => s.idx)
      refine hqp.nodup_iff.mpr ?_
      rw [List.map_map]
      have : ((fun s => SortableBLineIdx.idx s) ∘ (fun i =>
          ({ idx := i, score := (getB ((out.drop 1).foldl trimCountStep (bs, 1)).1 i).score }
            : SortableBLineIdx))) = fun i => i := by
        funext i
        rfl
      rw [this, List.map_id']
      have := hC.out_nodup.sublist (List.drop_sublist 1 out)
      exact this.filter _
    case q_complete =>
      intro i hit him hik hid
      have helig : trimEligible options ((out.drop 1).foldl trimCountStep (bs, 1)).1 i = true := by
        unfold trimEligible
        rw [Bool.and_eq_true, Bool.and_eq_true]
        refine ⟨⟨him, by rw [hik]; rfl⟩, ?_⟩
        rcases hid with hd | hs
        · rw [decide_eq_true hd, Bool.true_or]
        · rw [hs]
          simp
      refine ⟨⟨i, (getB ((out.drop 1).foldl trimCountStep (bs, 1)).1 i).score⟩, ?_, rfl⟩
      refine hqperm.mem_iff.mpr ?_
      exact List.mem_map_of_mem _ (List.mem_filter.mpr ⟨hit, helig⟩)
  obtain ⟨L1, L2, L3, L4, L5, L6⟩ := trimLoop_spec H options
    ((out.drop 1).foldl trimCountStep (bs, 1)).2
    ((out.drop 1).foldl (trimSeedStep options
      ((out.drop 1).foldl trimCountStep (bs, 1)).1) [])
    ((out.drop 1).foldl trimCountStep (bs, 1)).1 out hT
  have hdef : trim_excess options H bs out =
      (trimLoop H ((out.drop 1).foldl trimCountStep (bs, 1)).2
        ((out.drop 1).foldl (trimSeedStep options
          ((out.drop 1).foldl trimCountStep (bs, 1)).1) [])
        ((out.drop 1).foldl trimCountStep (bs, 1)).1).1 := by
    unfold trim_excess
    rcases hfold : (out.drop 1).foldl trimCountStep (bs, 1) with ⟨bs1, count1⟩
    dsimp only
  have hcount_pos : 0 < ((out.drop 1).foldl trimCountStep (bs, 1)).2 := by
    rw [p1count]
    omega
  rw [hdef]
  have hframe : ∀ j, getB (trimLoop H ((out.drop 1).foldl trimCountStep (bs, 1)).2
      ((out.drop 1).foldl (trimSeedStep options
        ((out.drop 1).foldl trimCountStep (bs, 1)).1) [])
      ((out.drop 1).foldl trimCountStep (bs, 1)).1).1 j =
      { getB bs j with
        has_match := (getB (trimLoop H ((out.drop 1).foldl trimCountStep (bs, 1)).2
          ((out.drop 1).foldl (trimSeedStep options
            ((out.drop 1).foldl trimCountStep (bs, 1)).1) [])
          ((out.drop 1).foldl trimCountStep (bs, 1)).1).1 j).has_match,
        nb_kept_children := (getB (trimLoop H ((out.drop 1).foldl trimCountStep (bs, 1)).2
          ((out.drop 1).foldl (trimSeedStep options
            ((out.drop 1).foldl trimCountStep (bs, 1)).1) [])
          ((out.drop 1).foldl trimCountStep (bs, 1)).1).1 j).nb_kept_children } := by
    intro j
    exact (L2 j).trans (by rw [p1frame j])
  have hmono : ∀ j, (getB (trimLoop H ((out.drop 1).foldl trimCountStep (bs, 1)).2
      ((out.drop 1).foldl (trimSeedStep options
        ((out.drop 1).foldl trimCountStep (bs, 1)).1) [])
      ((out.drop 1).foldl trimCountStep (bs, 1)).1).1 j).has_match = true →
      (getB bs j).has_match = true := by
    intro j hj
    have := L3 j hj
    rw [hm1 j] at this
    exact this
  refine ⟨by rw [L1, p1len], hframe, hmono, ?_, ?_, ?_⟩
  · intro hH
    exact L4.root_match (L6 hcount_pos hH)
  · intro i hi hi0 him
    exact L4.closure_out i hi hi0 him
  · rcases L5 with hle | hqe
    · left
      rw [← L4.count_eq]
      calc (trimLoop H ((out.drop 1).foldl trimCountStep (bs, 1)).2
          ((out.drop 1).foldl (trimSeedStep options
            ((out.drop 1).foldl trimCountStep (bs, 1)).1) [])
          ((out.drop 1).foldl trimCountStep (bs, 1)).1).2.1 ≤ H := hle
        _ ≤ max H 1 := le_max_left H 1
    · by_cases hcle : (trimLoop H ((out.drop 1).foldl trimCountStep (bs, 1)).2
          ((out.drop 1).foldl (trimSeedStep options
            ((out.drop 1).foldl trimCountStep (bs, 1)).1) [])
          ((out.drop 1).foldl trimCountStep (bs, 1)).1).2.1 ≤ H
      · left
        rw [← L4.count_eq]
        exact Nat.le_trans hcle (le_max_left H 1)
      · -- the queue emptied while above the target
        by_cases hex : ∃ i ∈ out.drop 1,
            (getB (trimLoop H ((out.drop 1).foldl trimCountStep (bs, 1)).2
              ((out.drop 1).foldl (trimSeedStep options
                ((out.drop 1).foldl trimCountStep (bs, 1)).1) [])
              ((out.drop 1).foldl trimCountStep (bs, 1)).1).1 i).has_match = true
        · right
          obtain ⟨i0, hi0t, hi0m⟩ := hex
          have hfilne : (out.drop 1).filter (fun i =>
              (getB (trimLoop H ((out.drop 1).foldl trimCountStep (bs, 1)).2
                ((out.drop 1).foldl (trimSeedStep options
                  ((out.drop 1).foldl trimCountStep (bs, 1)).1) [])
                ((out.drop 1).foldl trimCountStep (bs, 1)).1).1 i).has_match) ≠ [] := by
            intro he
            exact (List.filter_eq_nil_iff.mp he) i0 hi0t hi0m
          obtain ⟨y, hyf, hymax⟩ := exists_max_measure (fun i => (getB bs i).depth) _ hfilne
          have hyt := (List.mem_filter.mp hyf).1
          have hym := (List.mem_filter.mp hyf).2
          have hcpos : 0 < (trimLoop H ((out.drop 1).foldl trimCountStep (bs, 1)).2
              ((out.drop 1).foldl (trimSeedStep options
                ((out.drop 1).foldl trimCountStep (bs, 1)).1) [])
              ((out.drop 1).foldl trimCountStep (bs, 1)).1).2.1 := by omega
          -- y has no kept candidate child: any such child would be deeper
          have hynkc : (getB (trimLoop H ((out.drop 1).foldl trimCountStep (bs, 1)).2
              ((out.drop 1).foldl (trimSeedStep options
                ((out.drop 1).foldl trimCountStep (bs, 1)).1) [])
              ((out.drop 1).foldl trimCountStep (bs, 1)).1).1 y).nb_kept_children = 0 := by
            rw [L4.nkc_char hcpos y]
            have : (out.drop 1).countP (fun i =>
                (getB (trimLoop H ((out.drop 1).foldl trimCountStep (bs, 1)).2
                  ((out.drop 1).foldl (trimSeedStep options
                    ((out.drop 1).foldl trimCountStep (bs, 1)).1) [])
                  ((out.drop 1).foldl trimCountStep (bs, 1)).1).1 i).has_match &&
                  ((getB (trimLoop H ((out.drop 1).foldl trimCountStep (bs, 1)).2
                    ((out.drop 1).foldl (trimSeedStep options
                      ((out.drop 1).foldl trimCountStep (bs, 1)).1) [])
                    ((out.drop 1).foldl trimCountStep (bs, 1)).1).1 i).parent_idx == y)) = 0 := by
              rw [List.countP_eq_zero]
              intro z hzt
              rw [Bool.and_eq_true, not_and]
              intro hzm hzp
              have hzpar : (getB bs z).parent_idx = y := by
                have h1 : (getB (trimLoop H ((out.drop 1).foldl trimCountStep (bs, 1)).2
                    ((out.drop 1).foldl (trimSeedStep options
                      ((out.drop 1).foldl trimCountStep (bs, 1)).1) [])
                    ((out.drop 1).foldl trimCountStep (bs, 1)).1).1 z).parent_idx =
                    (getB bs z).parent_idx := by
                  rw [hframe z]
                rw [← h1]
                simpa using hzp
              have hzlt := hC.out_lt z (htail_sub z hzt)
              have hzdepth := hC.depth_succ z (htail_pos z hzt) hzlt
              rw [hzpar] at hzdepth
              have hzf : z ∈ (out.drop 1).filter (fun i =>
                  (getB (trimLoop H ((out.drop 1).foldl trimCountStep (bs, 1)).2
                    ((out.drop 1).foldl (trimSeedStep options
                      ((out.drop 1).foldl trimCountStep (bs, 1)).1) [])
                    ((out.drop 1).foldl trimCountStep (bs, 1)).1).1 i).has_match) :=
                List.mem_filter.mpr ⟨hzt, hzm⟩
              have := hymax z hzf
              omega
            rw [this]
            simp
          have hycond : ¬(1 < (getB (trimLoop H ((out.drop 1).foldl trimCountStep (bs, 1)).2
              ((out.drop 1).foldl (trimSeedStep options
                ((out.drop 1).foldl trimCountStep (bs, 1)).1) [])
              ((out.drop 1).foldl trimCountStep (bs, 1)).1).1 y).depth ∨
              options.show_sizes = false) := by
            intro hcond
            obtain ⟨s, hsq, _⟩ := L4.q_complete y hyt hym hynkc hcond
            rw [hqe] at hsq
            exact List.not_mem_nil s hsq
          rw [not_or] at hycond
          have hss : options.show_sizes = true := by
            cases hss : options.show_sizes
            · exact absurd hss hycond.2
            · rfl
          have hydep : (getB bs y).depth ≤ 1 := by
            have h1 : (getB (trimLoop H ((out.drop 1).foldl trimCountStep (bs, 1)).2
                ((out.drop 1).foldl (trimSeedStep options
                  ((out.drop 1).foldl trimCountStep (bs, 1)).1) [])
                ((out.drop 1).foldl trimCountStep (bs, 1)).1).1 y).depth =
                (getB bs y).depth := by
              rw [hframe y]
            have := hycond.1
            omega
          refine ⟨hss, ?_⟩
          intro i hi him
          rcases Nat.eq_zero_or_pos i with he | hip
          · exact Or.inl he
          · right
            have hit : i ∈ out.drop 1 := by
              rw [hout_cons] at hi
              rcases List.mem_cons.mp hi with he | hm
              · omega
              · exact hm
            have hif : i ∈ (out.drop 1).filter (fun i =>
                (getB (trimLoop H ((out.drop 1).foldl trimCountStep (bs, 1)).2
                  ((out.drop 1).foldl (trimSeedStep options
                    ((out.drop 1).foldl trimCountStep (bs, 1)).1) [])
                  ((out.drop 1).foldl trimCountStep (bs, 1)).1).1 i).has_match) :=
              List.mem_filter.mpr ⟨hit, him⟩
            have hle := hymax i hif
            have hgt : 0 < (getB bs i).depth := by
              have := hC.depth_succ i hip (hC.out_lt i hi)
              omega
            omega
        · left
          push_neg at hex
          have h1 : out.countP (fun i =>
              (getB (trimLoop H ((out.drop 1).foldl trimCountStep (bs, 1)).2
                ((out.drop 1).foldl (trimSeedStep options
                  ((out.drop 1).foldl trimCountStep (bs, 1)).1) [])
                ((out.drop 1).foldl trimCountStep (bs, 1)).1).1 i).has_match) =
              (0 :: out.drop 1).countP (fun i =>
              (getB (trimLoop H ((out.drop 1).foldl trimCountStep (bs, 1)).2
                ((out.drop 1).foldl (trimSeedStep options
                  ((out.drop 1).foldl trimCountStep (bs, 1)).1) [])
                ((out.drop 1).foldl trimCountStep (bs, 1)).1).1 i).has_match) := by
            rw [← hout_cons]
          rw [h1, List.countP_cons]
          have h2 : (out.drop 1).countP (fun i =>
              (getB (trimLoop H ((out.drop 1).foldl trimCountStep (bs, 1)).2
                ((out.drop 1).foldl (trimSeedStep options
                  ((out.drop 1).foldl trimCountStep (bs, 1)).1) [])
                ((out.drop 1).foldl trimCountStep (bs, 1)).1).1 i).has_match) = 0 := by
            rw [List.countP_eq_zero]
            intro z hzt
            cases hzm : (getB (trimLoop H ((out.drop 1).foldl trimCountStep (bs, 1)).2
                ((out.drop 1).foldl (trimSeedStep options
                  ((out.drop 1).foldl trimCountStep (bs, 1)).1) [])
                ((out.drop 1).foldl trimCountStep (bs, 1)).1).1 z).has_match
            · simp
            · exact absurd hzm (hex z hzt)
          rw [h2]
          have hmax1 : 1 ≤ max H 1 := le_max_right H 1
          split <;> omega

/-! ### The emission loop of `into_tree` -/

/-- The on-demand load performed by the emitter on a kept, never-loaded
directory: it only grows the arena, touches no other node, preserves the
loaded node's identity fields, and keeps the cursor bounds. -/
theorem emit_load_facts (env : Env) (options : TreeOptions) {b : Builder} {i : Nat}
    (hi : i < b.blines.length)
    (hcur : ∀ k, (getB b.blines k).next_child_idx ≤ (getB b.blines k).children.length)
    (humt : ∀ d, d < b.blines.length → (getB b.blines d).children_loaded = false →
      (getB b.blines d).children = [])
    (hm : (getB b.blines i).has_match = true) :
    b.blines.length ≤ (load_children env options b i).1.blines.length ∧
    (∀ j, j < b.blines.length → j ≠ i →
      getB (load_children env options b i).1.blines j = getB b.blines j) ∧
    ((getB (load_children env options b i).1.blines i).path = (getB b.blines i).path ∧
     (getB (load_children env options b i).1.blines i).depth = (getB b.blines i).depth ∧
     (getB (load_children env options b i).1.blines i).name = (getB b.blines i).name ∧
     (getB (load_children env options b i).1.blines i).parent_idx = (getB b.blines i).parent_idx ∧
     (getB (load_children env options b i).1.blines i).has_match = true) ∧
    (∀ k, (getB (load_children env options b i).1.blines k).next_child_idx ≤
      (getB (load_children env options b i).1.blines k).children.length) ∧
    (∀ d, d < (load_children env options b i).1.blines.length →
      (getB (load_children env options b i).1.blines d).children_loaded = false →
      (getB (load_children env options b i).1.blines d).children = []) := by
  have hspec0 := load_children_spec env options b i hi
  rcases hld : load_children env options b i with ⟨b1, hcm⟩
  rw [hld] at hspec0
  dsimp only
  obtain ⟨cs, hch, hbounds, hnodupcs, hcover, hfields, hsortcs, hcmiff⟩ :=
    hspec0.children_ext
  dsimp only at hch hbounds hcover hfields hsortcs hcmiff
  have hcore := hspec0.parent_core
  have hlen1 : b.blines.length ≤ b1.blines.length := hspec0.len_le
  have hfr : ∀ j, j < b.blines.length → j ≠ i → getB b1.blines j = getB b.blines j :=
    hspec0.frame
  refine ⟨hlen1, hfr, ⟨hcore.2.1, hcore.2.2.1, hcore.2.2.2.1, hcore.1, ?_⟩, ?_, ?_⟩
  · rw [hspec0.hm, hm]
    rfl
  · intro k
    rcases Nat.lt_or_ge k b.blines.length with hkb | hkb
    · rcases eq_or_ne k i with he | he
      · subst he
        rw [hcore.2.2.2.2.1, hch]
        have := hcur k
        rw [List.length_append]
        omega
      · rw [hfr k hkb he]
        exact hcur k
    · rcases Nat.lt_or_ge k b1.blines.length with hkl | hkl
      · obtain ⟨_, _, _, g4, g5, _⟩ := hfields k (hcover k hkb hkl)
        rw [g4, g5]
        exact Nat.zero_le _
      · rw [getB_oob hkl]
        exact Nat.zero_le _
  · intro d hd hdl
    rcases Nat.lt_or_ge d b.blines.length with hdb | hdb
    · rcases eq_or_ne d i with he | he
      · subst he
        rw [hspec0.loaded] at hdl
        exact absurd hdl (by simp)
      · rw [hfr d hdb he] at hdl ⊢
        exact humt d hdb hdl
    · exact (hfields d (hcover d hdb hd)).2.2.2.1

/-- The emission loop of `into_tree`: it emits one line per kept candidate,
in candidate order, from that candidate's arena record at emission time (and
the record never changes afterwards); it preserves the identity fields of
every pre-existing node and the cursor bounds. -/
theorem emitFold_spec (env : Env) (options : TreeOptions) (bsT : List BLine) :
    ∀ (r : List Nat) (b : Builder) (lines : List TreeLine),
    r.Nodup →
    (∀ j ∈ r, j < bsT.length) →
    bsT.length ≤ b.blines.length →
    (∀ j ∈ r, getB b.blines j = getB bsT j) →
    (∀ j, j < bsT.length →
      (getB b.blines j).path = (getB bsT j).path ∧
      (getB b.blines j).depth = (getB bsT j).depth ∧
      (getB b.blines j).name = (getB bsT j).name ∧
      (getB b.blines j).parent_idx = (getB bsT j).parent_idx ∧
      (getB b.blines j).has_match = (getB bsT j).has_match) →
    (∀ k, (getB b.blines k).next_child_idx ≤ (getB b.blines k).children.length) →
    (∀ d, d < b.blines.length → (getB b.blines d).children_loaded = false →
      (getB b.blines d).children = []) →
    (r.foldl (emitStep env options) (b, lines)).2 =
      lines ++ (r.filter (fun i => (getB bsT i).has_match)).map
        (fun i => to_tree_line env
          (getB (r.foldl (emitStep env options) (b, lines)).1.blines i)) ∧
    bsT.length ≤ (r.foldl (emitStep env options) (b, lines)).1.blines.length ∧
    (∀ k, (getB (r.foldl (emitStep env options) (b, lines)).1.blines k).next_child_idx ≤
      (getB (r.foldl (emitStep env options) (b, lines)).1.blines k).children.length) ∧
    (∀ j, j < bsT.length →
      (getB (r.foldl (emitStep env options) (b, lines)).1.blines j).path = (getB bsT j).path ∧
      (getB (r.foldl (emitStep env options) (b, lines)).1.blines j).depth = (getB bsT j).depth ∧
      (getB (r.foldl (emitStep env options) (b, lines)).1.blines j).name = (getB bsT j).name ∧
      (getB (r.foldl (emitStep env options) (b, lines)).1.blines j).parent_idx =
        (getB bsT j).parent_idx ∧
      (getB (r.foldl (emitStep env options) (b, lines)).1.blines j).has_match =
        (getB bsT j).has_match) ∧
    (∀ j, j < b.blines.length → j ∉ r →
      getB (r.foldl (emitStep env options) (b, lines)).1.blines j = getB b.blines j) := by
  intro r
  induction r with
  | nil =>
    intro b lines _ _ hlen _ hcore hcur humt
    exact ⟨by simp, hlen, hcur, hcore, fun j _ _ => rfl⟩
  | cons i rest ih =>
    intro b lines hnd hbnd hlen hrem hcore hcur humt
    rw [List.nodup_cons] at hnd
    obtain ⟨hinr, hndr⟩ := hnd
    have hi_lt_T : i < bsT.length := hbnd i (List.mem_cons_self i rest)
    have hi_lt : i < b.blines.length := Nat.lt_of_lt_of_le hi_lt_T hlen
    have hremi : getB b.blines i = getB bsT i := hrem i (List.mem_cons_self i rest)
    rw [List.foldl_cons]
    have hstep : emitStep env options (b, lines) i =
        if (getB b.blines i).has_match then
          ((if !(getB b.blines i).children_loaded then
            if (getB b.blines i).line_type = LineType.dir then
              (load_children env options b i).1 else b
          else b),
           lines ++ [to_tree_line env (getB (if !(getB b.blines i).children_loaded then
            if (getB b.blines i).line_type = LineType.dir then
              (load_children env options b i).1 else b
          else b).blines i)])
        else (b, lines) := rfl
    by_cases hm : (getB b.blines i).has_match = true
    · rw [hstep, if_pos hm]
      by_cases hl : (getB b.blines i).children_loaded = true
      · have hb2 : (if !(getB b.blines i).children_loaded then
            if (getB b.blines i).line_type = LineType.dir then
              (load_children env options b i).1 else b
          else b) = b := by
          rw [hl]
          rfl
        rw [hb2]
        obtain ⟨ih1, ih2, ih3, ih4, ih5⟩ := ih b
          (lines ++ [to_tree_line env (getB b.blines i)]) hndr
          (fun j hj => hbnd j (List.mem_cons_of_mem i hj)) hlen
          (fun j hj => hrem j (List.mem_cons_of_mem i hj)) hcore hcur humt
        refine ⟨?_, ih2, ih3, ih4, ?_⟩
        · rw [ih1, List.filter_cons_of_pos (by rw [← hremi]; exact hm)]
          simp only [List.map_cons]
          rw [ih5 i hi_lt hinr]
          simp
        · intro j hjl hjn
          exact ih5 j hjl (fun hc => hjn (List.mem_cons_of_mem i hc))
      · have hl' : (getB b.blines i).children_loaded = false := by
          cases hc : (getB b.blines i).children_loaded
          · rfl
          · exact absurd hc hl
        by_cases hd : (getB b.blines i).line_type = LineType.dir
        · have hb2 : (if !(getB b.blines i).children_loaded then
              if (getB b.blines i).line_type = LineType.dir then
                (load_children env options b i).1 else b
            else b) = (load_children env options b i).1 := by
            rw [hl', if_pos hd]
            rfl
          rw [hb2]
          obtain ⟨f1, f2, f3, f4, f5⟩ := emit_load_facts env options hi_lt hcur humt hm
          obtain ⟨ih1, ih2, ih3, ih4, ih5⟩ := ih (load_children env options b i).1
            (lines ++ [to_tree_line env (getB (load_children env options b i).1.blines i)])
            hndr
            (fun j hj => hbnd j (List.mem_cons_of_mem i hj))
            (Nat.le_trans hlen f1)
            (by
              intro j hj
              have hjne : j ≠ i := fun he => hinr (he ▸ hj)
              have hjlt : j < b.blines.length :=
                Nat.lt_of_lt_of_le (hbnd j (List.mem_cons_of_mem i hj)) hlen
              rw [f2 j hjlt hjne]
              exact hrem j (List.mem_cons_of_mem i hj))
            (by
              intro j hjl
              rcases eq_or_ne j i with he | he
              · subst he
                obtain ⟨g1, g2, g3, g4, g5⟩ := f3
                obtain ⟨c1, c2, c3, c4, c5⟩ := hcore j hjl
                refine ⟨g1.trans c1, g2.trans c2, g3.trans c3, g4.trans c4, ?_⟩
                rw [g5, ← c5, hm]
              · have hjlt : j < b.blines.length := Nat.lt_of_lt_of_le hjl hlen
                rw [f2 j hjlt he]
                exact hcore j hjl)
            f4 f5
          refine ⟨?_, ih2, ih3, ih4, ?_⟩
          · rw [ih1, List.filter_cons_of_pos (by rw [← hremi]; exact hm)]
            simp only [List.map_cons]
            rw [ih5 i (Nat.lt_of_lt_of_le hi_lt f1) hinr]
            simp
          · intro j hjl hjn
            have hjne : j ≠ i := fun he => hjn (he ▸ List.mem_cons_self i rest)
            have h1 := ih5 j (Nat.lt_of_lt_of_le hjl f1)
              (fun hc => hjn (List.mem_cons_of_mem i hc))
            rw [h1, f2 j hjl hjne]
        · have hb2 : (if !(getB b.blines i).children_loaded then
              if (getB b.blines i).line_type = LineType.dir then
                (load_children env options b i).1 else b
            else b) = b := by
            rw [hl', if_neg hd]
            rfl
          rw [hb2]
          obtain ⟨ih1, ih2, ih3, ih4, ih5⟩ := ih b
            (lines ++ [to_tree_line env (getB b.blines i)]) hndr
            (fun j hj => hbnd j (List.mem_cons_of_mem i hj)) hlen
            (fun j hj => hrem j (List.mem_cons_of_mem i hj)) hcore hcur humt
          refine ⟨?_, ih2, ih3, ih4, ?_⟩
          · rw [ih1, List.filter_cons_of_pos (by rw [← hremi]; exact hm)]
            simp only [List.map_cons]
            rw [ih5 i hi_lt hinr]
            simp
          · intro j hjl hjn
            exact ih5 j hjl (fun hc => hjn (List.mem_cons_of_mem i hc))
    · rw [hstep, if_neg hm]
      obtain ⟨ih1, ih2, ih3, ih4, ih5⟩ := ih b lines hndr
        (fun j hj => hbnd j (List.mem_cons_of_mem i hj)) hlen
        (fun j hj => hrem j (List.mem_cons_of_mem i hj)) hcore hcur humt
      refine ⟨?_, ih2, ih3, ih4, ?_⟩
      · rw [ih1, List.filter_cons_of_neg (by
          rw [← hremi]
          simp only [Bool.not_eq_true] at hm ⊢
          cases hc : (getB b.blines i).has_match
          · simp
          · rw [hc] at hm
            exact absurd hm (by simp))]
      · intro j hjl hjn
        exact ih5 j hjl (fun hc => hjn (List.mem_cons_of_mem i hc))

/-! ### From a finished gather to the post-gather invariant -/

theorem gather_lines_CInv {env : Env} {options : TreeOptions} {H : Nat}
    {path : Path} {fuel : Nat} {bres : Builder} {out : List Nat}
    (h : gather_lines env options H (builderFrom env path options) fuel =
      some (some (bres, out))) :
    CInv bres.blines out := by
  unfold gather_lines at h
  rcases hld : load_children env options (builderFrom env path options) 0 with ⟨b1, hcm⟩
  rw [hld] at h
  dsimp only at h
  have hinit := gatherInit_inv env options H path
  rw [hld] at hinit
  dsimp only at hinit
  rcases hloop : gatherLoop env options H fuel
      { b := b1, out := [0], nbOk := 1, openDirs := [0], nextLevel := [], iter := 0 }
      with _ | ost
  · rw [hloop] at h
    exact absurd h (by simp)
  · rw [hloop] at h
    cases ost with
    | none => simp at h
    | some st =>
      dsimp only at h
      have hG := gatherLoop_inv fuel _ st hinit hloop
      have hC := GInv_to_CInv hG
      by_cases hss : options.show_sizes = true
      · rw [if_pos hss] at h
        rcases hdr : drainRoot (getB st.b.blines 0).children.length st.b.blines st.out
          with ⟨bs2, out2⟩
        rw [hdr] at h
        dsimp only at h
        injection h with h
        injection h with h
        have hD := drainRoot_CInv (getB st.b.blines 0).children.length st.b.blines st.out hC
        rw [hdr] at hD
        dsimp only at hD
        have hb : bres = { st.b with blines := bs2 } := by
          have := congrArg Prod.fst h
          dsimp only at this
          exact this.symm
        have ho : out = out2 := by
          have := congrArg Prod.snd h
          dsimp only at this
          exact this.symm
        rw [hb, ho]
        exact hD
      · rw [if_neg hss] at h
        injection h with h
        injection h with h
        have hb : bres = st.b := by
          have := congrArg Prod.fst h
          dsimp only at this
          exact this.symm
        have ho : out = st.out := by
          have := congrArg Prod.snd h
          dsimp only at this
          exact this.symm
        rw [hb, ho]
        exact hC

/-- Everything the claims need about a finished build, in one place: the
emitted lines are the kept candidates in candidate order, each materialized
from the final arena; cursors stay within bounds; identity fields survive
from the gather; the root survives any positive target; the kept set is
ancestor-closed; and the kept count respects the target unless `show_sizes`
protects first-level lines. -/
theorem buildFull_spec {env : Env} {path : Path} {options : TreeOptions} {H fuel : Nat}
    {bFin : Builder} {out : List Nat} {t : Tree}
    (h : buildFull env path options H fuel = some (some (bFin, out, t))) :
    ∃ bres : Builder,
      gather_lines env options H (builderFrom env path options) fuel =
        some (some (bres, out)) ∧
      CInv bres.blines out ∧
      t.lines = (out.filter (fun i =>
        (getB (trim_excess options H bres.blines out) i).has_match)).map
        (fun i => to_tree_line env (getB bFin.blines i)) ∧
      (∀ k, (getB bFin.blines k).next_child_idx ≤ (getB bFin.blines k).children.length) ∧
      (∀ j, j < bres.blines.length →
        (getB bFin.blines j).path = (getB bres.blines j).path ∧
        (getB bFin.blines j).depth = (getB bres.blines j).depth ∧
        (getB bFin.blines j).name = (getB bres.blines j).name ∧
        (getB bFin.blines j).parent_idx = (getB bres.blines j).parent_idx ∧
        (getB bFin.blines j).has_match =
          (getB (trim_excess options H bres.blines out) j).has_match) ∧
      (1 ≤ H → (getB (trim_excess options H bres.blines out) 0).has_match = true) ∧
      (∀ i ∈ out, 0 < i →
        (getB (trim_excess options H bres.blines out) i).has_match = true →
        (getB (trim_excess options H bres.blines out)
          (getB bres.blines i).parent_idx).has_match = true) ∧
      (out.countP (fun i =>
          (getB (trim_excess options H bres.blines out) i).has_match) ≤ max H 1 ∨
        (options.show_sizes = true ∧ ∀ i ∈ out,
          (getB (trim_excess options H bres.blines out) i).has_match = true →
          i = 0 ∨ (getB bres.blines i).depth = 1)) := by
  unfold buildFull at h
  dsimp only at h
  rcases hg : gather_lines env options H (builderFrom env path options) fuel
      with _ | og
  · rw [hg] at h
    exact absurd h (by simp)
  · rw [hg] at h
    cases og with
    | none => simp at h
    | some p =>
      rcases p with ⟨bres, out0⟩
      dsimp only at h
      rcases hfold : out0.foldl (emitStep env options)
          ({ bres with blines := trim_excess options H bres.blines out0 }, [])
          with ⟨bF, lines⟩
      rw [hfold] at h
      dsimp only at h
      injection h with h
      injection h with h
      have hbF : bF = bFin := congrArg (fun q => q.1) h
      have hout : out = out0 := (congrArg (fun q => q.2.1) h).symm
      have ht : t = Tree.mk lines 0 0 bF.nb_gitignored :=
        (congrArg (fun q => q.2.2) h).symm
      subst hout
      have hC := gather_lines_CInv hg
      obtain ⟨T1, T2, T3, T4, T5, T6⟩ := trim_excess_spec options H hC
      have hfr_cursor : ∀ k,
          (getB (trim_excess options H bres.blines out) k).next_child_idx =
            (getB bres.blines k).next_child_idx ∧
          (getB (trim_excess options H bres.blines out) k).children =
            (getB bres.blines k).children ∧
          (getB (trim_excess options H bres.blines out) k).children_loaded =
            (getB bres.blines k).children_loaded ∧
          (getB (trim_excess options H bres.blines out) k).path =
            (getB bres.blines k).path ∧
          (getB (trim_excess options H bres.blines out) k).depth =
            (getB bres.blines k).depth ∧
          (getB (trim_excess options H bres.blines out) k).name =
            (getB bres.blines k).name ∧
          (getB (trim_excess options H bres.blines out) k).parent_idx =
            (getB bres.blines k).parent_idx := by
        intro k
        rw [T2 k]
        exact ⟨rfl, rfl, rfl, rfl, rfl, rfl, rfl⟩
      obtain ⟨E1, E2, E3, E4, E5⟩ := emitFold_spec env options
        (trim_excess options H bres.blines out) out
        { bres with blines := trim_excess options H bres.blines out } []
        hC.out_nodup
        (by
          intro j hj
          rw [T1]
          exact hC.out_lt j hj)
        (Nat.le_refl _)
        (fun j _ => rfl)
        (fun j _ => ⟨rfl, rfl, rfl, rfl, rfl⟩)
        (by
          intro k
          dsimp only
          rw [(hfr_cursor k).1, (hfr_cursor k).2.1]
          exact hC.cursor_le k)
        (by
          intro d hd hdl
          dsimp only at hd hdl ⊢
          rw [T1] at hd
          rw [(hfr_cursor d).2.2.1] at hdl
          rw [(hfr_cursor d).2.1]
          exact hC.unloaded_mt d hd hdl)
      rw [hfold] at E1 E2 E3 E4 E5
      dsimp only at E1 E2 E3 E4 E5
      rw [hbF] at E1 E2 E3 E4
      refine ⟨bres, rfl, hC, ?_, E3, ?_, T4, ?_, T6⟩
      · rw [ht]
        dsimp only
        rw [E1]
        simp
      · intro j hjl
        have hjl2 : j < (trim_excess options H bres.blines out).length := by
          rw [T1]
          exact hjl
        obtain ⟨g1, g2, g3, g4, g5⟩ := E4 j hjl2
        exact ⟨g1.trans (hfr_cursor j).2.2.2.1, g2.trans (hfr_cursor j).2.2.2.2.1,
          g3.trans (hfr_cursor j).2.2.2.2.2.1, g4.trans (hfr_cursor j).2.2.2.2.2.2, g5⟩
      · intro i hi hi0 him
        have := T5 i hi hi0 him
        rw [(hfr_cursor i).2.2.2.2.2.2] at this
        exact this

/-! ### The root's identity survives the whole gather -/

theorem setMatched_frame (bs : List BLine) (idx j : Nat) :
    getB (setMatched bs idx) j = getB bs j ∨
    getB (setMatched bs idx) j = { getB bs j with has_match := true } := by
  rcases eq_or_ne j idx with he | he
  · subst he
    rcases Nat.lt_or_ge j bs.length with hl | hl
    · exact Or.inr (getB_setB_self _ hl)
    · left
      rw [getB_oob hl]
      rw [setMatched]
      have hl2 : (setB bs j { getB bs j with has_match := true }).length ≤ j := by
        rw [length_setB]
        exact hl
      rw [getB_oob hl2]
  · exact Or.inl (getB_setB_ne _ (fun h2 => he h2.symm))

theorem ancestorWalk_frame :
    ∀ (fuel : Nat) (bs : List BLine) (idx nbOk j : Nat),
    getB (ancestorWalk fuel bs idx nbOk).1 j = getB bs j ∨
    getB (ancestorWalk fuel bs idx nbOk).1 j = { getB bs j with has_match := true } := by
  intro fuel
  induction fuel with
  | zero =>
    intro bs idx nbOk j
    rw [ancestorWalk]
    by_cases hm : !(getB bs idx).has_match
    · rw [if_pos hm]
      by_cases hp : (getB bs idx).parent_idx = 0
      · rw [if_pos hp]
        exact setMatched_frame bs idx j
      · rw [if_neg hp]
        exact setMatched_frame bs idx j
    · rw [if_neg hm]
      by_cases hp : (getB bs idx).parent_idx = 0
      · rw [if_pos hp]
        exact Or.inl rfl
      · rw [if_neg hp]
        exact Or.inl rfl
  | succ fuel ih =>
    intro bs idx nbOk j
    rw [ancestorWalk]
    by_cases hm : !(getB bs idx).has_match
    · rw [if_pos hm]
      by_cases hp : (getB bs idx).parent_idx = 0
      · rw [if_pos hp]
        exact setMatched_frame bs idx j
      · rw [if_neg hp]
        rcases ih (setMatched bs idx) (getB bs idx).parent_idx (nbOk + 1) j with h1 | h1 <;>
          rcases setMatched_frame bs idx j with h2 | h2
        · exact Or.inl (h1.trans h2)
        · exact Or.inr (h1.trans h2)
        · rw [h2] at h1
          exact Or.inr h1
        · rw [h2] at h1
          exact Or.inr h1
    · rw [if_neg hm]
      by_cases hp : (getB bs idx).parent_idx = 0
      · rw [if_pos hp]
        exact Or.inl rfl
      · rw [if_neg hp]
        exact ih bs (getB bs idx).parent_idx nbOk j

theorem levelDirStep_root {env : Env} {options : TreeOptions} {tsize : Nat}
    {b : Builder} {nbOk : Nat} {opend out todo : List Nat} {c iter : Nat}
    (h : GInv options tsize
      { b := b, out := out, nbOk := nbOk, openDirs := opend,
        nextLevel := c :: todo, iter := iter })
    {bfin : Builder} {nbOk2 : Nat} {openfin : List Nat}
    (hstep : levelDirStep env options (b, nbOk, opend) c = (bfin, nbOk2, openfin)) :
    (getB bfin.blines 0).path = (getB b.blines 0).path := by
  have hc_out : c ∈ out := h.nld_sub c (List.mem_cons_self c todo)
  have hc_lt : c < b.blines.length := h.out_lt c hc_out
  have hc_pos : 0 < c := h.nld_pos c (List.mem_cons_self c todo)
  have hroot_lt : 0 < b.blines.length := h.root_lt
  have hspec0 := load_children_spec env options b c hc_lt
  rcases hld : load_children env options b c with ⟨b1, hcm⟩
  rw [hld] at hspec0
  rw [levelDirStep_eq, hld] at hstep
  dsimp only at hstep
  have hfr0 : getB b1.blines 0 = getB b.blines 0 := hspec0.frame 0 hroot_lt (by omega)
  cases hcm with
  | false =>
    simp only [Bool.false_eq_true, if_false, Prod.mk.injEq] at hstep
    obtain ⟨hb, _, _⟩ := hstep
    rw [← hb]
    try dsimp only
    rw [hfr0]
  | true =>
    simp only [if_true, Prod.mk.injEq] at hstep
    obtain ⟨hb, _, _⟩ := hstep
    rw [← hb]
    try dsimp only
    rcases ancestorWalk_frame c b1.blines c nbOk 0 with h1 | h1
    · rw [h1, hfr0]
    · rw [h1, hfr0]

theorem levelFold_root (env : Env) (options : TreeOptions) (tsize : Nat)
    (lvl : List Nat) :
    ∀ (b : Builder) (nbOk : Nat) (opend out : List Nat) (iter : Nat),
    GInv options tsize
      { b := b, out := out, nbOk := nbOk, openDirs := opend,
        nextLevel := lvl, iter := iter } →
    (getB (lvl.foldl (levelDirStep env options) (b, nbOk, opend)).1.blines 0).path =
      (getB b.blines 0).path := by
  induction lvl with
  | nil =>
    intro b nbOk opend out iter _
    rfl
  | cons c todo ih =>
    intro b nbOk opend out iter h
    rw [List.foldl_cons]
    rcases hstep : levelDirStep env options (b, nbOk, opend) c with ⟨b2, nbOk2, open2⟩
    have h2 := levelDirStep_inv h hstep
    have hr := levelDirStep_root h hstep
    exact (ih b2 nbOk2 open2 out iter h2).trans hr

theorem gatherStep_root {env : Env} {options : TreeOptions} {tsize : Nat}
    {st st' : GSt} (h : GInv options tsize st)
    (hstep : gatherStep env options st = some st') :
    (getB st'.b.blines 0).path = (getB st.b.blines 0).path := by
  obtain ⟨b, out, nbOk, opend, lvl, iter⟩ := st
  cases opend with
  | cons d rest =>
    simp only [gatherStep] at hstep
    rcases hnc : next_child b.blines d with ⟨blines, oc⟩
    rw [hnc] at hstep
    cases oc with
    | some c =>
      dsimp only at hstep
      injection hstep with hstep
      subst hstep
      obtain ⟨hcur, hceq, hbs⟩ := next_child_some hnc
      dsimp only
      rw [hbs]
      rcases eq_or_ne d 0 with he | he
      · subst he
        rw [getB_setB_self _ h.root_lt]
      · rw [getB_setB_ne _ he]
    | none =>
      dsimp only at hstep
      injection hstep with hstep
      subst hstep
      obtain ⟨hbe, _⟩ := next_child_none hnc
      dsimp only
      rw [hbe]
  | nil =>
    simp only [gatherStep] at hstep
    cases lvl with
    | nil => simp at hstep
    | cons c todo =>
      simp only [List.isEmpty_cons, Bool.false_eq_true, if_false] at hstep
      rcases hfold : List.foldl (levelDirStep env options) (b, nbOk, []) (c :: todo)
        with ⟨b2, nbOk2, open2⟩
      rw [hfold] at hstep
      dsimp only at hstep
      injection hstep with hstep
      subst hstep
      have hlf := levelFold_root env options tsize (c :: todo) b nbOk [] out iter h
      rw [hfold] at hlf
      dsimp only at hlf ⊢
      exact hlf

theorem gatherLoop_root {env : Env} {options : TreeOptions} {tsize : Nat}
    (fuel : Nat) :
    ∀ (st st' : GSt), GInv options tsize st →
    gatherLoop env options tsize fuel st = some (some st') →
    (getB st'.b.blines 0).path = (getB st.b.blines 0).path := by
  induction fuel with
  | zero =>
    intro st st' h hloop
    simp [gatherLoop] at hloop
  | succ fuel ih =>
    intro st st' h hloop
    rw [gatherLoop] at hloop
    by_cases hps : options.pattern.isSome = true
    · rw [if_pos hps] at hloop
      by_cases hb1 : (st.nbOk > 20 * tsize ||
          (decide (st.nbOk ≥ tsize) && env.elapsedLong st.iter)) = true
      · rw [if_pos hb1] at hloop
        injection hloop with hloop
        injection hloop with hloop
        subst hloop
        rfl
      · rw [if_neg hb1] at hloop
        by_cases hb2 : env.expired st.iter = true
        · rw [if_pos hb2] at hloop
          injection hloop with hloop
          exact absurd hloop (by simp)
        · rw [if_neg hb2] at hloop
          rcases hgs : gatherStep env options st with _ | st2
          · rw [hgs] at hloop
            injection hloop with hloop
            injection hloop with hloop
            subst hloop
            rfl
          · rw [hgs] at hloop
            have hbound : options.pattern = none → st.nbOk < tsize := by
              intro hpn
              rw [hpn] at hps
              exact absurd hps (by simp)
            exact (ih st2 st' (gatherStep_inv h hbound hgs) hloop).trans
              (gatherStep_root h hgs)
    · rw [if_neg hps] at hloop
      by_cases hb3 : st.nbOk ≥ tsize
      · rw [if_pos hb3] at hloop
        injection hloop with hloop
        injection hloop with hloop
        subst hloop
        rfl
      · rw [if_neg hb3] at hloop
        rcases hgs : gatherStep env options st with _ | st2
        · rw [hgs] at hloop
          injection hloop with hloop
          injection hloop with hloop
          subst hloop
          rfl
        · rw [hgs] at hloop
          exact (ih st2 st' (gatherStep_inv h (fun _ => by omega) hgs) hloop).trans
            (gatherStep_root h hgs)

theorem drainRoot_path :
    ∀ (fuel : Nat) (bs : List BLine) (out : List Nat),
    (getB (drainRoot fuel bs out).1 0).path = (getB bs 0).path := by
  intro fuel
  induction fuel with
  | zero =>
    intro bs out
    rfl
  | succ fuel ih =>
    intro bs out
    rw [drainRoot]
    rcases hnc : next_child bs 0 with ⟨bs2, oc⟩
    cases oc with
    | some c =>
      dsimp only
      obtain ⟨hcur, _, hbs⟩ := next_child_some hnc
      have hlen : 0 < bs.length := by
        by_contra hc
        push_neg at hc
        rw [getB_oob (by omega)] at hcur
        exact absurd hcur (by decide)
      rw [ih bs2 (out ++ [c]), hbs, getB_setB_self _ hlen]
    | none =>
      dsimp only
      obtain ⟨hbe, _⟩ := next_child_none hnc
      rw [hbe]

theorem gather_lines_root_path {env : Env} {options : TreeOptions} {H : Nat}
    {path : Path} {fuel : Nat} {bres : Builder} {out : List Nat}
    (h : gather_lines env options H (builderFrom env path options) fuel =
      some (some (bres, out))) :
    (getB bres.blines 0).path = path := by
  unfold gather_lines at h
  have hspecI := load_children_spec env options (builderFrom env path options) 0
    (by exact Nat.zero_lt_one)
  rcases hld : load_children env options (builderFrom env path options) 0 with ⟨b1, hcm⟩
  rw [hld] at h hspecI
  dsimp only at h
  have hinit := gatherInit_inv env options H path
  rw [hld] at hinit
  dsimp only at hinit
  have hinitp : (getB b1.blines 0).path = path := by
    have h1 := hspecI.parent_core.2.1
    rw [h1]
    rfl
  rcases hloop : gatherLoop env options H fuel
      { b := b1, out := [0], nbOk := 1, openDirs := [0], nextLevel := [], iter := 0 }
      with _ | ost
  · rw [hloop] at h
    exact absurd h (by simp)
  · rw [hloop] at h
    cases ost with
    | none => simp at h
    | some st =>
      dsimp only at h
      have hlp := gatherLoop_root fuel _ st hinit hloop
      dsimp only at hlp
      rw [hinitp] at hlp
      by_cases hss : options.show_sizes = true
      · rw [if_pos hss] at h
        rcases hdr : drainRoot (getB st.b.blines 0).children.length st.b.blines st.out
          with ⟨bs2, out2⟩
        rw [hdr] at h
        dsimp only at h
        injection h with h
        injection h with h
        have hb : bres = { st.b with blines := bs2 } := by
          have := congrArg Prod.fst h
          dsimp only at this
          exact this.symm
        have hdp := drainRoot_path (getB st.b.blines 0).children.length st.b.blines st.out
        rw [hdr] at hdp
        dsimp only at hdp
        rw [hb]
        dsimp only
        rw [hdp]
        exact hlp
      · rw [if_neg hss] at h
        injection h with h
        injection h with h
        have hb : bres = st.b := by
          have := congrArg Prod.fst h
          dsimp only at this
          exact this.symm
        rw [hb]
        exact hlp

/-! ### Cancellation and error recovery -/

/-- With no pattern active, the main loop never notices the cancellation
token: the expiration check sits inside the pattern branch. -/
theorem gatherLoop_no_cancel {env : Env} {options : TreeOptions} {tsize : Nat}
    (hpn : options.pattern = none) (fuel : Nat) :
    ∀ st, gatherLoop env options tsize fuel st ≠ some none := by
  induction fuel with
  | zero =>
    intro st h
    simp [gatherLoop] at h
  | succ fuel ih =>
    intro st h
    rw [gatherLoop] at h
    have hps : options.pattern.isSome = false := by rw [hpn]; rfl
    rw [if_neg (by rw [hps]; simp)] at h
    by_cases hb3 : st.nbOk ≥ tsize
    · rw [if_pos hb3] at h
      injection h with h
      exact absurd h (by simp)
    · rw [if_neg hb3] at h
      rcases hgs : gatherStep env options st with _ | st2
      · rw [hgs] at h
        injection h with h
        exact absurd h (by simp)
      · rw [hgs] at h
        exact ih st2 h

/-- A cancelled main loop observed an expired token at some iteration. -/
theorem gatherLoop_cancel_expired {env : Env} {options : TreeOptions} {tsize : Nat}
    (fuel : Nat) :
    ∀ st, gatherLoop env options tsize fuel st = some none →
    ∃ n, env.expired n = true := by
  induction fuel with
  | zero =>
    intro st h
    simp [gatherLoop] at h
  | succ fuel ih =>
    intro st h
    rw [gatherLoop] at h
    by_cases hps : options.pattern.isSome = true
    · rw [if_pos hps] at h
      by_cases hb1 : (st.nbOk > 20 * tsize ||
          (decide (st.nbOk ≥ tsize) && env.elapsedLong st.iter)) = true
      · rw [if_pos hb1] at h
        injection h with h
        exact absurd h (by simp)
      · rw [if_neg hb1] at h
        by_cases hb2 : env.expired st.iter = true
        · exact ⟨st.iter, hb2⟩
        · rw [if_neg hb2] at h
          rcases hgs : gatherStep env options st with _ | st2
          · rw [hgs] at h
            injection h with h
            exact absurd h (by simp)
          · rw [hgs] at h
            exact ih st2 h
    · rw [if_neg hps] at h
      by_cases hb3 : st.nbOk ≥ tsize
      · rw [if_pos hb3] at h
        injection h with h
        exact absurd h (by simp)
      · rw [if_neg hb3] at h
        rcases hgs : gatherStep env options st with _ | st2
        · rw [hgs] at h
          injection h with h
          exact absurd h (by simp)
        · rw [hgs] at h
          exact ih st2 h

theorem gather_lines_cancel {env : Env} {options : TreeOptions} {H : Nat}
    {b : Builder} {fuel : Nat}
    (h : gather_lines env options H b fuel = some none) :
    ∃ n, env.expired n = true := by
  unfold gather_lines at h
  rcases hld : load_children env options b 0 with ⟨b1, hcm⟩
  rw [hld] at h
  dsimp only at h
  rcases hloop : gatherLoop env options H fuel
      { b := b1, out := [0], nbOk := 1, openDirs := [0], nextLevel := [], iter := 0 }
      with _ | ost
  · rw [hloop] at h
    exact absurd h (by simp)
  · rw [hloop] at h
    cases ost with
    | none => exact gatherLoop_cancel_expired fuel _ hloop
    | some st =>
      dsimp only at h
      by_cases hss : options.show_sizes = true
      · rw [if_pos hss] at h
        rcases hdr : drainRoot (getB st.b.blines 0).children.length st.b.blines st.out
          with ⟨bs2, out2⟩
        rw [hdr] at h
        dsimp only at h
        injection h with h
        exact absurd h (by simp)
      · rw [if_neg hss] at h
        injection h with h
        exact absurd h (by simp)

theorem gather_lines_no_cancel {env : Env} {options : TreeOptions} {H : Nat}
    {b : Builder} {fuel : Nat} (hpn : options.pattern = none) :
    gather_lines env options H b fuel ≠ some none := by
  intro h
  unfold gather_lines at h
  rcases hld : load_children env options b 0 with ⟨b1, hcm⟩
  rw [hld] at h
  dsimp only at h
  rcases hloop : gatherLoop env options H fuel
      { b := b1, out := [0], nbOk := 1, openDirs := [0], nextLevel := [], iter := 0 }
      with _ | ost
  · rw [hloop] at h
    exact absurd h (by simp)
  · rw [hloop] at h
    cases ost with
    | none => exact gatherLoop_no_cancel hpn fuel _ hloop
    | some st =>
      dsimp only at h
      by_cases hss : options.show_sizes = true
      · rw [if_pos hss] at h
        rcases hdr : drainRoot (getB st.b.blines 0).children.length st.b.blines st.out
          with ⟨bs2, out2⟩
        rw [hdr] at h
        dsimp only at h
        injection h with h
        exact absurd h (by simp)
      · rw [if_neg hss] at h
        injection h with h
        exact absurd h (by simp)

/-- `build` returns the cancelled value only when the gather was cancelled. -/
theorem build_cancel {env : Env} {path : Path} {options : TreeOptions}
    {H fuel : Nat} (h : build env path options H fuel = some none) :
    (∃ n, env.expired n = true) ∧ options.pattern.isSome = true := by
  unfold build at h
  dsimp only at h
  rcases hg : gather_lines env options H (builderFrom env path options) fuel
      with _ | og
  · rw [hg] at h
    exact absurd h (by simp)
  · rw [hg] at h
    cases og with
    | none =>
      refine ⟨gather_lines_cancel hg, ?_⟩
      cases hps : options.pattern with
      | none => exact absurd hg (gather_lines_no_cancel hps)
      | some p => rfl
    | some pr =>
      rcases pr with ⟨bres, out⟩
      dsimp only at h
      injection h with h
      exact absurd h (by simp)

theorem build_no_cancel {env : Env} {path : Path} {options : TreeOptions}
    {H fuel : Nat} (hpn : options.pattern = none) :
    build env path options H fuel ≠ some none := by
  intro h
  obtain ⟨_, hps⟩ := build_cancel h
  rw [hpn] at hps
  exact absurd hps (by simp)

/-- The failure branch of `load_children`: a directory whose read fails is
marked loaded with `has_error` set, yields no children and no match, and
nothing else changes. -/
theorem load_children_error {env : Env} {options : TreeOptions} {b : Builder}
    {idx : Nat} {e : Unit} (hidx : idx < b.blines.length)
    (hfs : env.fs (getB b.blines idx).path = Except.error e) :
    (load_children env options b idx).2 = false ∧
    (load_children env options b idx).1.blines.length = b.blines.length ∧
    getB (load_children env options b idx).1.blines idx =
      { getB b.blines idx with children_loaded := true, has_error := true } ∧
    (∀ j, j ≠ idx → getB (load_children env options b idx).1.blines j =
      getB b.blines j) ∧
    (load_children env options b idx).1.nb_gitignored = b.nb_gitignored := by
  unfold load_children
  rw [hfs]
  dsimp only
  have hidx2 : idx < (markLoaded b idx).blines.length := by
    rw [markLoaded_len]
    exact hidx
  refine ⟨rfl, ?_, ?_, ?_, ?_⟩
  · rw [markError_len, markLoaded_len]
  · rw [markError_getB_self hidx2, markLoaded_getB_self hidx]
  · intro j hj
    rw [markError_getB_ne hj, markLoaded_getB_ne hj]
  · rfl

/-! ### Concrete environments used to witness the properties -/

instance : Inhabited Builder := ⟨{ blines := [], nb_gitignored := 0 }⟩

instance : Inhabited Tree := ⟨{ lines := [], selection := 0, scroll := 0, nb_gitignored := 0 }⟩

/-- A plain file entry. -/
def entFile (n : String) : Except Unit DirEntry :=
  Except.ok { fname := n, nameDecodes := true, ftypeOk := true, isDir := false,
              isSymlink := false, linkTarget := Except.error () }

/-- A directory entry. -/
def entDir (n : String) : Except Unit DirEntry :=
  Except.ok { fname := n, nameDecodes := true, ftypeOk := true, isDir := true,
              isSymlink := false, linkTarget := Except.error () }

/-- A quiet world: one root directory with a sub-directory `d` (itself empty)
and a file `m`; no clock pressure, no gitignore. -/
def envA : Env :=
  { fs := fun p =>
      if p = ["r"] then Except.ok [entDir "d", entFile "m"]
      else if p = ["r", "d"] then Except.ok []
      else Except.error (),
    rootGifFilesEmpty := true,
    gifAccepts := fun _ _ _ _ => true,
    expired := fun _ => false,
    elapsedLong := fun _ => false,
    meta := fun _ => none }

/-- A pattern selecting exactly the name `m`. -/
def optsA : TreeOptions :=
  { show_hidden := true, only_folders := false, show_sizes := false,
    respect_git_ignore := OptionBool.no,
    pattern := some (fun s => if s = "m" then some 0 else none) }

/-- The finished build over `envA` (ten lines targeted, ample fuel). -/
def resA : Builder × List Nat × Tree :=
  match buildFull envA ["r"] optsA 10 20 with
  | some (some r) => r
  | _ => default

/-- No pattern over the same world. -/
def optsPlain : TreeOptions :=
  { show_hidden := true, only_folders := false, show_sizes := false,
    respect_git_ignore := OptionBool.no, pattern := none }

def resPlain : Builder × List Nat × Tree :=
  match buildFull envA ["r"] optsPlain 10 20 with
  | some (some r) => r
  | _ => default

/-- Two equal-score files under the root. -/
def envC7 : Env :=
  { fs := fun p =>
      if p = ["r"] then Except.ok [entFile "a", entFile "b"]
      else Except.error (),
    rootGifFilesEmpty := true,
    gifAccepts := fun _ _ _ _ => true,
    expired := fun _ => false,
    elapsedLong := fun _ => false,
    meta := fun _ => none }

def optsC7 : TreeOptions :=
  { show_hidden := true, only_folders := false, show_sizes := false,
    respect_git_ignore := OptionBool.no,
    pattern := some (fun s => if s = "a" || s = "b" then some 5 else none) }

def resC7 : Builder × List Nat × Tree :=
  match buildFull envC7 ["r"] optsC7 2 20 with
  | some (some r) => r
  | _ => default

/-- A root whose sub-directory `d` cannot be read. -/
def envC8 : Env :=
  { fs := fun p =>
      if p = ["r"] then Except.ok [entDir "d"]
      else Except.error (),
    rootGifFilesEmpty := true,
    gifAccepts := fun _ _ _ _ => true,
    expired := fun _ => false,
    elapsedLong := fun _ => false,
    meta := fun _ => none }

def resC8 : Builder × List Nat × Tree :=
  match buildFull envC8 ["r"] optsPlain 5 20 with
  | some (some r) => r
  | _ => default

/-- A world whose cancellation token is already expired. -/
def envC4 : Env :=
  { fs := fun p => if p = ["r"] then Except.ok [] else Except.error (),
    rootGifFilesEmpty := true,
    gifAccepts := fun _ _ _ _ => true,
    expired := fun _ => true,
    elapsedLong := fun _ => false,
    meta := fun _ => none }

def optsC4 : TreeOptions :=
  { show_hidden := true, only_folders := false, show_sizes := false,
    respect_git_ignore := OptionBool.no,
    pattern := some (fun _ => some 0) }

/-- A gitignore rejecting everything, under a pattern accepting only `b`. -/
def envC5 : Env :=
  { fs := fun p =>
      if p = ["r"] then Except.ok [entFile "a", entFile "b"]
      else Except.error (),
    rootGifFilesEmpty := false,
    gifAccepts := fun _ _ _ _ => false,
    expired := fun _ => false,
    elapsedLong := fun _ => false,
    meta := fun _ => none }

def optsC5 : TreeOptions :=
  { show_hidden := true, only_folders := false, show_sizes := false,
    respect_git_ignore := OptionBool.yes,
    pattern := some (fun s => if s = "b" then some 0 else none) }

/-- The number of entries the spec's sentence predicts for `nb_gitignored`:
after the hidden-name filter, every entry the IgnoreFilter rejects.  (Written
from the specification's filter order, for comparison with the source's
`countIgnored`.) -/
def countIgnoredSpec (env : Env) (options : TreeOptions) (ppath : Path)
    (gif : List Path) (ents : List (Except Unit DirEntry)) : Nat :=
  ents.countP (fun ent =>
    match ent with
    | Except.error _ => false
    | Except.ok e =>
      e.nameDecodes && !(!options.show_hidden && startsWithDot e.fname) &&
        !env.gifAccepts gif (ppath ++ [e.fname]) e.fname e.isDir)

/-! ### Field projections of `to_tree_line` -/

theorem to_tree_line_depth (env : Env) (bl : BLine) :
    (to_tree_line env bl).depth = bl.depth := rfl

theorem to_tree_line_name (env : Env) (bl : BLine) :
    (to_tree_line env bl).name = bl.name := rfl

theorem to_tree_line_path (env : Env) (bl : BLine) :
    (to_tree_line env bl).path = bl.path := rfl

theorem to_tree_line_unlisted (env : Env) (bl : BLine) :
    (to_tree_line env bl).unlisted = bl.children.length - bl.next_child_idx := rfl

/-- The `envA` build finished normally; equation form, used to instantiate
the claims at a concrete input. -/
theorem resA_eq : buildFull envA ["r"] optsA 10 20 =
    some (some (resA.1, resA.2.1, resA.2.2)) := rfl

/-- The depth-1 line of the `envA` build (the file `m`). -/
def lineM : TreeLine := resA.2.2.lines.getD 1 (to_tree_line envA default)

/-- The root line of the `envA` build. -/
def lineR : TreeLine := resA.2.2.lines.getD 0 (to_tree_line envA default)

/-- The `envC8` builder with the root loaded: its line 1 is the unreadable
directory `d`. -/
def bC8 : Builder :=
  (load_children envC8 optsPlain (builderFrom envC8 ["r"] optsPlain) 0).1

/-! ### The claims -/

/-- Claim C1: ancestor closure of the output.  In every finished build, each
output line of depth `d > 0` has its parent's line in the output too: a line
whose path extended by the child's name is the child's path, one depth level
up.  (The parent is kept because `gather_lines` marks every ancestor of a
matched node and `trim_excess` never clears `has_match` on a node that still
has a kept descendant.) -/
theorem claim_C1_ancestor_closure {env : Env} {path : Path} {options : TreeOptions}
    {H fuel : Nat} {bFin : Builder} {out : List Nat} {t : Tree}
    (h : buildFull env path options H fuel = some (some (bFin, out, t))) :
    ∀ l ∈ t.lines, 0 < l.depth →
      ∃ lp ∈ t.lines, lp.path ++ [l.name] = l.path ∧ lp.depth + 1 = l.depth := by
  obtain ⟨bres, hg, hC, hlines, hcur, hid, hroot, hclo, hcount⟩ := buildFull_spec h
  intro l hl hld
  rw [hlines] at hl
  obtain ⟨i, hif, hfi⟩ := List.mem_map.mp hl
  obtain ⟨hiout, him⟩ := List.mem_filter.mp hif
  have hilt : i < bres.blines.length := hC.out_lt i hiout
  obtain ⟨hp1, hp2, hp3, hp4, hp5⟩ := hid i hilt
  have hi0 : 0 < i := by
    by_contra h0
    have hi00 : i = 0 := Nat.eq_zero_of_not_pos h0
    rw [← hfi, to_tree_line_depth, hp2, hi00, hC.root_depth] at hld
    exact Nat.lt_irrefl 0 hld
  have hplt : (getB bres.blines i).parent_idx < i := hC.parent_lt i hi0 hilt
  have hpout : (getB bres.blines i).parent_idx ∈ out := hC.out_parent i hiout
  have hpm : (getB (trim_excess options H bres.blines out)
      (getB bres.blines i).parent_idx).has_match = true := hclo i hiout hi0 him
  obtain ⟨hq1, hq2, hq3, hq4, hq5⟩ :=
    hid (getB bres.blines i).parent_idx (Nat.lt_trans hplt hilt)
  refine ⟨to_tree_line env (getB bFin.blines (getB bres.blines i).parent_idx),
    ?_, ?_, ?_⟩
  · rw [hlines]
    exact List.mem_map_of_mem _ (List.mem_filter.mpr ⟨hpout, hpm⟩)
  · rw [to_tree_line_path, ← hfi, to_tree_line_path, to_tree_line_name,
      hq1, hp1, hp3]
    exact (hC.path_eq i hi0 hilt).symm
  · rw [to_tree_line_depth, ← hfi, to_tree_line_depth, hq2, hp2]
    exact (hC.depth_succ i hi0 hilt).symm

/-- Claim C1, witnessed on the `envA` build: the line of the matched file `m`
has its parent (the root) in the output. -/
theorem claim_C1_witness :
    ∃ lp ∈ resA.2.2.lines, lp.path ++ [lineM.name] = lineM.path ∧
      lp.depth + 1 = lineM.depth :=
  @claim_C1_ancestor_closure envA ["r"] optsA 10 20 resA.1 resA.2.1 resA.2.2
    resA_eq lineM (by decide) (by decide)

/-- Claim C2: a finished build for a targeted height `H ≥ 1` has at most `H`
lines, except when `show_sizes` is set, in which case every line beyond the
root is a direct child of the root (depth at most 1). -/
theorem claim_C2_height_bound {env : Env} {path : Path} {options : TreeOptions}
    {H fuel : Nat} {bFin : Builder} {out : List Nat} {t : Tree}
    (h : buildFull env path options H fuel = some (some (bFin, out, t)))
    (hH : 1 ≤ H) :
    t.lines.length ≤ H ∨
      (options.show_sizes = true ∧ ∀ l ∈ t.lines, l.depth ≤ 1) := by
  obtain ⟨bres, hg, hC, hlines, hcur, hid, hroot, hclo, hcount⟩ := buildFull_spec h
  have hlen : t.lines.length = out.countP
      (fun i => (getB (trim_excess options H bres.blines out) i).has_match) := by
    rw [hlines, List.length_map, List.countP_eq_length_filter]
  rcases hcount with hle | ⟨hss, hdep⟩
  · left
    omega
  · right
    refine ⟨hss, ?_⟩
    intro l hl
    rw [hlines] at hl
    obtain ⟨i, hif, hfi⟩ := List.mem_map.mp hl
    obtain ⟨hiout, him⟩ := List.mem_filter.mp hif
    have hilt : i < bres.blines.length := hC.out_lt i hiout
    obtain ⟨hp1, hp2, hp3, hp4, hp5⟩ := hid i hilt
    rw [← hfi, to_tree_line_depth, hp2]
    rcases hdep i hiout him with h0 | h1
    · rw [h0, hC.root_depth]
      exact Nat.zero_le 1
    · omega

/-- Claim C2, witnessed on the `envA` build (`H = 10`). -/
theorem claim_C2_witness :
    resA.2.2.lines.length ≤ 10 ∨
      (optsA.show_sizes = true ∧ ∀ l ∈ resA.2.2.lines, l.depth ≤ 1) :=
  @claim_C2_height_bound envA ["r"] optsA 10 20 resA.1 resA.2.1 resA.2.2
    resA_eq (by decide)

/-- Claim C3: the first output line of a finished build with `H ≥ 1` is the
root (depth 0, the requested path); moreover the root bline is created with
`has_match = true` unconditionally, before any pattern test. -/
theorem claim_C3_root_first {env : Env} {path : Path} {options : TreeOptions}
    {H fuel : Nat} {bFin : Builder} {out : List Nat} {t : Tree}
    (h : buildFull env path options H fuel = some (some (bFin, out, t)))
    (hH : 1 ≤ H) :
    (getB (builderFrom env path options).blines 0).has_match = true ∧
    ∃ l, t.lines.head? = some l ∧ l.depth = 0 ∧ l.path = path := by
  obtain ⟨bres, hg, hC, hlines, hcur, hid, hroot, hclo, hcount⟩ := buildFull_spec h
  refine ⟨rfl, ?_⟩
  have hrm : (getB (trim_excess options H bres.blines out) 0).has_match = true :=
    hroot hH
  obtain ⟨hp1, hp2, hp3, hp4, hp5⟩ := hid 0 hC.root_lt
  obtain ⟨tl, htl⟩ : ∃ tl, out = 0 :: tl := by
    have h1 := hC.out_head
    cases out with
    | nil => exact absurd h1 (by simp)
    | cons a tail =>
      simp only [List.head?_cons, Option.some.injEq] at h1
      exact ⟨tail, by rw [h1]⟩
  rw [htl] at hrm hlines
  refine ⟨to_tree_line env (getB bFin.blines 0), ?_, ?_, ?_⟩
  · rw [hlines, List.filter_cons, if_pos hrm]
    rfl
  · rw [to_tree_line_depth, hp2, hC.root_depth]
  · rw [to_tree_line_path, hp1]
    exact gather_lines_root_path hg

/-- Claim C3, witnessed on the `envA` build. -/
theorem claim_C3_witness :
    (getB (builderFrom envA ["r"] optsA).blines 0).has_match = true ∧
    ∃ l, resA.2.2.lines.head? = some l ∧ l.depth = 0 ∧ l.path = ["r"] :=
  @claim_C3_root_first envA ["r"] optsA 10 20 resA.1 resA.2.1 resA.2.2
    resA_eq (by decide)

/-- Claim C4: a build with no active pattern never returns the cancelled
value, and a build that does return it observed the cancellation token
expired while a pattern was active; the cancelled value carries no partial
output. -/
theorem claim_C4_cancellation (env : Env) (path : Path) (options : TreeOptions)
    (H fuel : Nat) :
    (options.pattern = none → build env path options H fuel ≠ some none) ∧
    (build env path options H fuel = some none →
      (∃ n, env.expired n = true) ∧ options.pattern.isSome = true) :=
  ⟨fun hpn => build_no_cancel hpn, fun hb => build_cancel hb⟩

/-- Claim C4, witnessed: the `envC4` world (token already expired, pattern
active) is cancelled, and the cancellation is attributed to the expiry. -/
theorem claim_C4_witness :
    build envC4 ["r"] optsC4 5 20 = some none ∧
      (∃ n, envC4.expired n = true) ∧ optsC4.pattern.isSome = true :=
  ⟨rfl, (claim_C4_cancellation envC4 ["r"] optsC4 5 20).2 rfl⟩

/-- Claim C5 (amended).  The source applies the hidden-name filter, then the
pattern and `only_folders` filters (through the file-type dispatch), and the
IgnoreFilter last — not before the pattern as the specification orders them.
Consequently `nb_gitignored` counts exactly the entries on which
`BLine::from` reaches the IgnoreFilter and is rejected by it (the
`countIgnored` of this file), not every entry the IgnoreFilter would reject:
an entry already rejected by the pattern is never counted, which the second
conjunct states (a `GitIgnored` outcome is possible only for a directory or
an entry the pattern accepted). -/
theorem claim_C5_order_amended (env : Env) (options : TreeOptions)
    (b : Builder) (idx : Nat) (ents : List (Except Unit DirEntry))
    (hidx : idx < b.blines.length)
    (hfs : env.fs (getB b.blines idx).path = Except.ok ents) :
    (load_children env options b idx).1.nb_gitignored = b.nb_gitignored +
      countIgnored env options idx (getB b.blines idx).path
        (getB b.blines idx).depth (getB b.blines idx).ignore_filter ents ∧
    (∀ pidx pp e d pif,
      BLine.fromEntry env options pidx pp e d pif = BLineResult.gitIgnored →
      e.isDir = true ∨ (patternScore options e.fname).1 = true) := by
  constructor
  · have hs := (load_children_spec env options b idx hidx).git
    rw [hfs] at hs
    exact hs
  · intro pidx pp e d pif hfe
    cases he : e.isDir with
    | true => exact Or.inl rfl
    | false =>
      right
      cases hmv : (patternScore options e.fname).1 with
      | true => rfl
      | false =>
        exfalso
        unfold BLine.fromEntry at hfe
        split at hfe
        · exact BLineResult.noConfusion hfe
        · split at hfe
          · exact BLineResult.noConfusion hfe
          · split at hfe
            · exact BLineResult.noConfusion hfe
            · have hee : entryLineType options e (patternScore options e.fname).1 =
                  Sum.inl BLineResult.filteredOutByPattern := by
                unfold entryLineType
                rw [he, hmv]
                simp
              rw [hee] at hfe
              exact BLineResult.noConfusion hfe

/-- Claim C5, witnessed on `envC5` (a gitignore rejecting everything, under a
pattern matching only `b`): the increment of `nb_gitignored` is the source's
count, and no pattern-rejected non-directory is ever counted. -/
theorem claim_C5_witness :
    (load_children envC5 optsC5 (builderFrom envC5 ["r"] optsC5) 0).1.nb_gitignored =
      (builderFrom envC5 ["r"] optsC5).nb_gitignored +
      countIgnored envC5 optsC5 0
        (getB (builderFrom envC5 ["r"] optsC5).blines 0).path
        (getB (builderFrom envC5 ["r"] optsC5).blines 0).depth
        (getB (builderFrom envC5 ["r"] optsC5).blines 0).ignore_filter
        [entFile "a", entFile "b"] ∧
    (∀ pidx pp e d pif,
      BLine.fromEntry envC5 optsC5 pidx pp e d pif = BLineResult.gitIgnored →
      e.isDir = true ∨ (patternScore optsC5 e.fname).1 = true) :=
  claim_C5_order_amended envC5 optsC5 (builderFrom envC5 ["r"] optsC5) 0
    [entFile "a", entFile "b"] (by decide) rfl

/-- Claim C5, refuted as stated: in `envC5` the IgnoreFilter rejects both
files `a` and `b`, so the specification's sentence (count every entry the
IgnoreFilter rejects, pattern applied after it) predicts 2, but the build
counts only 1 — the file `a` was already rejected by the pattern, which the
source applies before the IgnoreFilter. -/
theorem claim_C5_counterexample :
    (load_children envC5 optsC5 (builderFrom envC5 ["r"] optsC5) 0).1.nb_gitignored = 1 ∧
    countIgnoredSpec envC5 optsC5 ["r"] [] [entFile "a", entFile "b"] = 2 ∧
    (1 : Nat) ≠ 2 :=
  ⟨rfl, rfl, by decide⟩

/-- Claim C6 (amended).  `unlisted` is `children.len() - next_child_idx`, the
number of accepted children the gather never consumed; it does not count the
consumed children that the pattern filter or the trimmer kept out of the
output.  The correct arithmetic is: for every output line, `unlisted` plus
the node's cursor `next_child_idx` equals the total number of accepted
children (and `unlisted ≥ 0` holds trivially since the cursor never passes
`children.len()`). -/
theorem claim_C6_unlisted_amended {env : Env} {path : Path} {options : TreeOptions}
    {H fuel : Nat} {bFin : Builder} {out : List Nat} {t : Tree}
    (h : buildFull env path options H fuel = some (some (bFin, out, t))) :
    ∀ l ∈ t.lines, ∃ i ∈ out,
      l = to_tree_line env (getB bFin.blines i) ∧
      l.unlisted + (getB bFin.blines i).next_child_idx =
        (getB bFin.blines i).children.length := by
  obtain ⟨bres, hg, hC, hlines, hcur, hid, hroot, hclo, hcount⟩ := buildFull_spec h
  intro l hl
  rw [hlines] at hl
  obtain ⟨i, hif, hfi⟩ := List.mem_map.mp hl
  obtain ⟨hiout, him⟩ := List.mem_filter.mp hif
  refine ⟨i, hiout, hfi.symm, ?_⟩
  rw [← hfi, to_tree_line_unlisted]
  have hc := hcur i
  omega

/-- Claim C6 (amended), witnessed on the root line of the `envA` build. -/
theorem claim_C6_witness :
    ∃ i ∈ resA.2.1, lineR = to_tree_line envA (getB resA.1.blines i) ∧
      lineR.unlisted + (getB resA.1.blines i).next_child_idx =
        (getB resA.1.blines i).children.length :=
  @claim_C6_unlisted_amended envA ["r"] optsA 10 20 resA.1 resA.2.1 resA.2.2
    resA_eq lineR (by decide)

/-- Claim C6, refuted as stated: in the `envA` build the root has 2 accepted
children (`d` and `m`, both consumed), exactly 1 of them appears in the
output (`m`; the unmatched `d` is filtered out), and the root line's
`unlisted` is 0 — so `unlisted` + (children in output) = 0 + 1 ≠ 2 = total
accepted children. -/
theorem claim_C6_counterexample :
    (resA.2.2.lines.getD 0 (to_tree_line envA default)).unlisted = 0 ∧
    resA.2.2.lines.countP (fun l => l.depth == 1) = 1 ∧
    (getB resA.1.blines 0).children.length = 2 ∧
    (0 : Nat) + 1 ≠ 2 :=
  ⟨rfl, rfl, rfl, by decide⟩

/-- Claim C7 (amended).  The comparator of the trimmer's priority queue
orders by score only: on equal scores it returns `Ordering.eq` (so neither
element counts as greater in the heap order), and the binary heap then falls
back to its structural order — pushing two equal-score entries and popping
returns the first-pushed (lower heap position), not the higher arena index
the specification promises. -/
theorem claim_C7_tiebreak_amended :
    (∀ a b : SortableBLineIdx, a.score = b.score →
      SortableBLineIdx.cmp a b = Ordering.eq ∧
      sliGt a b = false ∧ sliGt b a = false) ∧
    heapPop (heapPush (heapPush [] ⟨1, 5⟩) ⟨2, 5⟩) = some (⟨1, 5⟩, [⟨2, 5⟩]) := by
  constructor
  · intro a b hab
    have h1 : SortableBLineIdx.cmp a b = Ordering.eq := by
      simp [SortableBLineIdx.cmp, hab]
    have h2 : SortableBLineIdx.cmp b a = Ordering.eq := by
      simp [SortableBLineIdx.cmp, hab]
    refine ⟨h1, ?_, ?_⟩
    · simp only [sliGt, h1]
      rfl
    · simp only [sliGt, h2]
      rfl
  · rfl

/-- Claim C7, refuted as stated: in the `envC7` build the two files `a`
(arena index 1) and `b` (arena index 2) carry the same score, the comparator
calls them equal, and the trimmer removes `a` — the LOWER arena index — so
the output keeps `b`, not `a` as a higher-index-first tie-break would
produce. -/
theorem claim_C7_counterexample :
    (getB resC7.1.blines 1).name = "a" ∧
    (getB resC7.1.blines 2).name = "b" ∧
    (getB resC7.1.blines 1).score = (getB resC7.1.blines 2).score ∧
    SortableBLineIdx.cmp ⟨1, (getB resC7.1.blines 1).score⟩
      ⟨2, (getB resC7.1.blines 2).score⟩ = Ordering.eq ∧
    resC7.2.2.lines.map (fun l => l.name) = ["r", "b"] :=
  ⟨rfl, rfl, rfl, rfl, rfl⟩

/-- Claim C8: a directory whose read fails is recovered locally — the node
keeps its place in the arena, is marked `children_loaded` with
`has_error = true`, gains no children and reports no match — and a build can
only return the cancelled value for an expired token under an active
pattern, never for a read failure. -/
theorem claim_C8_error_recovery (env : Env) (path : Path) (options : TreeOptions)
    (H fuel : Nat) (b : Builder) (idx : Nat) (e : Unit)
    (hidx : idx < b.blines.length)
    (hfs : env.fs (getB b.blines idx).path = Except.error e) :
    (load_children env options b idx).1.blines.length = b.blines.length ∧
    getB (load_children env options b idx).1.blines idx =
      { getB b.blines idx with children_loaded := true, has_error := true } ∧
    (getB (load_children env options b idx).1.blines idx).children =
      (getB b.blines idx).children ∧
    (load_children env options b idx).2 = false ∧
    (build env path options H fuel = some none →
      (∃ n, env.expired n = true) ∧ options.pattern.isSome = true) := by
  obtain ⟨h1, h2, h3, h4, h5⟩ := load_children_error hidx hfs
  exact ⟨h2, h3, by rw [h3], h1, fun hb => build_cancel hb⟩

/-- Claim C8, witnessed on `envC8`: loading the unreadable directory `d`
(line 1 of the root-loaded builder) flags it and recovers, and the build
cannot come back cancelled (no pattern is active). -/
theorem claim_C8_witness :
    (load_children envC8 optsPlain bC8 1).1.blines.length = bC8.blines.length ∧
    getB (load_children envC8 optsPlain bC8 1).1.blines 1 =
      { getB bC8.blines 1 with children_loaded := true, has_error := true } ∧
    (getB (load_children envC8 optsPlain bC8 1).1.blines 1).children =
      (getB bC8.blines 1).children ∧
    (load_children envC8 optsPlain bC8 1).2 = false ∧
    (build envC8 ["r"] optsPlain 5 20 = some none →
      (∃ n, envC8.expired n = true) ∧ optsPlain.pattern.isSome = true) :=
  claim_C8_error_recovery envC8 ["r"] optsPlain 5 20 bC8 1 () (by decide) rfl

/-- Claim C9: the children of a freshly loaded node are sorted by lowercased
name; for every finished gather the invariant holds of every node, and the
candidate list's members that are children of one node stand in that sorted
order (they form a prefix of the sorted children sequence). -/
theorem claim_C9_sorted_children (env : Env) (options : TreeOptions)
    (b : Builder) (idx : Nat) (hidx : idx < b.blines.length)
    (hempty : (getB b.blines idx).children = []) :
    (getB (load_children env options b idx).1.blines idx).children.Pairwise
      (fun a c =>
        charListLe
          (lowerKey (getB (load_children env options b idx).1.blines a).name)
          (lowerKey (getB (load_children env options b idx).1.blines c).name) =
          true) ∧
    (∀ path H fuel bres out,
      gather_lines env options H (builderFrom env path options) fuel =
        some (some (bres, out)) →
      (∀ d, d < bres.blines.length → (getB bres.blines d).children.Pairwise
        (fun a c => charListLe (lowerKey (getB bres.blines a).name)
          (lowerKey (getB bres.blines c).name) = true)) ∧
      (∀ d, d < bres.blines.length →
        (out.filter (fun c => decide (c ∈ (getB bres.blines d).children))).Pairwise
          (fun a c => charListLe (lowerKey (getB bres.blines a).name)
            (lowerKey (getB bres.blines c).name) = true))) := by
  constructor
  · obtain ⟨cs, hch, hb2, hnd, hcov, hflds, hsort, hcm⟩ :=
      (load_children_spec env options b idx hidx).children_ext
    rw [hch, hempty, List.nil_append]
    exact hsort
  · intro path H fuel bres out hg
    have hC := gather_lines_CInv hg
    refine ⟨fun d hd => hC.sorted d hd, fun d hd => ?_⟩
    rw [hC.consumed_out d hd]
    exact (hC.sorted d hd).sublist (List.take_sublist _ _)

/-- Claim C9, witnessed on the root load of the `envA` world (children `d`
and `m`, in that lowercased-name order). -/
theorem claim_C9_witness :
    (getB (load_children envA optsPlain (builderFrom envA ["r"] optsPlain) 0).1.blines 0).children.Pairwise
      (fun a c =>
        charListLe
          (lowerKey (getB (load_children envA optsPlain (builderFrom envA ["r"] optsPlain) 0).1.blines a).name)
          (lowerKey (getB (load_children envA optsPlain (builderFrom envA ["r"] optsPlain) 0).1.blines c).name) =
          true) ∧
    (∀ path H fuel bres out,
      gather_lines envA optsPlain H (builderFrom envA path optsPlain) fuel =
        some (some (bres, out)) →
      (∀ d, d < bres.blines.length → (getB bres.blines d).children.Pairwise
        (fun a c => charListLe (lowerKey (getB bres.blines a).name)
          (lowerKey (getB bres.blines c).name) = true)) ∧
      (∀ d, d < bres.blines.length →
        (out.filter (fun c => decide (c ∈ (getB bres.blines d).children))).Pairwise
          (fun a c => charListLe (lowerKey (getB bres.blines a).name)
            (lowerKey (getB bres.blines c).name) = true))) :=
  claim_C9_sorted_children envA optsPlain (builderFrom envA ["r"] optsPlain) 0
    (by decide) rfl

/-- Claim C10: the child cursor never passes the children list — in the
final arena of every finished build `next_child_idx ≤ children.len()` holds
of every node (so `to_tree_line`'s subtraction cannot underflow, and
`unlisted + next_child_idx = children.len()` exactly), and the same bound
holds of every node at the end of every gather. -/
theorem claim_C10_cursor_bound :
    (∀ env path options H fuel bFin out t,
      buildFull env path options H fuel = some (some (bFin, out, t)) →
      ∀ k, (getB bFin.blines k).next_child_idx ≤
          (getB bFin.blines k).children.length ∧
        (to_tree_line env (getB bFin.blines k)).unlisted +
          (getB bFin.blines k).next_child_idx =
          (getB bFin.blines k).children.length) ∧
    (∀ env options H path fuel bres out,
      gather_lines env options H (builderFrom env path options) fuel =
        some (some (bres, out)) →
      ∀ k, (getB bres.blines k).next_child_idx ≤
        (getB bres.blines k).children.length) := by
  constructor
  · intro env path options H fuel bFin out t h k
    obtain ⟨bres, hg, hC, hlines, hcur, hrest⟩ := buildFull_spec h
    refine ⟨hcur k, ?_⟩
    rw [to_tree_line_unlisted]
    have hc := hcur k
    omega
  · intro env options H path fuel bres out hg k
    exact (gather_lines_CInv hg).cursor_le k

/-- Claim C10, witnessed on the root of the `envA` build (cursor 2 of 2
children). -/
theorem claim_C10_witness :
    (getB resA.1.blines 0).next_child_idx ≤
      (getB resA.1.blines 0).children.length ∧
    (to_tree_line envA (getB resA.1.blines 0)).unlisted +
      (getB resA.1.blines 0).next_child_idx =
      (getB resA.1.blines 0).children.length :=
  claim_C10_cursor_bound.1 envA ["r"] optsA 10 20 resA.1 resA.2.1 resA.2.2
    resA_eq 0

end TreeBuild
